import Mathlib

/-!
# go-jfif: the JPEG/JFIF marker-segment decoder and encoder

A shallow embedding of `entries.go`, `exif.go` and `utils.go`.

Modelling conventions
* A file opened for reading is its content `B : List Byte` together with a
  position that is threaded through every reader (the file is a regular file:
  `Seek` and `Tell` succeed, `Read` delivers every byte that is left, up to the
  size of the buffer).
* `Byte` (`uint8`) is `Fin 256`; `Word` (`uint16`) is a natural number and the
  only `uint16` arithmetic of the code (`lkp.Len - 2`) is taken modulo `2^16`.
* Positions (`int64`) are natural numbers: a file is far smaller than `2^63`.
* A Go slice that may be `nil` and whose nil-ness is observable (`Data`) is an
  `Option (List Byte)`; `sos.Image` is built with `append` only, so it is `nil`
  exactly when it is empty and is a plain list.
* A function that can end in a run-time panic (index or slice out of range)
  returns `Res.panic`.
* `Exif.Load` loops until it parses an end-of-image entry; the loop takes a
  fuel argument and answers `Outcome.outOfFuel` when the fuel is used up.
* The readers thread the position as an argument and a result. For the peek
  `ReadStructHere`, which has to leave the position where it was, the structure
  `File` carries the position with the content, and `File.ReadStructHere` spells
  out `Tell`, `binary.Read` and `Seek`.
-/

namespace exif

/-! ## Basic types (exif.go) -/

abbrev Byte := Fin 256
abbrev Word := Nat

/-- Conversion `byte(v)` of an unsigned integer: the low eight bits. -/
def toByte (v : Nat) : Byte := ⟨v % 256, Nat.mod_lt _ (by decide)⟩

/-- Errors returned by the readers and writers. -/
inductive Err where
  | EOF
  | ErrUnexpectedEOF
  | invalidEntry (Xff0 XID : Byte)
  | shitHappened (Xff0 XID : Byte)
  | invalidSOI
  | invalidEOI
  | invalidHeader
  | badNumOfSymbolsLen
  | badNumOfSymbolsSum (sum : Nat)
  | badNumOfSymbolsData (len sum : Nat)
  | shortWrite
  | loadEntry (e : Err)
  deriving DecidableEq, Repr

/-- Result of a reader: a value, a returned error, or a run-time panic. -/
inductive Res (α : Type) where
  | ok (a : α)
  | error (e : Err)
  | panic
  deriving DecidableEq, Repr

/-- Result of a loop run with fuel. `failed` carries the receiver as the call
left it. -/
inductive Outcome (σ : Type) where
  | done (s : σ)
  | failed (s : σ) (e : Err)
  | panicked
  | outOfFuel
  deriving DecidableEq, Repr

/-! ## Marker constants (entries.go) -/

@[reducible] def SOI : Byte := 0xd8
@[reducible] def APP0 : Byte := 0xe0
@[reducible] def APP1 : Byte := 0xe1
@[reducible] def APP2 : Byte := 0xe2
@[reducible] def APP3 : Byte := 0xe3
@[reducible] def APP4 : Byte := 0xe4
@[reducible] def APP5 : Byte := 0xe5
@[reducible] def APP6 : Byte := 0xe6
@[reducible] def APP7 : Byte := 0xe7
@[reducible] def APP8 : Byte := 0xe8
@[reducible] def APP9 : Byte := 0xe9
@[reducible] def APPa : Byte := 0xea
@[reducible] def APPb : Byte := 0xeb
@[reducible] def APPc : Byte := 0xec
@[reducible] def APPd : Byte := 0xed
@[reducible] def APPe : Byte := 0xee
@[reducible] def APPf : Byte := 0xef
@[reducible] def DQT : Byte := 0xdb
@[reducible] def SOF0 : Byte := 0xc0
@[reducible] def SOF1 : Byte := 0xc1
@[reducible] def SOF2 : Byte := 0xc2
@[reducible] def SOF3 : Byte := 0xc3
@[reducible] def SOF5 : Byte := 0xc5
@[reducible] def SOF6 : Byte := 0xc6
@[reducible] def SOF7 : Byte := 0xc7
@[reducible] def SOF9 : Byte := 0xc9
@[reducible] def SOFa : Byte := 0xca
@[reducible] def SOFb : Byte := 0xcb
@[reducible] def SOFd : Byte := 0xcd
@[reducible] def SOFe : Byte := 0xce
@[reducible] def SOFf : Byte := 0xcf
@[reducible] def SOS : Byte := 0xda
@[reducible] def DHT : Byte := 0xc4
@[reducible] def DRI : Byte := 0xdd
@[reducible] def RST0 : Byte := 0xd0
@[reducible] def RST7 : Byte := 0xd7
@[reducible] def COM : Byte := 0xfe
@[reducible] def EOI : Byte := 0xd9

/-! ## Binary input and output primitives (utils.go) -/

/-- The method `Read` of a regular file, `fd.Read(buf)` with `len(buf) = n`, at
position `pos`: an empty buffer reads nothing; at the end of the file the
read fails with `EOF`; otherwise the bytes that are left, at most `n`, are
copied to the front of the zeroed buffer and the position moves past them. -/
def fileRead (B : List Byte) (pos n : Nat) : Res (List Byte × Nat) :=
  if n = 0 then .ok ([], pos)
  else if B.length ≤ pos then .error .EOF
  else
    let got := (B.drop pos).take n
    .ok (got ++ List.replicate (n - got.length) 0, pos + got.length)

/-- Reading `n > 0` bytes with `binary.Read` (through `ReadFull`): all of the
`n` bytes, or `EOF` when none is left, or `ErrUnexpectedEOF`. -/
def readFull (B : List Byte) (pos n : Nat) : Res (List Byte × Nat) :=
  if pos + n ≤ B.length then .ok ((B.drop pos).take n, pos + n)
  else if B.length ≤ pos then .error .EOF
  else .error .ErrUnexpectedEOF

/-- Peek of a fixed-size structure of `n` bytes: `Tell`, `binary.Read`, then
`Seek` back to the recorded position, so the position is left as it was. -/
def ReadStructHere (B : List Byte) (pos n : Nat) : Res (List Byte) :=
  match readFull B pos n with
  | .ok (bs, _) => .ok bs
  | .error e => .error e
  | .panic => .panic

/-- Big-endian word of two bytes, as `binary.Read` decodes a `Word` field. -/
def beWord (hi lo : Byte) : Word := 256 * hi.val + lo.val

def GetWordBE (b : List Byte) : Res Word :=
  match b with
  | hi :: lo :: _ => .ok (256 * hi.val + lo.val)
  | _ => .panic

def GetWordLE (b : List Byte) : Res Word :=
  match b with
  | lo :: hi :: _ => .ok (lo.val + 256 * hi.val)
  | _ => .panic

/-- An output sink (`io.Writer`): the bytes accepted so far and the number of
bytes it still accepts (`none`: no limit). -/
structure Writer where
  buf : List Byte
  room : Option Nat
  deriving DecidableEq, Repr

/-- The method `Write` of a sink: accepts all of `p`, or what fits together
with an error. -/
def Writer.Write (fd : Writer) (p : List Byte) : Writer × Option Err :=
  match fd.room with
  | none => ({ fd with buf := fd.buf ++ p }, none)
  | some r =>
    if p.length ≤ r then ({ buf := fd.buf ++ p, room := some (r - p.length) }, none)
    else ({ buf := fd.buf ++ p.take r, room := some 0 }, some .shortWrite)

def WriteWordBE (fd : Writer) (v : Word) : Writer × Option Err :=
  fd.Write [toByte (v / 256), toByte v]

def WriteWordLE (fd : Writer) (v : Word) : Writer × Option Err :=
  fd.Write [toByte v, toByte (v / 256)]

def WriteBytes (fd : Writer) (v : List Byte) : Writer × Option Err :=
  fd.Write v

def WriteByte (fd : Writer) (v : Byte) : Writer × Option Err :=
  fd.Write [v]

/-- Sequencing of writes, `if e = ...; e != nil { return e; }`: the next write
runs only when the one before returned no error. -/
def andThen (r : Writer × Option Err) (next : Writer → Writer × Option Err) :
    Writer × Option Err :=
  match r.2 with
  | none => next r.1
  | some e => (r.1, some e)

/-! ## Entries (entries.go) -/

structure lookupHeader where
  Xff0 : Byte
  XID : Byte
  Len : Word
  deriving DecidableEq, Repr

def lookupHeader.IsValid (lkp : lookupHeader) : Bool :=
  lkp.Xff0 == 255 &&
    (lkp.XID == SOI ||
     lkp.XID == APP0 || lkp.XID == APP1 || lkp.XID == APP2 ||
     lkp.XID == APP3 || lkp.XID == APP4 || lkp.XID == APP5 ||
     lkp.XID == APP6 || lkp.XID == APP7 || lkp.XID == APP8 ||
     lkp.XID == APP9 || lkp.XID == APPa || lkp.XID == APPb ||
     lkp.XID == APPc || lkp.XID == APPd || lkp.XID == APPe ||
     lkp.XID == APPf ||
     lkp.XID == DQT ||
     lkp.XID == SOF0 || lkp.XID == SOF1 || lkp.XID == SOF2 ||
     lkp.XID == SOF3 || lkp.XID == SOF5 || lkp.XID == SOF6 ||
     lkp.XID == SOF7 || lkp.XID == SOF9 || lkp.XID == SOFa ||
     lkp.XID == SOFb || lkp.XID == SOFd || lkp.XID == SOFe ||
     lkp.XID == SOFf ||
     lkp.XID == DHT ||
     lkp.XID == SOS ||
     lkp.XID == EOI)

/-- Peek of the four header bytes followed by the validity check. -/
def lookupHeader.Read (B : List Byte) (pos : Nat) : Res lookupHeader :=
  match ReadStructHere B pos 4 with
  | .error e => .error e
  | .panic => .panic
  | .ok bs =>
    let lkp : lookupHeader :=
      { Xff0 := bs.getD 0 0, XID := bs.getD 1 0, Len := beWord (bs.getD 2 0) (bs.getD 3 0) }
    if !lkp.IsValid then .error (.invalidEntry lkp.Xff0 lkp.XID) else .ok lkp

/-- Payload read of a length-delimited segment whose header was peeked at
`pos`. A declared length of 0 returns `nil` and moves nothing; otherwise the
position is set behind the four header bytes and a buffer of `Len - 2` bytes
(a `uint16` difference) is read. -/
def lookupHeader.ReadData (lkp : lookupHeader) (B : List Byte) (pos : Nat) :
    Res (Option (List Byte) × Nat) :=
  if lkp.Len = 0 then .ok (none, pos)
  else
    match fileRead B (pos + 4) ((lkp.Len + 65536 - 2) % 65536) with
    | .error e => .error e
    | .panic => .panic
    | .ok (data, here) => .ok (some data, here)

structure anEntry where
  Xff0 : Byte
  XID : Byte
  deriving DecidableEq, Repr

def anEntry.IsValid (ent : anEntry) : Bool :=
  ent.Xff0 == 255 &&
    (ent.XID == SOI || ent.XID == APP0 || ent.XID == APP1 ||
     ent.XID == APP2 || ent.XID == APP3 || ent.XID == APP4 ||
     ent.XID == APP5 || ent.XID == APP6 || ent.XID == APP7 ||
     ent.XID == APP8 || ent.XID == APP9 || ent.XID == APPa ||
     ent.XID == APPb || ent.XID == APPc || ent.XID == APPd ||
     ent.XID == APPe || ent.XID == APPf || ent.XID == DQT ||
     ent.XID == SOF0 || ent.XID == SOF1 || ent.XID == SOF2 ||
     ent.XID == SOF3 || ent.XID == SOF5 || ent.XID == SOF6 ||
     ent.XID == SOF7 || ent.XID == SOF9 || ent.XID == SOFa ||
     ent.XID == SOFb || ent.XID == SOFd || ent.XID == SOFe ||
     ent.XID == SOFf ||
     ent.XID == DHT || ent.XID == SOS || ent.XID == EOI)

/-! ### Start of image -/

structure SoiEntry where
  Xff0 : Byte
  ID : Byte
  pos : Nat
  deriving DecidableEq, Repr

def SoiEntry.IsValid (soi : SoiEntry) : Bool :=
  soi.Xff0 == 255 && soi.ID == SOI

def SoiEntry.Write (soi : SoiEntry) (fd : Writer) : Writer × Option Err :=
  andThen (WriteByte fd soi.Xff0) fun fd =>
  andThen (WriteByte fd soi.ID) fun fd =>
  (fd, none)

/-- The reader seeks to the start of the file (`fd.Seek(0, 0)`), whatever the
current position is, and reads two bytes there. -/
def SoiEntry.Read (B : List Byte) : Res (SoiEntry × Nat) :=
  match fileRead B 0 2 with
  | .error e => .error e
  | .panic => .panic
  | .ok (tmp, here) =>
    let soi : SoiEntry := { Xff0 := tmp.getD 0 0, ID := tmp.getD 1 0, pos := 0 }
    if !soi.IsValid then .error .invalidSOI else .ok (soi, here)

/-! ### Application segment 0 (JFIF header) -/

structure App0Entry where
  Xff0 : Byte
  ID : Byte
  Length : Word
  Identifier : List Byte
  Version : List Byte
  Units : Byte
  Xdensity : Word
  Ydensity : Word
  Xthumbnail : Byte
  Ythumbnail : Byte
  Data : Option (List Byte)
  pos : Nat
  deriving DecidableEq, Repr

def App0Entry.IsValid (app0 : App0Entry) : Bool :=
  app0.Xff0 == 255 && app0.ID == APP0 &&
    app0.Identifier.getD 0 0 == 0x4a && app0.Identifier.getD 1 0 == 0x46 &&
    app0.Identifier.getD 2 0 == 0x49 && app0.Identifier.getD 3 0 == 0x46 &&
    app0.Identifier.getD 4 0 == 0 &&
    (app0.Units == 0 || app0.Units == 1 || app0.Units == 2)

def App0Entry.Write (app0 : App0Entry) (fd : Writer) : Writer × Option Err :=
  andThen (WriteByte fd app0.Xff0) fun fd =>
  andThen (WriteByte fd app0.ID) fun fd =>
  andThen (WriteWordBE fd app0.Length) fun fd =>
  andThen (fd.Write app0.Identifier) fun fd =>
  andThen (WriteBytes fd app0.Version) fun fd =>
  andThen (WriteByte fd app0.Units) fun fd =>
  andThen (WriteWordBE fd app0.Xdensity) fun fd =>
  andThen (WriteWordBE fd app0.Ydensity) fun fd =>
  andThen (WriteByte fd app0.Xthumbnail) fun fd =>
  andThen (WriteByte fd app0.Ythumbnail) fun fd =>
  andThen (fd.Write (app0.Data.getD [])) fun fd =>
  (fd, none)

/-- The 18 fixed bytes `bs` of an application segment 0, decoded big-endian
field by field as `binary.Read` fills the local structure `tmp`, and copied to
the entry; `Data` is `nil`. -/
def App0Entry.ofFixed (bs : List Byte) (pos : Nat) : App0Entry :=
  { Xff0 := bs.getD 0 0
    ID := bs.getD 1 0
    Length := beWord (bs.getD 2 0) (bs.getD 3 0)
    Identifier := (bs.drop 4).take 5
    Version := (bs.drop 9).take 2
    Units := bs.getD 11 0
    Xdensity := beWord (bs.getD 12 0) (bs.getD 13 0)
    Ydensity := beWord (bs.getD 14 0) (bs.getD 15 0)
    Xthumbnail := bs.getD 16 0
    Ythumbnail := bs.getD 17 0
    Data := none
    pos := pos }

/-- The reader takes the 18 fixed bytes with `binary.Read` (big-endian), checks
them, and reads `3 * Xthumbnail * Ythumbnail` thumbnail bytes when that
product is positive. The declared length is stored and not used. -/
def App0Entry.Read (B : List Byte) (pos : Nat) : Res (App0Entry × Nat) :=
  match readFull B pos 18 with
  | .error e => .error e
  | .panic => .panic
  | .ok (bs, here) =>
    let app0 : App0Entry := App0Entry.ofFixed bs pos
    if !app0.IsValid then .error .invalidHeader
    else
      let tsize := 3 * app0.Xthumbnail.val * app0.Ythumbnail.val
      if tsize > 0 then
        match fileRead B here tsize with
        | .error e => .error e
        | .panic => .panic
        | .ok (data, here2) => .ok ({ app0 with Data := some data }, here2)
      else .ok (app0, here)

/-! ### Other application segments -/

structure AppnEntry where
  Xff0 : Byte
  ID : Byte
  Length : Word
  Data : Option (List Byte)
  pos : Nat
  deriving DecidableEq, Repr

def AppnEntry.IsValid (app : AppnEntry) : Bool :=
  app.Xff0 == 255 &&
    (app.ID == APP1 || app.ID == APP2 || app.ID == APP3 ||
     app.ID == APP4 || app.ID == APP5 || app.ID == APP6 ||
     app.ID == APP7 || app.ID == APP8 || app.ID == APP9 ||
     app.ID == APPa || app.ID == APPb || app.ID == APPc ||
     app.ID == APPd || app.ID == APPe || app.ID == APPf)

def AppnEntry.Write (app : AppnEntry) (fd : Writer) : Writer × Option Err :=
  andThen (WriteByte fd app.Xff0) fun fd =>
  andThen (WriteByte fd app.ID) fun fd =>
  andThen (WriteWordBE fd app.Length) fun fd =>
  andThen (fd.Write (app.Data.getD [])) fun fd =>
  (fd, none)

def AppnEntry.Read (B : List Byte) (pos : Nat) : Res (AppnEntry × Nat) :=
  match lookupHeader.Read B pos with
  | .error e => .error e
  | .panic => .panic
  | .ok tmp =>
    let app : AppnEntry :=
      { Xff0 := tmp.Xff0, ID := tmp.XID, Length := tmp.Len, Data := none, pos := pos }
    if !app.IsValid then .error .invalidHeader
    else
      match tmp.ReadData B pos with
      | .error e => .error e
      | .panic => .panic
      | .ok (data, here) => .ok ({ app with Data := data }, here)

/-! ### Quantization table -/

structure DqtEntry where
  Xff0 : Byte
  ID : Byte
  Length : Word
  Data : Option (List Byte)
  pos : Nat
  deriving DecidableEq, Repr

def DqtEntry.IsValid (dqt : DqtEntry) : Bool :=
  dqt.Xff0 == 255 && dqt.ID == DQT

def DqtEntry.Write (dqt : DqtEntry) (fd : Writer) : Writer × Option Err :=
  andThen (WriteByte fd dqt.Xff0) fun fd =>
  andThen (WriteByte fd dqt.ID) fun fd =>
  andThen (WriteWordBE fd dqt.Length) fun fd =>
  andThen (fd.Write (dqt.Data.getD [])) fun fd =>
  (fd, none)

def DqtEntry.Read (B : List Byte) (pos : Nat) : Res (DqtEntry × Nat) :=
  match lookupHeader.Read B pos with
  | .error e => .error e
  | .panic => .panic
  | .ok tmp =>
    let dqt : DqtEntry :=
      { Xff0 := tmp.Xff0, ID := tmp.XID, Length := tmp.Len, Data := none, pos := pos }
    if !dqt.IsValid then .error .invalidHeader
    else
      match tmp.ReadData B pos with
      | .error e => .error e
      | .panic => .panic
      | .ok (data, here) => .ok ({ dqt with Data := data }, here)

/-! ### Start of frame -/

structure SofEntry where
  Xff0 : Byte
  ID : Byte
  Length : Word
  Precision : Byte
  Height : Word
  Width : Word
  Components : Byte
  Data : Option (List Byte)
  pos : Nat
  deriving DecidableEq, Repr

def SofEntry.IsValid (sof : SofEntry) : Bool :=
  sof.Xff0 == 255 &&
    (sof.ID == SOF0 || sof.ID == SOF1 || sof.ID == SOF2 ||
     sof.ID == SOF3 || sof.ID == SOF5 || sof.ID == SOF6 ||
     sof.ID == SOF7 || sof.ID == SOF9 || sof.ID == SOFa ||
     sof.ID == SOFb || sof.ID == SOFd || sof.ID == SOFe ||
     sof.ID == SOFf)

def SofEntry.Write (sof : SofEntry) (fd : Writer) : Writer × Option Err :=
  andThen (WriteByte fd sof.Xff0) fun fd =>
  andThen (WriteByte fd sof.ID) fun fd =>
  andThen (WriteWordBE fd sof.Length) fun fd =>
  andThen (WriteByte fd sof.Precision) fun fd =>
  andThen (WriteWordLE fd sof.Height) fun fd =>
  andThen (WriteWordLE fd sof.Width) fun fd =>
  andThen (WriteByte fd sof.Components) fun fd =>
  andThen (fd.Write (sof.Data.getD [])) fun fd =>
  (fd, none)

/-- The fields are cut from the payload one after the other: `data[0]`,
`data[1:]`, `GetWordLE(data)`, `data[2:]`, ... Each of these panics on a slice
that is too short (a `nil` payload included). -/
def SofEntry.Read (B : List Byte) (pos : Nat) : Res (SofEntry × Nat) :=
  match lookupHeader.Read B pos with
  | .error e => .error e
  | .panic => .panic
  | .ok tmp =>
    let sof : SofEntry :=
      { Xff0 := tmp.Xff0, ID := tmp.XID, Length := tmp.Len, Precision := 0, Height := 0,
        Width := 0, Components := 0, Data := none, pos := pos }
    if !sof.IsValid then .error .invalidHeader
    else
      match tmp.ReadData B pos with
      | .error e => .error e
      | .panic => .panic
      | .ok (data, here) =>
        match data.getD [] with
        | [] => .panic
        | precision :: data1 =>
          match GetWordLE data1, data1 with
          | .ok height, _ :: _ :: data2 =>
            match GetWordLE data2, data2 with
            | .ok width, _ :: _ :: components :: data3 =>
              .ok ({ sof with Precision := precision, Height := height, Width := width,
                              Components := components, Data := some data3 }, here)
            | _, _ => .panic
          | _, _ => .panic

/-! ### Huffman table -/

structure DhtEntry where
  Xff0 : Byte
  ID : Byte
  Length : Word
  HtInfo : Byte
  NumOfSymbols : List Byte
  Data : Option (List Byte)
  pos : Nat
  deriving DecidableEq, Repr

def DhtEntry.IsValid (dht : DhtEntry) : Bool :=
  dht.Xff0 == 255 && dht.ID == DHT

def DhtEntry.Write (dht : DhtEntry) (fd : Writer) : Writer × Option Err :=
  andThen (WriteByte fd dht.Xff0) fun fd =>
  andThen (WriteByte fd dht.ID) fun fd =>
  andThen (WriteWordBE fd dht.Length) fun fd =>
  andThen (WriteByte fd dht.HtInfo) fun fd =>
  andThen (fd.Write dht.NumOfSymbols) fun fd =>
  andThen (fd.Write (dht.Data.getD [])) fun fd =>
  (fd, none)

/-- Sum of the symbol counts, `for _, b := range dht.NumOfSymbols`. -/
def sumOfSymbols (l : List Byte) : Nat := (l.map fun b => b.val).sum

/-- After `data[0]` and `data[1:]` the slice expressions `data[0:16]` and
`data[16:]` panic when fewer than 16 bytes are left; the three checks follow. -/
def DhtEntry.Read (B : List Byte) (pos : Nat) : Res (DhtEntry × Nat) :=
  match lookupHeader.Read B pos with
  | .error e => .error e
  | .panic => .panic
  | .ok tmp =>
    let dht : DhtEntry :=
      { Xff0 := tmp.Xff0, ID := tmp.XID, Length := tmp.Len, HtInfo := 0, NumOfSymbols := [],
        Data := none, pos := pos }
    if !dht.IsValid then .error .invalidHeader
    else
      match tmp.ReadData B pos with
      | .error e => .error e
      | .panic => .panic
      | .ok (data, here) =>
        match data.getD [] with
        | [] => .panic
        | htInfo :: data1 =>
          if data1.length < 16 then .panic
          else
            let numOfSymbols := data1.take 16
            let data2 := data1.drop 16
            if numOfSymbols.length ≠ 16 then .error .badNumOfSymbolsLen
            else
              let sum := sumOfSymbols numOfSymbols
              if sum > 256 then .error (.badNumOfSymbolsSum sum)
              else if data2.length ≠ sum then .error (.badNumOfSymbolsData data2.length sum)
              else
                .ok ({ dht with HtInfo := htInfo, NumOfSymbols := numOfSymbols,
                                Data := some data2 }, here)

/-! ### Start of scan -/

structure SosComponent where
  Id : Byte
  Ht : Byte
  deriving DecidableEq, Repr

structure SosEntry where
  Xff0 : Byte
  ID : Byte
  Length : Word
  ComponentCount : Byte
  Components : List SosComponent
  Data : Option (List Byte)
  Image : List Byte
  pos : Nat
  deriving DecidableEq, Repr

def SosEntry.IsValid (sos : SosEntry) : Bool :=
  sos.Xff0 == 255 && sos.ID == SOS

/-- The loop `for _, c := range sos.Components` of `SosEntry.Write`. -/
def writeComponents : List SosComponent → Writer → Writer × Option Err
  | [], fd => (fd, none)
  | c :: cs, fd =>
    andThen (WriteByte fd c.Id) fun fd =>
    andThen (WriteByte fd c.Ht) fun fd =>
    writeComponents cs fd

def SosEntry.Write (sos : SosEntry) (fd : Writer) : Writer × Option Err :=
  andThen (WriteByte fd sos.Xff0) fun fd =>
  andThen (WriteByte fd sos.ID) fun fd =>
  andThen (WriteWordBE fd sos.Length) fun fd =>
  andThen (WriteByte fd sos.ComponentCount) fun fd =>
  andThen (writeComponents sos.Components fd) fun fd =>
  andThen (fd.Write (sos.Data.getD [])) fun fd =>
  andThen (fd.Write sos.Image) fun fd =>
  (fd, none)

/-- The loop `for i := 0; i < int(sos.ComponentCount); i++`: each round takes
`data[0]`, `data[1]` and `data[2:]` and panics when fewer than two bytes are
left. -/
def readComponents : Nat → List Byte → Res (List SosComponent × List Byte)
  | 0, data => .ok ([], data)
  | n + 1, id :: ht :: data =>
    match readComponents n data with
    | .ok (cs, rest) => .ok ({ Id := id, Ht := ht } :: cs, rest)
    | .error e => .error e
    | .panic => .panic
  | _ + 1, _ => .panic

/-- The scan loop of `SosEntry.Read`, over the bytes `rest` that are left at
position `pos`: one byte is read per round; the first byte only fills `oxff`;
from then on the pair `(oxff, b)` is tested against `(255, EOI)`: on a match
the position is set back by two and the loop ends, otherwise `oxff` is
appended to the image. The end of the file is the error `EOF`. -/
def scanLoop : List Byte → Nat → Nat → Byte → List Byte → Res (List Byte × Nat)
  | [], _, _, _, _ => .error .EOF
  | b :: rest, pos, img_size, oxff, image =>
    if img_size + 1 = 1 then scanLoop rest (pos + 1) (img_size + 1) b image
    else if oxff = 255 ∧ b = EOI then .ok (image, pos + 1 - 2)
    else scanLoop rest (pos + 1) (img_size + 1) b (image ++ [oxff])

def SosEntry.Read (B : List Byte) (pos : Nat) : Res (SosEntry × Nat) :=
  match lookupHeader.Read B pos with
  | .error e => .error e
  | .panic => .panic
  | .ok tmp =>
    let sos : SosEntry :=
      { Xff0 := tmp.Xff0, ID := tmp.XID, Length := tmp.Len, ComponentCount := 0,
        Components := [], Data := none, Image := [], pos := pos }
    if !sos.IsValid then .error .invalidHeader
    else
      match tmp.ReadData B pos with
      | .error e => .error e
      | .panic => .panic
      | .ok (data, here) =>
        match data.getD [] with
        | [] => .panic
        | componentCount :: data1 =>
          match readComponents componentCount.val data1 with
          | .error e => .error e
          | .panic => .panic
          | .ok (components, data2) =>
            match scanLoop (B.drop here) here 0 0 [] with
            | .error e => .error e
            | .panic => .panic
            | .ok (image, here2) =>
              .ok ({ sos with ComponentCount := componentCount, Components := components,
                              Data := some data2, Image := image }, here2)

/-! ### End of image -/

structure EoiEntry where
  Xff0 : Byte
  ID : Byte
  pos : Nat
  deriving DecidableEq, Repr

def EoiEntry.IsValid (eoi : EoiEntry) : Bool :=
  eoi.Xff0 == 255 && eoi.ID == EOI

def EoiEntry.Write (eoi : EoiEntry) (fd : Writer) : Writer × Option Err :=
  andThen (WriteByte fd eoi.Xff0) fun fd =>
  andThen (WriteByte fd eoi.ID) fun fd =>
  (fd, none)

def EoiEntry.Read (B : List Byte) (pos : Nat) : Res (EoiEntry × Nat) :=
  match fileRead B pos 2 with
  | .error e => .error e
  | .panic => .panic
  | .ok (tmp, here) =>
    let eoi : EoiEntry := { Xff0 := tmp.getD 0 0, ID := tmp.getD 1 0, pos := pos }
    if !eoi.IsValid then .error .invalidEOI else .ok (eoi, here)

/-! ### The interface `Entry` and the dispatch -/

inductive Entry where
  | soi (e : SoiEntry)
  | app0 (e : App0Entry)
  | appn (e : AppnEntry)
  | dqt (e : DqtEntry)
  | sof (e : SofEntry)
  | dht (e : DhtEntry)
  | sos (e : SosEntry)
  | eoi (e : EoiEntry)
  deriving DecidableEq, Repr

def Entry.IsValid : Entry → Bool
  | .soi e => e.IsValid
  | .app0 e => e.IsValid
  | .appn e => e.IsValid
  | .dqt e => e.IsValid
  | .sof e => e.IsValid
  | .dht e => e.IsValid
  | .sos e => e.IsValid
  | .eoi e => e.IsValid

def Entry.HasData : Entry → Bool
  | .soi _ => false
  | .app0 e => e.Data.isSome
  | .appn e => e.Data.isSome
  | .dqt e => e.Data.isSome
  | .sof e => e.Data.isSome
  | .dht e => e.Data.isSome
  | .sos e => e.Data.isSome
  | .eoi _ => false

def Entry.GetData : Entry → Option (List Byte)
  | .soi _ => none
  | .app0 e => e.Data
  | .appn e => e.Data
  | .dqt e => e.Data
  | .sof e => e.Data
  | .dht e => e.Data
  | .sos e => e.Data
  | .eoi _ => none

def Entry.GetId : Entry → Byte
  | .soi e => e.ID
  | .app0 e => e.ID
  | .appn e => e.ID
  | .dqt e => e.ID
  | .sof e => e.ID
  | .dht e => e.ID
  | .sos e => e.ID
  | .eoi e => e.ID

def Entry.Pos : Entry → Nat
  | .soi e => e.pos
  | .app0 e => e.pos
  | .appn e => e.pos
  | .dqt e => e.pos
  | .sof e => e.pos
  | .dht e => e.pos
  | .sos e => e.pos
  | .eoi e => e.pos

def Entry.Len : Entry → Nat
  | .soi _ => 2
  | .app0 e => e.Length + 2
  | .appn e => e.Length + 2
  | .dqt e => e.Length + 2
  | .sof e => e.Length + 2
  | .dht e => e.Length + 2
  | .sos e => e.Length + 2
  | .eoi _ => 2

def Entry.Write : Entry → Writer → Writer × Option Err
  | .soi e, fd => e.Write fd
  | .app0 e, fd => e.Write fd
  | .appn e, fd => e.Write fd
  | .dqt e, fd => e.Write fd
  | .sof e, fd => e.Write fd
  | .dht e, fd => e.Write fd
  | .sos e, fd => e.Write fd
  | .eoi e, fd => e.Write fd

/-- Lifting of a variant reader to the interface type. -/
def Res.entry {α : Type} (f : α → Entry) : Res (α × Nat) → Res (Entry × Nat)
  | .ok (a, here) => .ok (f a, here)
  | .error e => .error e
  | .panic => .panic

/-- The cases of the `switch ent.XID` of `ReadEntry`, in source order. -/
def isAppnCase (id : Byte) : Bool :=
  id == APP1 || id == APP2 || id == APP3 || id == APP4 || id == APP5 || id == APP6 ||
  id == APP7 || id == APP8 || id == APP9 || id == APPa || id == APPb || id == APPc ||
  id == APPd || id == APPe || id == APPf

def isSofCase (id : Byte) : Bool :=
  id == SOF0 || id == SOF1 || id == SOF2 || id == SOF3 || id == SOF5 || id == SOF6 ||
  id == SOF7 || id == SOFa || id == SOFb || id == SOFd || id == SOFe || id == SOFf

/-- Peek of two bytes, validity check, then the `switch` on the marker byte;
a marker that no case lists falls through to the final error. -/
def anEntry.ReadEntry (B : List Byte) (pos : Nat) : Res (Entry × Nat) :=
  match ReadStructHere B pos 2 with
  | .error e => .error e
  | .panic => .panic
  | .ok bs =>
    let ent : anEntry := { Xff0 := bs.getD 0 0, XID := bs.getD 1 0 }
    if !ent.IsValid then .error (.invalidEntry ent.Xff0 ent.XID)
    else if ent.XID = SOI then (SoiEntry.Read B).entry Entry.soi
    else if ent.XID = APP0 then (App0Entry.Read B pos).entry Entry.app0
    else if isAppnCase ent.XID then (AppnEntry.Read B pos).entry Entry.appn
    else if ent.XID = DQT then (DqtEntry.Read B pos).entry Entry.dqt
    else if isSofCase ent.XID then (SofEntry.Read B pos).entry Entry.sof
    else if ent.XID = DHT then (DhtEntry.Read B pos).entry Entry.dht
    else if ent.XID = SOS then (SosEntry.Read B pos).entry Entry.sos
    else if ent.XID = EOI then (EoiEntry.Read B pos).entry Entry.eoi
    else .error (.shitHappened ent.Xff0 ent.XID)

/-! ## The container (exif.go) -/

inductive ExifValue where
  | string (s : String)
  | rational (num den : Int)
  deriving DecidableEq, Repr

abbrev ExifData := List (String × ExifValue)

structure Exif where
  Path : String
  Entries : List Entry
  NoDataLeft : Bool
  deriving DecidableEq, Repr

def Exif.SectionAt (x : Exif) (pos : Nat) : Option Entry :=
  x.Entries.find? fun ent => decide (ent.Pos ≤ pos) && decide (pos ≤ ent.Pos + ent.Len)

/-- The loop `for { ... }` of `Load` on the file content `B`: read an entry at
the current position, append it, stop after an end-of-image entry. -/
def Exif.loadLoop (B : List Byte) : Nat → Nat → List Entry → Outcome (List Entry × Nat)
  | 0, _, _ => .outOfFuel
  | fuel + 1, pos, entries =>
    match anEntry.ReadEntry B pos with
    | .error e => .failed (entries, pos) (.loadEntry e)
    | .panic => .panicked
    | .ok (entry, here) =>
      if entry.GetId = EOI then .done (entries ++ [entry], here)
      else Exif.loadLoop B fuel here (entries ++ [entry])

/-- `Load` on a file that opens and has content `B`: the position starts at 0,
the entries are appended to the receiver as they are read, and after the loop
`NoDataLeft` tells whether the position is the size of the file. -/
def Exif.Load (fuel : Nat) (x : Exif) (path : String) (B : List Byte) : Outcome Exif :=
  match Exif.loadLoop B fuel 0 x.Entries with
  | .done (entries, here) =>
    .done { Path := path, Entries := entries, NoDataLeft := decide (here = B.length) }
  | .failed (entries, _) e => .failed { x with Path := path, Entries := entries } e
  | .panicked => .panicked
  | .outOfFuel => .outOfFuel

/-- `SaveTo` once the output file is open as the sink `fd`: every entry is
written in order; the error of `entry.Write` is dropped and `nil` returned. -/
def Exif.SaveTo (x : Exif) (fd : Writer) : Writer × Option Err :=
  (x.Entries.foldl (fun fd entry => (entry.Write fd).1) fd, none)

def Exif.Inject (x : Exif) (_xif : ExifData) : Exif × Option Err :=
  (x, none)

/-- The zero value `var X Exif`. -/
def Exif.zero : Exif := { Path := "", Entries := [], NoDataLeft := false }

/-- A newly created output file with no limit on its size. -/
def Writer.create : Writer := { buf := [], room := none }

/-! ## Auxiliary notions for the statements -/

/-- The recognised marker bytes as the marker catalogue lists them: start and
end of image, the sixteen application markers, the quantization table, the
start-of-frame markers, the Huffman table and the start of scan. -/
def markerSet : List Byte :=
  [SOI, EOI,
   APP0, APP1, APP2, APP3, APP4, APP5, APP6, APP7, APP8, APP9, APPa, APPb, APPc, APPd, APPe,
   APPf,
   DQT,
   SOF0, SOF1, SOF2, SOF3, SOF5, SOF6, SOF7, SOF9, SOFa, SOFb, SOFd, SOFe, SOFf,
   DHT, SOS]

/-- The component pairs of a scan header as bytes, in order. -/
def componentBytes : List SosComponent → List Byte
  | [] => []
  | c :: cs => c.Id :: c.Ht :: componentBytes cs

/-- The bytes an entry writes to a new sink without a size limit. -/
def Entry.bytes (e : Entry) : List Byte := (e.Write Writer.create).1.buf

/-- The step from `pos` to `here` consumed exactly the bytes that the entry
writes. -/
def Normal (B : List Byte) (pos : Nat) (e : Entry) (here : Nat) : Prop :=
  here = pos + e.bytes.length ∧ B.drop pos = e.bytes ++ B.drop here

/-- The encoded bytes of a list of entries, in order. -/
def bytesOf (es : List Entry) : List Byte := (es.map Entry.bytes).flatten

/-- A run of the loop of `Load`: `Walk B p es q` says that from position `p` the
entries `es`, none of them an end-of-image entry, are read one after the other
and leave the position at `q`. -/
inductive Walk (B : List Byte) : Nat → List Entry → Nat → Prop where
  | nil (p : Nat) : Walk B p [] p
  | cons {p q r : Nat} {e : Entry} {es : List Entry} :
      anEntry.ReadEntry B p = .ok (e, q) → e.GetId ≠ EOI → Walk B q es r →
      Walk B p (e :: es) r

/-- The range test of `SectionAt` for one entry:
`ent.Pos() <= pos && pos <= ent.Pos() + ent.Len()`. -/
def Entry.covers (e : Entry) (o : Nat) : Prop := e.Pos ≤ o ∧ o ≤ e.Pos + e.Len

/-- Whether a byte sequence holds the adjacent pair `FF D9`. -/
def hasEoiPair : List Byte → Bool
  | a :: b :: rest => (a == 255 && b == EOI) || hasEoiPair (b :: rest)
  | _ => false

/-- Entropy-coded bytes in which every `FF` is followed, within the sequence,
by the stuffing byte `00` or by a restart marker byte `D0..D7`. -/
def stuffed : List Byte → Bool
  | [] => true
  | [a] => a != 255
  | a :: b :: rest =>
    (a != 255 || b == 0 || (decide (RST0 ≤ b) && decide (b ≤ RST7))) && stuffed (b :: rest)

/-- The entries `es` lie one behind the other from offset `p` on: each entry
records the offset at which the bytes of the one before end. -/
def Tiled : Nat → List Entry → Prop
  | _, [] => True
  | p, e :: es => e.Pos = p ∧ Tiled (p + e.bytes.length) es

/-- The size of the payload buffer of `ReadData` for a declared length `L`:
no buffer for 0, otherwise the `uint16` difference `L - 2`. -/
def payloadSize (L : Nat) : Nat := if L = 0 then 0 else (L + 65536 - 2) % 65536

/-- An open file with its position made explicit: the content and the offset
of the next read. -/
structure File where
  content : List Byte
  offset : Nat
  deriving DecidableEq, Repr

/-- The position of an open regular file, `fd.Seek(0, 1)`. -/
def Tell (fd : File) : Nat := fd.offset

/-- The call `fd.Seek(pos, 0)`. -/
def File.Seek (fd : File) (pos : Nat) : File := { fd with offset := pos }

/-- The call `binary.Read(fd, binary.BigEndian, data)` for a structure of `n`
bytes: on success the position is behind the `n` bytes; a failed read has
consumed what was left of the file. -/
def File.binaryRead (fd : File) (n : Nat) : File × Res (List Byte) :=
  match readFull fd.content fd.offset n with
  | .ok (bs, here) => ({ fd with offset := here }, .ok bs)
  | .error e => ({ fd with offset := max fd.offset fd.content.length }, .error e)
  | .panic => (fd, .panic)

/-- The function `ReadStructHere` on an open file: `Tell`, `binary.Read`, and,
when the read succeeded, `Seek` back to the recorded position. A failed read
returns at once, without the `Seek`. -/
def File.ReadStructHere (fd : File) (n : Nat) : File × Res (List Byte) :=
  let pos := Tell fd
  match fd.binaryRead n with
  | (fd1, .ok bs) => (fd1.Seek pos, .ok bs)
  | (fd1, .error e) => (fd1, .error e)
  | (fd1, .panic) => (fd1, .panic)

/-! ## Theorems -/

/-! ### Evaluation of the loop -/

theorem loadLoop_zero (B : List Byte) (pos : Nat) (entries : List Entry) :
    Exif.loadLoop B 0 pos entries = .outOfFuel := rfl

theorem loadLoop_error {B : List Byte} {pos : Nat} {err : Err}
    (h : anEntry.ReadEntry B pos = .error err) (fuel : Nat) (entries : List Entry) :
    Exif.loadLoop B (fuel + 1) pos entries = .failed (entries, pos) (.loadEntry err) := by
  simp [Exif.loadLoop, h]

theorem loadLoop_panic {B : List Byte} {pos : Nat}
    (h : anEntry.ReadEntry B pos = .panic) (fuel : Nat) (entries : List Entry) :
    Exif.loadLoop B (fuel + 1) pos entries = .panicked := by
  simp [Exif.loadLoop, h]

theorem loadLoop_last {B : List Byte} {pos here : Nat} {e : Entry}
    (h : anEntry.ReadEntry B pos = .ok (e, here)) (hid : e.GetId = EOI)
    (fuel : Nat) (entries : List Entry) :
    Exif.loadLoop B (fuel + 1) pos entries = .done (entries ++ [e], here) := by
  simp [Exif.loadLoop, h, hid]

theorem loadLoop_next {B : List Byte} {pos here : Nat} {e : Entry}
    (h : anEntry.ReadEntry B pos = .ok (e, here)) (hid : e.GetId ≠ EOI)
    (fuel : Nat) (entries : List Entry) :
    Exif.loadLoop B (fuel + 1) pos entries = Exif.loadLoop B fuel here (entries ++ [e]) := by
  simp [Exif.loadLoop, h, hid]

/-- A step that does not move the position makes the loop run for ever. -/
theorem loadLoop_stuck {B : List Byte} {pos : Nat} {e : Entry}
    (h : anEntry.ReadEntry B pos = .ok (e, pos)) (hid : e.GetId ≠ EOI) :
    ∀ (fuel : Nat) (entries : List Entry), Exif.loadLoop B fuel pos entries = .outOfFuel := by
  intro fuel
  induction fuel with
  | zero => intro entries; rfl
  | succ n ih => intro entries; rw [loadLoop_next h hid]; exact ih _

/-- Claim C5 (refuted on the code): decoding does not terminate on every finite
stream. On the four bytes `FF D8 FF D8` the second start-of-image marker sends
the reader back to offset 0, and on `FF D8 FF E1 00 00 FF D9` the application
segment of declared length 0 leaves the position on its own marker: in both
cases the loop of `Load` never returns, whatever the fuel. -/
theorem C5_load_does_not_terminate (fuel : Nat) (path : String) :
    Exif.Load fuel Exif.zero path [0xff, 0xd8, 0xff, 0xd8] = .outOfFuel ∧
    Exif.Load fuel Exif.zero path [0xff, 0xd8, 0xff, 0xe1, 0, 0, 0xff, 0xd9] = .outOfFuel := by
  have key : ∀ (B : List Byte) (e : Entry),
      anEntry.ReadEntry B 0 = .ok (.soi ⟨255, SOI, 0⟩, 2) →
      anEntry.ReadEntry B 2 = .ok (e, 2) → e.GetId ≠ EOI →
      Exif.Load fuel Exif.zero path B = .outOfFuel := by
    intro B e h0 h2 hid
    cases fuel with
    | zero => rfl
    | succ n =>
      have hs : (Entry.soi ⟨255, SOI, 0⟩).GetId ≠ EOI := by decide
      simp only [Exif.Load, loadLoop_next h0 hs, loadLoop_stuck h2 hid]
  constructor
  · exact key _ (.soi ⟨255, SOI, 0⟩) (by decide) (by decide) (by decide)
  · exact key _ (.appn ⟨255, APP1, 0, none, 2⟩) (by decide) (by decide) (by decide)

/-- Claim C6 (refuted on the code): a start-of-frame segment of declared length
2, a Huffman-table segment of declared length 2 and a start-of-scan segment
that announces one component and holds no pair are not reported as errors: the
parser indexes the payload beyond its length and `Load` ends in a run-time
panic. -/
theorem C6_short_payload_panics (fuel : Nat) (path : String) :
    Exif.Load (fuel + 2) Exif.zero path [0xff, 0xd8, 0xff, 0xc0, 0, 2, 0xff, 0xd9] = .panicked ∧
    Exif.Load (fuel + 2) Exif.zero path [0xff, 0xd8, 0xff, 0xc4, 0, 2, 0xff, 0xd9] = .panicked ∧
    Exif.Load (fuel + 2) Exif.zero path [0xff, 0xd8, 0xff, 0xda, 0, 3, 1, 0xff, 0xd9]
      = .panicked := by
  have key : ∀ (B : List Byte),
      anEntry.ReadEntry B 0 = .ok (.soi ⟨255, SOI, 0⟩, 2) →
      anEntry.ReadEntry B 2 = .panic →
      Exif.Load (fuel + 2) Exif.zero path B = .panicked := by
    intro B h0 h2
    have hs : (Entry.soi ⟨255, SOI, 0⟩).GetId ≠ EOI := by decide
    simp only [Exif.Load, loadLoop_next h0 hs, loadLoop_panic h2]
  exact ⟨key _ (by decide) (by decide), key _ (by decide) (by decide),
    key _ (by decide) (by decide)⟩

/-! ### The reading primitives -/

theorem drop_length_le {B : List Byte} {pos : Nat} {a : Byte} {rest : List Byte}
    (h : B.drop pos = a :: rest) : pos < B.length := by
  by_contra hc
  rw [List.drop_of_length_le (by omega)] at h
  cases h

theorem drop_append_length {B : List Byte} {pos : Nat} {bs rest : List Byte}
    (h : B.drop pos = bs ++ rest) (hpos : pos ≤ B.length) :
    pos + bs.length ≤ B.length ∧ B.drop (pos + bs.length) = rest := by
  have hl := congrArg List.length h
  simp only [List.length_drop, List.length_append] at hl
  refine ⟨by omega, ?_⟩
  have h2 : B.drop (pos + bs.length) = (B.drop pos).drop bs.length := by
    rw [List.drop_drop, Nat.add_comm]
  rw [h2, h, List.drop_left]

theorem readFull_ok {B : List Byte} {pos n : Nat} {bs : List Byte} {here : Nat}
    (h : readFull B pos n = .ok (bs, here)) :
    here = pos + n ∧ pos + n ≤ B.length ∧ bs.length = n ∧ B.drop pos = bs ++ B.drop here := by
  unfold readFull at h
  split at h
  · rename_i hle
    cases h
    refine ⟨rfl, hle, ?_, ?_⟩
    · simp only [List.length_take, List.length_drop]; omega
    · rw [← List.drop_drop, List.take_append_drop]
  · split at h <;> cases h

theorem readFull_of_drop {B : List Byte} {pos : Nat} {bs rest : List Byte}
    (h : B.drop pos = bs ++ rest) (hpos : pos ≤ B.length) :
    readFull B pos bs.length = .ok (bs, pos + bs.length) := by
  have hl := (drop_append_length h hpos).1
  unfold readFull
  rw [if_pos hl, h, List.take_left]

theorem ReadStructHere_of_drop {B : List Byte} {pos : Nat} {bs rest : List Byte}
    (h : B.drop pos = bs ++ rest) (hpos : pos ≤ B.length) :
    ReadStructHere B pos bs.length = .ok bs := by
  unfold ReadStructHere
  rw [readFull_of_drop h hpos]

theorem ReadStructHere_ok {B : List Byte} {pos n : Nat} {bs : List Byte}
    (h : ReadStructHere B pos n = .ok bs) :
    pos + n ≤ B.length ∧ bs.length = n ∧ B.drop pos = bs ++ B.drop (pos + n) := by
  unfold ReadStructHere at h
  split at h
  · rename_i bs2 here hr
    cases h
    obtain ⟨h1, h2, h3, h4⟩ := readFull_ok hr
    subst h1
    exact ⟨h2, h3, h4⟩
  · cases h
  · cases h

theorem ReadStructHere_two {B : List Byte} {pos : Nat} {bs : List Byte}
    (h : ReadStructHere B pos 2 = .ok bs) :
    ∃ a b, bs = [a, b] ∧ B.drop pos = a :: b :: B.drop (pos + 2) := by
  obtain ⟨_, hl, hd⟩ := ReadStructHere_ok h
  match bs, hl with
  | [a, b], _ => exact ⟨a, b, rfl, hd⟩

/-- The dispatch of `ReadEntry` once the two bytes under the position are
known. -/
theorem ReadEntry_of_drop {B : List Byte} {pos : Nat} {a b : Byte} {rest : List Byte}
    (h : B.drop pos = a :: b :: rest) :
    anEntry.ReadEntry B pos =
      if !(anEntry.IsValid ⟨a, b⟩) then .error (.invalidEntry a b)
      else if b = SOI then (SoiEntry.Read B).entry Entry.soi
      else if b = APP0 then (App0Entry.Read B pos).entry Entry.app0
      else if isAppnCase b then (AppnEntry.Read B pos).entry Entry.appn
      else if b = DQT then (DqtEntry.Read B pos).entry Entry.dqt
      else if isSofCase b then (SofEntry.Read B pos).entry Entry.sof
      else if b = DHT then (DhtEntry.Read B pos).entry Entry.dht
      else if b = SOS then (SosEntry.Read B pos).entry Entry.sos
      else if b = EOI then (EoiEntry.Read B pos).entry Entry.eoi
      else .error (.shitHappened a b) := by
  have hpos : pos ≤ B.length := Nat.le_of_lt (drop_length_le h)
  have hp : ReadStructHere B pos 2 = .ok [a, b] :=
    @ReadStructHere_of_drop B pos [a, b] rest h hpos
  unfold anEntry.ReadEntry
  rw [hp]
  rfl

/-- A successful `ReadEntry` found two bytes under the position, the first of
which is `FF` and the second an accepted marker. -/
theorem ReadEntry_ok_drop {B : List Byte} {pos here : Nat} {e : Entry}
    (h : anEntry.ReadEntry B pos = .ok (e, here)) :
    ∃ b, B.drop pos = 255 :: b :: B.drop (pos + 2) ∧ anEntry.IsValid ⟨255, b⟩ = true := by
  cases hp : ReadStructHere B pos 2 with
  | error err => simp [anEntry.ReadEntry, hp] at h
  | panic => simp [anEntry.ReadEntry, hp] at h
  | ok bs =>
    obtain ⟨a, b, _, hd⟩ := ReadStructHere_two hp
    rw [ReadEntry_of_drop hd] at h
    by_cases hv : anEntry.IsValid ⟨a, b⟩ = true
    · have ha : a = 255 := by
        simp only [anEntry.IsValid, Bool.and_eq_true, beq_iff_eq] at hv
        exact hv.1
      subst ha
      exact ⟨b, hd, hv⟩
    · simp [hv] at h

set_option maxRecDepth 100000 in
theorem isValid_markerSet : ∀ m : Byte, anEntry.IsValid ⟨255, m⟩ = true ↔ m ∈ markerSet := by
  decide

theorem isValid_xff0 (p m : Byte) (h : anEntry.IsValid ⟨p, m⟩ = true) : p = 255 := by
  simp only [anEntry.IsValid, Bool.and_eq_true, beq_iff_eq] at h
  exact h.1

/-- Claim C7 (refuted on the code): the validity check accepts the marker byte
`C9` (SOF9) after `FF`, the `switch` of `ReadEntry` has no case for it, and
`ReadEntry` returns its fall-through error at every position that holds
`FF C9`. -/
theorem C7_sof9_falls_through :
    anEntry.IsValid ⟨255, SOF9⟩ = true ∧
    ∀ (B : List Byte) (pos : Nat) (rest : List Byte), B.drop pos = 255 :: SOF9 :: rest →
      anEntry.ReadEntry B pos = .error (.shitHappened 255 SOF9) := by
  refine ⟨by decide, ?_⟩
  intro B pos rest h
  rw [ReadEntry_of_drop h]
  simp +decide

set_option maxRecDepth 100000 in
theorem rst_not_in_markerSet : ∀ r : Byte, RST0 ≤ r → r ≤ RST7 → r ∉ markerSet := by
  decide

/-- Claim C8: at a position whose next two bytes are `(p, m)` with `p` other
than `FF` or `m` outside the recognised marker set, `ReadEntry` returns the
invalid-entry error and the loop of `Load` fails there with the list of entries
as it was; the comment marker `FE`, the restart-interval marker `DD` and the
restart markers `D0..D7` are outside the set. -/
theorem C8_unrecognised_marker_rejected (B : List Byte) (pos : Nat) (p m : Byte)
    (rest : List Byte) (fuel : Nat) (entries : List Entry)
    (h : B.drop pos = p :: m :: rest) (hm : p ≠ 255 ∨ m ∉ markerSet) :
    anEntry.ReadEntry B pos = .error (.invalidEntry p m) ∧
    Exif.loadLoop B (fuel + 1) pos entries
      = .failed (entries, pos) (.loadEntry (.invalidEntry p m)) ∧
    COM ∉ markerSet ∧ DRI ∉ markerSet ∧
    ∀ r : Byte, RST0 ≤ r → r ≤ RST7 → r ∉ markerSet := by
  have hv : anEntry.IsValid ⟨p, m⟩ = false := by
    cases hc : anEntry.IsValid ⟨p, m⟩ with
    | false => rfl
    | true =>
      have hp := isValid_xff0 p m hc
      subst hp
      rcases hm with hm | hm
      · exact absurd rfl hm
      · exact absurd ((isValid_markerSet m).1 hc) hm
  have hr : anEntry.ReadEntry B pos = .error (.invalidEntry p m) := by
    rw [ReadEntry_of_drop h, hv]
    rfl
  exact ⟨hr, loadLoop_error hr fuel entries, by decide, by decide, rst_not_in_markerSet⟩

theorem C8_unrecognised_marker_rejected_witness :
    anEntry.ReadEntry [0xff, 0xd8, 0xff, 0xfe, 0, 2] 2 = .error (.invalidEntry 255 COM) ∧
    Exif.loadLoop [0xff, 0xd8, 0xff, 0xfe, 0, 2] (0 + 1) 2 [.soi ⟨255, SOI, 0⟩]
      = .failed ([.soi ⟨255, SOI, 0⟩], 2) (.loadEntry (.invalidEntry 255 COM)) ∧
    COM ∉ markerSet ∧ DRI ∉ markerSet ∧
    ∀ r : Byte, RST0 ≤ r → r ≤ RST7 → r ∉ markerSet :=
  C8_unrecognised_marker_rejected [0xff, 0xd8, 0xff, 0xfe, 0, 2] 2 255 COM [0, 2] 0
    [.soi ⟨255, SOI, 0⟩] (by decide) (Or.inr (by decide))

theorem fileRead_ok {B : List Byte} {pos n : Nat} {data : List Byte} {here : Nat}
    (h : fileRead B pos n = .ok (data, here)) (hpos : pos ≤ B.length) :
    data.length = n ∧
    ((here = pos + n ∧ here ≤ B.length ∧ B.drop pos = data ++ B.drop here) ∨
     (here = B.length ∧ B.length < pos + n)) := by
  unfold fileRead at h
  split at h
  · rename_i hn
    cases h
    subst hn
    exact ⟨rfl, Or.inl ⟨rfl, hpos, rfl⟩⟩
  · split at h
    · cases h
    · rename_i hn hlt
      cases h
      have hlen : ((B.drop pos).take n).length = min n (B.length - pos) := by
        simp only [List.length_take, List.length_drop]
      refine ⟨?_, ?_⟩
      · simp only [List.length_append, List.length_replicate, hlen]
        omega
      · by_cases hfit : pos + n ≤ B.length
        · left
          have hm : min n (B.length - pos) = n := by omega
          refine ⟨by rw [hlen, hm], by rw [hlen, hm]; exact hfit, ?_⟩
          rw [hlen, hm, Nat.sub_self, List.replicate_zero, List.append_nil,
            ← List.drop_drop, List.take_append_drop]
        · right
          rw [hlen]
          omega

theorem fileRead_of_drop {B : List Byte} {pos : Nat} {bs rest : List Byte}
    (h : B.drop pos = bs ++ rest) (hpos : pos ≤ B.length) :
    fileRead B pos bs.length = .ok (bs, pos + bs.length) := by
  unfold fileRead
  by_cases hn : bs.length = 0
  · rw [if_pos hn]
    have : bs = [] := List.length_eq_zero.mp hn
    subst this
    rfl
  · rw [if_neg hn]
    have hl := (drop_append_length h hpos).1
    rw [if_neg (by omega)]
    simp only [h, List.take_left, Nat.sub_self, List.replicate_zero, List.append_nil]

/-- A read that is not cut short by the end of the file gives the same buffer
and position on every extension of the file. -/
theorem fileRead_append {B : List Byte} {pos n : Nat} {data : List Byte} {here : Nat}
    (h : fileRead B pos n = .ok (data, here)) (hpos : pos ≤ B.length)
    (hfull : here = pos + n) (T : List Byte) :
    fileRead (B ++ T) pos n = .ok (data, here) := by
  obtain ⟨hlen, hc⟩ := fileRead_ok h hpos
  rcases hc with ⟨_, hle, hd⟩ | ⟨h1, h2⟩
  · have hd2 : (B ++ T).drop pos = data ++ (B.drop here ++ T) := by
      rw [List.drop_append_of_le_length hpos, hd, List.append_assoc]
    have := fileRead_of_drop hd2 (by simp only [List.length_append]; omega)
    rw [hlen] at this
    rw [this, hfull]
  · omega

theorem readFull_append {B : List Byte} {pos n : Nat} {r : List Byte × Nat}
    (h : readFull B pos n = .ok r) (T : List Byte) :
    readFull (B ++ T) pos n = .ok r := by
  obtain ⟨bs, here⟩ := r
  obtain ⟨h1, h2, h3, h4⟩ := readFull_ok h
  have hpos : pos ≤ B.length := by omega
  have hd2 : (B ++ T).drop pos = bs ++ (B.drop here ++ T) := by
    rw [List.drop_append_of_le_length hpos, h4, List.append_assoc]
  have := readFull_of_drop hd2 (by simp only [List.length_append]; omega)
  rw [h3] at this
  rw [this, h1]

theorem ReadStructHere_append {B : List Byte} {pos n : Nat} {bs : List Byte}
    (h : ReadStructHere B pos n = .ok bs) (T : List Byte) :
    ReadStructHere (B ++ T) pos n = .ok bs := by
  unfold ReadStructHere at h ⊢
  cases hr : readFull B pos n with
  | ok r =>
    rw [hr] at h
    rw [readFull_append hr T]
    exact h
  | error e => rw [hr] at h; cases h
  | panic => rw [hr] at h; cases h

/-! ### The writing primitives on a sink without limit -/

theorem write_unbounded (buf p : List Byte) :
    Writer.Write ⟨buf, none⟩ p = (⟨buf ++ p, none⟩, none) := rfl

theorem andThen_none (w : Writer) (next : Writer → Writer × Option Err) :
    andThen (w, none) next = next w := rfl

theorem toByte_val (b : Byte) : toByte b.val = b := by
  apply Fin.ext
  simp only [toByte]
  exact Nat.mod_eq_of_lt b.isLt

theorem toByte_beWord_hi (hi lo : Byte) : toByte (beWord hi lo / 256) = hi := by
  apply Fin.ext
  simp only [toByte, beWord]
  have := hi.isLt
  have := lo.isLt
  omega

theorem toByte_beWord_lo (hi lo : Byte) : toByte (beWord hi lo) = lo := by
  apply Fin.ext
  simp only [toByte, beWord]
  have := hi.isLt
  have := lo.isLt
  omega

theorem toByte_le_lo (lo hi : Byte) : toByte (lo.val + 256 * hi.val) = lo := by
  apply Fin.ext
  simp only [toByte]
  have := hi.isLt
  have := lo.isLt
  omega

theorem toByte_le_hi (lo hi : Byte) : toByte ((lo.val + 256 * hi.val) / 256) = hi := by
  apply Fin.ext
  simp only [toByte]
  have := hi.isLt
  have := lo.isLt
  omega

theorem writeComponents_unbounded (cs : List SosComponent) (buf : List Byte) :
    writeComponents cs ⟨buf, none⟩ = (⟨buf ++ componentBytes cs, none⟩, none) := by
  induction cs generalizing buf with
  | nil => simp [writeComponents, componentBytes]
  | cons c cs ih =>
    simp only [writeComponents, WriteByte, write_unbounded, andThen_none, ih, componentBytes,
      List.append_assoc, List.singleton_append, List.cons_append, List.nil_append]

/-- What each variant writes to a sink without limit: the bytes are appended
and no error is returned. -/
theorem Entry.Write_unbounded_aux (e : Entry) :
    ∃ bs : List Byte, (∀ buf : List Byte, e.Write ⟨buf, none⟩ = (⟨buf ++ bs, none⟩, none)) ∧
      bs = match e with
        | .soi e => [e.Xff0, e.ID]
        | .app0 e =>
          [e.Xff0, e.ID, toByte (e.Length / 256), toByte e.Length] ++ e.Identifier ++ e.Version ++
            [e.Units, toByte (e.Xdensity / 256), toByte e.Xdensity, toByte (e.Ydensity / 256),
              toByte e.Ydensity, e.Xthumbnail, e.Ythumbnail] ++ e.Data.getD []
        | .appn e =>
          [e.Xff0, e.ID, toByte (e.Length / 256), toByte e.Length] ++ e.Data.getD []
        | .dqt e =>
          [e.Xff0, e.ID, toByte (e.Length / 256), toByte e.Length] ++ e.Data.getD []
        | .sof e =>
          [e.Xff0, e.ID, toByte (e.Length / 256), toByte e.Length, e.Precision,
            toByte e.Height, toByte (e.Height / 256), toByte e.Width, toByte (e.Width / 256),
            e.Components] ++ e.Data.getD []
        | .dht e =>
          [e.Xff0, e.ID, toByte (e.Length / 256), toByte e.Length, e.HtInfo] ++
            e.NumOfSymbols ++ e.Data.getD []
        | .sos e =>
          [e.Xff0, e.ID, toByte (e.Length / 256), toByte e.Length, e.ComponentCount] ++
            componentBytes e.Components ++ e.Data.getD [] ++ e.Image
        | .eoi e => [e.Xff0, e.ID] := by
  refine ⟨_, ?_, rfl⟩
  intro buf
  cases e <;>
    simp only [Entry.Write, SoiEntry.Write, App0Entry.Write, AppnEntry.Write, DqtEntry.Write,
      SofEntry.Write, DhtEntry.Write, SosEntry.Write, EoiEntry.Write, WriteByte, WriteWordBE,
      WriteWordLE, WriteBytes, write_unbounded, andThen_none, writeComponents_unbounded,
      List.append_assoc, List.cons_append, List.nil_append]

theorem Entry.bytes_eq (e : Entry) :
    e.bytes = match e with
      | .soi e => [e.Xff0, e.ID]
      | .app0 e =>
        [e.Xff0, e.ID, toByte (e.Length / 256), toByte e.Length] ++ e.Identifier ++ e.Version ++
          [e.Units, toByte (e.Xdensity / 256), toByte e.Xdensity, toByte (e.Ydensity / 256),
            toByte e.Ydensity, e.Xthumbnail, e.Ythumbnail] ++ e.Data.getD []
      | .appn e =>
        [e.Xff0, e.ID, toByte (e.Length / 256), toByte e.Length] ++ e.Data.getD []
      | .dqt e =>
        [e.Xff0, e.ID, toByte (e.Length / 256), toByte e.Length] ++ e.Data.getD []
      | .sof e =>
        [e.Xff0, e.ID, toByte (e.Length / 256), toByte e.Length, e.Precision,
          toByte e.Height, toByte (e.Height / 256), toByte e.Width, toByte (e.Width / 256),
          e.Components] ++ e.Data.getD []
      | .dht e =>
        [e.Xff0, e.ID, toByte (e.Length / 256), toByte e.Length, e.HtInfo] ++
          e.NumOfSymbols ++ e.Data.getD []
      | .sos e =>
        [e.Xff0, e.ID, toByte (e.Length / 256), toByte e.Length, e.ComponentCount] ++
          componentBytes e.Components ++ e.Data.getD [] ++ e.Image
      | .eoi e => [e.Xff0, e.ID] := by
  obtain ⟨bs, hw, hbs⟩ := Entry.Write_unbounded_aux e
  rw [← hbs]
  simp only [Entry.bytes, Writer.create, hw, List.nil_append]

theorem Entry.Write_unbounded (e : Entry) (buf : List Byte) :
    e.Write ⟨buf, none⟩ = (⟨buf ++ e.bytes, none⟩, none) := by
  obtain ⟨bs, hw, _⟩ := Entry.Write_unbounded_aux e
  have hb : e.bytes = bs := by
    simp only [Entry.bytes, Writer.create, hw, List.nil_append]
  rw [hb]
  exact hw buf

theorem foldl_write_unbounded (es : List Entry) (buf : List Byte) :
    es.foldl (fun fd entry => (entry.Write fd).1) ⟨buf, none⟩ = ⟨buf ++ bytesOf es, none⟩ := by
  induction es generalizing buf with
  | nil => simp [bytesOf]
  | cons e es ih =>
    simp only [List.foldl_cons, Entry.Write_unbounded, ih, bytesOf, List.map_cons,
      List.flatten_cons, List.append_assoc]

theorem SaveTo_create (x : Exif) :
    x.SaveTo Writer.create = (⟨bytesOf x.Entries, none⟩, none) := by
  simp only [Exif.SaveTo, Writer.create, foldl_write_unbounded, List.nil_append]

theorem bytesOf_append (es fs : List Entry) : bytesOf (es ++ fs) = bytesOf es ++ bytesOf fs := by
  simp only [bytesOf, List.map_append, List.flatten_append]

theorem bytesOf_singleton (e : Entry) : bytesOf [e] = e.bytes := by
  simp only [bytesOf, List.map_cons, List.map_nil, List.flatten_cons, List.flatten_nil,
    List.append_nil]

/-! ### The header peek and the payload read -/

theorem lookupHeader_Read_of_drop {B : List Byte} {pos : Nat} {a b c d : Byte}
    {rest : List Byte} (h : B.drop pos = a :: b :: c :: d :: rest) :
    lookupHeader.Read B pos =
      if !(lookupHeader.IsValid ⟨a, b, beWord c d⟩) then .error (.invalidEntry a b)
      else .ok ⟨a, b, beWord c d⟩ := by
  have hpos : pos ≤ B.length := Nat.le_of_lt (drop_length_le h)
  have hp : ReadStructHere B pos 4 = .ok [a, b, c, d] :=
    @ReadStructHere_of_drop B pos [a, b, c, d] rest h hpos
  unfold lookupHeader.Read
  rw [hp]
  rfl

theorem lookupHeader_Read_ok {B : List Byte} {pos : Nat} {lkp : lookupHeader}
    (h : lookupHeader.Read B pos = .ok lkp) :
    ∃ l1 l2, B.drop pos = lkp.Xff0 :: lkp.XID :: l1 :: l2 :: B.drop (pos + 4) ∧
      lkp.Len = beWord l1 l2 ∧ pos + 4 ≤ B.length := by
  cases hp : ReadStructHere B pos 4 with
  | error err => simp [lookupHeader.Read, hp] at h
  | panic => simp [lookupHeader.Read, hp] at h
  | ok bs =>
    obtain ⟨hle, hl, hd⟩ := ReadStructHere_ok hp
    match bs, hl with
    | [a, b, c, d], _ =>
      rw [lookupHeader_Read_of_drop hd] at h
      split at h
      · cases h
      · cases h
        exact ⟨c, d, hd, rfl, hle⟩

theorem lookupHeader_Read_append {B : List Byte} {pos : Nat} {lkp : lookupHeader}
    (h : lookupHeader.Read B pos = .ok lkp) (T : List Byte) :
    lookupHeader.Read (B ++ T) pos = .ok lkp := by
  cases hp : ReadStructHere B pos 4 with
  | error err => simp [lookupHeader.Read, hp] at h
  | panic => simp [lookupHeader.Read, hp] at h
  | ok bs =>
    have hp2 := ReadStructHere_append hp T
    unfold lookupHeader.Read at h ⊢
    rw [hp] at h
    rw [hp2]
    exact h

theorem lookupHeader_ReadData_ok {lkp : lookupHeader} {B : List Byte} {pos here : Nat}
    {d : Option (List Byte)} (h : lkp.ReadData B pos = .ok (d, here))
    (hpos : pos + 4 ≤ B.length) :
    (lkp.Len = 0 ∧ d = none ∧ here = pos) ∨
    (lkp.Len ≠ 0 ∧ ∃ data, d = some data ∧
      fileRead B (pos + 4) ((lkp.Len + 65536 - 2) % 65536) = .ok (data, here) ∧
      data.length = (lkp.Len + 65536 - 2) % 65536 ∧
      ((here = pos + 4 + data.length ∧ here ≤ B.length ∧
          B.drop (pos + 4) = data ++ B.drop here) ∨
        (here = B.length ∧ B.length < pos + 4 + data.length))) := by
  unfold lookupHeader.ReadData at h
  split at h
  · rename_i h0
    cases h
    exact Or.inl ⟨h0, rfl, rfl⟩
  · rename_i h0
    split at h
    · cases h
    · cases h
    · rename_i data here2 hr
      cases h
      obtain ⟨hlen, hc⟩ := fileRead_ok hr hpos
      refine Or.inr ⟨h0, data, rfl, hr, hlen, ?_⟩
      rw [hlen]
      exact hc

/-- The bytes of a length-delimited segment whose payload was read in full. -/
theorem frame_of_header {B : List Byte} {pos here : Nat} {x id l1 l2 : Byte}
    {data : List Byte}
    (hd : B.drop pos = x :: id :: l1 :: l2 :: B.drop (pos + 4))
    (hhere : here = pos + 4 + data.length)
    (hdata : B.drop (pos + 4) = data ++ B.drop here) :
    here = pos + ([x, id, l1, l2] ++ data).length ∧
    B.drop pos = ([x, id, l1, l2] ++ data) ++ B.drop here := by
  constructor
  · simp only [List.length_append, List.length_cons, List.length_nil]
    omega
  · rw [hd, hdata]
    simp only [List.cons_append, List.nil_append, List.append_assoc]

/-! ### The variant readers -/

theorem EoiEntry_Read_ok {B : List Byte} {pos here : Nat} {e : EoiEntry} {b : Byte}
    {rest : List Byte} (hd : B.drop pos = 255 :: b :: rest)
    (h : EoiEntry.Read B pos = .ok (e, here)) :
    b = EOI ∧ e = ⟨255, EOI, pos⟩ ∧ here = pos + 2 := by
  have hpos : pos ≤ B.length := Nat.le_of_lt (drop_length_le hd)
  have hr : fileRead B pos 2 = .ok ([255, b], pos + 2) :=
    @fileRead_of_drop B pos [255, b] rest hd hpos
  unfold EoiEntry.Read at h
  rw [hr] at h
  simp only [List.getD_cons_zero, List.getD_cons_succ] at h
  split at h
  · cases h
  · rename_i hv
    simp only [EoiEntry.IsValid, Bool.not_eq_true, Bool.not_eq_false_eq_eq_true, Bool.and_eq_true,
      beq_iff_eq] at hv
    cases h
    obtain ⟨_, hb⟩ := hv
    subst hb
    exact ⟨rfl, rfl, rfl⟩

theorem SoiEntry_Read_ok {B : List Byte} {here : Nat} {e : SoiEntry}
    (hl : 2 ≤ B.length) (h : SoiEntry.Read B = .ok (e, here)) :
    e = ⟨255, SOI, 0⟩ ∧ here = 2 ∧ ∃ rest, B = 255 :: SOI :: rest := by
  match B, hl with
  | a :: b :: rest, _ =>
    have hr : fileRead (a :: b :: rest) 0 2 = .ok ([a, b], 2) :=
      @fileRead_of_drop (a :: b :: rest) 0 [a, b] rest rfl
        (Nat.zero_le _)
    unfold SoiEntry.Read at h
    rw [hr] at h
    simp only [List.getD_cons_zero, List.getD_cons_succ] at h
    split at h
    · cases h
    · rename_i hv
      simp only [SoiEntry.IsValid, Bool.not_eq_true, Bool.not_eq_false_eq_eq_true,
        Bool.and_eq_true, beq_iff_eq] at hv
      cases h
      obtain ⟨ha, hb⟩ := hv
      subst ha hb
      exact ⟨rfl, rfl, rest, rfl⟩

/-- Shape of the stream under a length-delimited entry that keeps its payload
as it was read: the header bytes, then either nothing consumed (declared length
0), or the payload in full, or a payload cut short by the end of the file. -/
theorem opaque_shape {B : List Byte} {pos here : Nat} {tmp : lookupHeader}
    {d : Option (List Byte)} (hl : lookupHeader.Read B pos = .ok tmp)
    (hrd : tmp.ReadData B pos = .ok (d, here)) :
    ∃ l1 l2, B.drop pos = tmp.Xff0 :: tmp.XID :: l1 :: l2 :: B.drop (pos + 4) ∧
      tmp.Len = beWord l1 l2 ∧ pos + 4 ≤ B.length ∧
      ((tmp.Len = 0 ∧ d = none ∧ here = pos) ∨
       (tmp.Len ≠ 0 ∧ ∃ data, d = some data ∧
          data.length = (tmp.Len + 65536 - 2) % 65536 ∧
          ((here = pos + ([tmp.Xff0, tmp.XID, l1, l2] ++ data).length ∧
              B.drop pos = ([tmp.Xff0, tmp.XID, l1, l2] ++ data) ++ B.drop here) ∨
            (here = B.length ∧ B.length < pos + 4 + data.length)))) := by
  obtain ⟨l1, l2, hd, hlen, hle⟩ := lookupHeader_Read_ok hl
  refine ⟨l1, l2, hd, hlen, hle, ?_⟩
  rcases lookupHeader_ReadData_ok hrd hle with h0 | ⟨h0, data, h1, _, h2, h3⟩
  · exact Or.inl h0
  · refine Or.inr ⟨h0, data, h1, h2, ?_⟩
    rcases h3 with ⟨ha, _, hc⟩ | hs
    · exact Or.inl (frame_of_header hd ha hc)
    · exact Or.inr hs

theorem AppnEntry_Read_ok {B : List Byte} {pos here : Nat} {e : AppnEntry}
    (h : AppnEntry.Read B pos = .ok (e, here)) :
    ∃ tmp d, lookupHeader.Read B pos = .ok tmp ∧ tmp.ReadData B pos = .ok (d, here) ∧
      e = ⟨tmp.Xff0, tmp.XID, tmp.Len, d, pos⟩ ∧ e.IsValid = true := by
  unfold AppnEntry.Read at h
  cases hl : lookupHeader.Read B pos with
  | error err => rw [hl] at h; cases h
  | panic => rw [hl] at h; cases h
  | ok tmp =>
    rw [hl] at h
    simp only at h
    split at h
    · cases h
    · rename_i hv
      cases hrd : tmp.ReadData B pos with
      | error err => rw [hrd] at h; cases h
      | panic => rw [hrd] at h; cases h
      | ok r =>
        obtain ⟨d, here2⟩ := r
        rw [hrd] at h
        cases h
        refine ⟨tmp, d, rfl, hrd, rfl, ?_⟩
        simpa using hv

theorem DqtEntry_Read_ok {B : List Byte} {pos here : Nat} {e : DqtEntry}
    (h : DqtEntry.Read B pos = .ok (e, here)) :
    ∃ tmp d, lookupHeader.Read B pos = .ok tmp ∧ tmp.ReadData B pos = .ok (d, here) ∧
      e = ⟨tmp.Xff0, tmp.XID, tmp.Len, d, pos⟩ ∧ e.IsValid = true := by
  unfold DqtEntry.Read at h
  cases hl : lookupHeader.Read B pos with
  | error err => rw [hl] at h; cases h
  | panic => rw [hl] at h; cases h
  | ok tmp =>
    rw [hl] at h
    simp only at h
    split at h
    · cases h
    · rename_i hv
      cases hrd : tmp.ReadData B pos with
      | error err => rw [hrd] at h; cases h
      | panic => rw [hrd] at h; cases h
      | ok r =>
        obtain ⟨d, here2⟩ := r
        rw [hrd] at h
        cases h
        refine ⟨tmp, d, rfl, hrd, rfl, ?_⟩
        simpa using hv

/-- A step of an opaque reader is normal, or cut short by the end of the file,
or (declared length 0) does not move. -/
theorem opaque_step {B : List Byte} {pos here : Nat} {tmp : lookupHeader}
    {d : Option (List Byte)} (hl : lookupHeader.Read B pos = .ok tmp)
    (hrd : tmp.ReadData B pos = .ok (d, here)) :
    (here = pos + ([tmp.Xff0, tmp.XID, toByte (tmp.Len / 256), toByte tmp.Len] ++ d.getD []).length
        ∧ B.drop pos = ([tmp.Xff0, tmp.XID, toByte (tmp.Len / 256), toByte tmp.Len] ++ d.getD [])
            ++ B.drop here) ∨
      here = B.length ∨ here = pos := by
  obtain ⟨l1, l2, _, hlen, _, hc⟩ := opaque_shape hl hrd
  rcases hc with ⟨_, _, h3⟩ | ⟨_, data, h1, _, h3⟩
  · exact Or.inr (Or.inr h3)
  · rcases h3 with hn | hs
    · left
      subst h1
      rw [hlen, toByte_beWord_hi, toByte_beWord_lo]
      exact hn
    · exact Or.inr (Or.inl hs.1)

theorem AppnEntry_Read_step {B : List Byte} {pos here : Nat} {e : AppnEntry}
    (h : AppnEntry.Read B pos = .ok (e, here)) :
    e.pos = pos ∧ (Normal B pos (.appn e) here ∨ here = B.length ∨ here = pos) := by
  obtain ⟨tmp, d, hl, hrd, he, _⟩ := AppnEntry_Read_ok h
  subst he
  refine ⟨rfl, ?_⟩
  unfold Normal
  rw [Entry.bytes_eq]
  exact opaque_step hl hrd

theorem DqtEntry_Read_step {B : List Byte} {pos here : Nat} {e : DqtEntry}
    (h : DqtEntry.Read B pos = .ok (e, here)) :
    e.pos = pos ∧ (Normal B pos (.dqt e) here ∨ here = B.length ∨ here = pos) := by
  obtain ⟨tmp, d, hl, hrd, he, _⟩ := DqtEntry_Read_ok h
  subst he
  refine ⟨rfl, ?_⟩
  unfold Normal
  rw [Entry.bytes_eq]
  exact opaque_step hl hrd

theorem SofEntry_Read_ok {B : List Byte} {pos here : Nat} {e : SofEntry}
    (h : SofEntry.Read B pos = .ok (e, here)) :
    ∃ tmp d, lookupHeader.Read B pos = .ok tmp ∧ tmp.ReadData B pos = .ok (d, here) ∧
      ∃ (precision h0 h1 w0 w1 components : Byte) (data3 : List Byte),
        d.getD [] = precision :: h0 :: h1 :: w0 :: w1 :: components :: data3 ∧
        e = ⟨tmp.Xff0, tmp.XID, tmp.Len, precision, h0.val + 256 * h1.val,
              w0.val + 256 * w1.val, components, some data3, pos⟩ := by
  unfold SofEntry.Read at h
  cases hl : lookupHeader.Read B pos with
  | error err => rw [hl] at h; cases h
  | panic => rw [hl] at h; cases h
  | ok tmp =>
    rw [hl] at h
    simp only at h
    split at h
    · cases h
    · cases hrd : tmp.ReadData B pos with
      | error err => rw [hrd] at h; cases h
      | panic => rw [hrd] at h; cases h
      | ok r =>
        obtain ⟨d, here2⟩ := r
        rw [hrd] at h
        simp only at h
        match hd : d.getD [] with
        | [] => rw [hd] at h; cases h
        | [_] => rw [hd] at h; simp [GetWordLE] at h
        | [_, _] => rw [hd] at h; simp [GetWordLE] at h
        | [_, _, _] => rw [hd] at h; simp [GetWordLE] at h
        | [_, _, _, _] => rw [hd] at h; simp [GetWordLE] at h
        | [_, _, _, _, _] => rw [hd] at h; simp [GetWordLE] at h
        | precision :: h0 :: h1 :: w0 :: w1 :: components :: data3 =>
          rw [hd] at h
          simp only [GetWordLE, Res.ok.injEq, Prod.mk.injEq] at h
          obtain ⟨he, hh⟩ := h
          subst hh
          exact ⟨tmp, d, rfl, hrd, precision, h0, h1, w0, w1, components, data3, hd, he.symm⟩

/-- A reader that parses a payload read by `ReadData` and needs it non-empty
makes a normal step or one cut short by the end of the file. -/
theorem parsed_step {B : List Byte} {pos here : Nat} {tmp : lookupHeader}
    {d : Option (List Byte)} (hl : lookupHeader.Read B pos = .ok tmp)
    (hrd : tmp.ReadData B pos = .ok (d, here)) (hne : d.getD [] ≠ []) :
    (here = pos + ([tmp.Xff0, tmp.XID, toByte (tmp.Len / 256), toByte tmp.Len] ++ d.getD []).length
        ∧ B.drop pos = ([tmp.Xff0, tmp.XID, toByte (tmp.Len / 256), toByte tmp.Len] ++ d.getD [])
            ++ B.drop here) ∨
      (here = B.length ∧ B.length < pos + 4 + (d.getD []).length) := by
  obtain ⟨l1, l2, _, hlen, _, hc⟩ := opaque_shape hl hrd
  rcases hc with ⟨_, h2, _⟩ | ⟨_, data, h1, _, h3⟩
  · subst h2
    exact absurd rfl hne
  · subst h1
    rcases h3 with hn | hs
    · left
      rw [hlen, toByte_beWord_hi, toByte_beWord_lo]
      exact hn
    · exact Or.inr hs

theorem SofEntry_Read_step {B : List Byte} {pos here : Nat} {e : SofEntry}
    (h : SofEntry.Read B pos = .ok (e, here)) :
    e.pos = pos ∧ (Normal B pos (.sof e) here ∨ here = B.length ∨ here = pos) := by
  obtain ⟨tmp, d, hl, hrd, p, h0, h1, w0, w1, c, data3, hd, he⟩ := SofEntry_Read_ok h
  subst he
  refine ⟨rfl, ?_⟩
  rcases parsed_step hl hrd (by rw [hd]; exact List.cons_ne_nil _ _) with hn | hs
  · left
    unfold Normal
    rw [Entry.bytes_eq]
    simp only [toByte_le_lo, toByte_le_hi, Option.getD_some]
    rw [hd] at hn
    exact hn
  · exact Or.inr (Or.inl hs.1)

theorem DhtEntry_Read_ok {B : List Byte} {pos here : Nat} {e : DhtEntry}
    (h : DhtEntry.Read B pos = .ok (e, here)) :
    ∃ tmp d, lookupHeader.Read B pos = .ok tmp ∧ tmp.ReadData B pos = .ok (d, here) ∧
      ∃ (htInfo : Byte) (data1 : List Byte),
        d.getD [] = htInfo :: data1 ∧ 16 ≤ data1.length ∧
        sumOfSymbols (data1.take 16) ≤ 256 ∧
        (data1.drop 16).length = sumOfSymbols (data1.take 16) ∧
        e = ⟨tmp.Xff0, tmp.XID, tmp.Len, htInfo, data1.take 16, some (data1.drop 16), pos⟩ := by
  unfold DhtEntry.Read at h
  cases hl : lookupHeader.Read B pos with
  | error err => rw [hl] at h; cases h
  | panic => rw [hl] at h; cases h
  | ok tmp =>
    rw [hl] at h
    simp only at h
    split at h
    · cases h
    · cases hrd : tmp.ReadData B pos with
      | error err => rw [hrd] at h; cases h
      | panic => rw [hrd] at h; cases h
      | ok r =>
        obtain ⟨d, here2⟩ := r
        rw [hrd] at h
        simp only at h
        match hd : d.getD [] with
        | [] => rw [hd] at h; cases h
        | htInfo :: data1 =>
          rw [hd] at h
          simp only at h
          split at h
          · cases h
          · rename_i h16
            split at h
            · cases h
            · split at h
              · cases h
              · rename_i hsum
                split at h
                · cases h
                · rename_i hdat
                  simp only [Res.ok.injEq, Prod.mk.injEq] at h
                  obtain ⟨he, hh⟩ := h
                  subst hh
                  exact ⟨tmp, d, rfl, hrd, htInfo, data1, hd, by omega, by omega,
                    by simpa using hdat, he.symm⟩

theorem DhtEntry_Read_step {B : List Byte} {pos here : Nat} {e : DhtEntry}
    (h : DhtEntry.Read B pos = .ok (e, here)) :
    e.pos = pos ∧ (Normal B pos (.dht e) here ∨ here = B.length ∨ here = pos) := by
  obtain ⟨tmp, d, hl, hrd, htInfo, data1, hd, _, _, _, he⟩ := DhtEntry_Read_ok h
  subst he
  refine ⟨rfl, ?_⟩
  rcases parsed_step hl hrd (by rw [hd]; exact List.cons_ne_nil _ _) with hn | hs
  · left
    unfold Normal
    rw [Entry.bytes_eq]
    simp only [Option.getD_some, List.append_assoc, List.take_append_drop]
    rw [hd] at hn
    simpa using hn
  · exact Or.inr (Or.inl hs.1)

theorem readComponents_ok {n : Nat} {d : List Byte} {cs : List SosComponent}
    {rest : List Byte} (h : readComponents n d = .ok (cs, rest)) :
    d = componentBytes cs ++ rest ∧ cs.length = n := by
  induction n generalizing d cs rest with
  | zero =>
    simp only [readComponents, Res.ok.injEq, Prod.mk.injEq] at h
    obtain ⟨h1, h2⟩ := h
    subst h1 h2
    exact ⟨rfl, rfl⟩
  | succ n ih =>
    match d with
    | [] => simp [readComponents] at h
    | [_] => simp [readComponents] at h
    | id :: ht :: d2 =>
      simp only [readComponents] at h
      cases hr : readComponents n d2 with
      | error err => rw [hr] at h; cases h
      | panic => rw [hr] at h; cases h
      | ok r =>
        obtain ⟨cs2, rest2⟩ := r
        rw [hr] at h
        simp only [Res.ok.injEq, Prod.mk.injEq] at h
        obtain ⟨h1, h2⟩ := h
        subst h1 h2
        obtain ⟨i1, i2⟩ := ih hr
        refine ⟨?_, by simp [i2]⟩
        rw [i1]
        rfl

theorem scanLoop_ok_aux {s : List Byte} {pos sz : Nat} {ox : Byte} {img image : List Byte}
    {here : Nat} (hsz : 1 ≤ sz) (hpos : sz ≤ pos)
    (h : scanLoop s pos sz ox img = .ok (image, here)) :
    ∃ tail r, image = img ++ tail ∧ ox :: s = tail ++ 255 :: EOI :: r ∧
      here + 1 = pos + tail.length := by
  induction s generalizing pos sz ox img with
  | nil => simp [scanLoop] at h
  | cons b rest ih =>
    unfold scanLoop at h
    rw [if_neg (by omega)] at h
    split at h
    · rename_i hp
      simp only [Res.ok.injEq, Prod.mk.injEq] at h
      obtain ⟨h1, h2⟩ := h
      obtain ⟨hp1, hp2⟩ := hp
      subst h1 hp1 hp2
      refine ⟨[], rest, by simp, rfl, ?_⟩
      simp only [List.length_nil]
      omega
    · obtain ⟨tail, r, i1, i2, i3⟩ := ih (by omega) (by omega) h
      refine ⟨ox :: tail, r, ?_, ?_, ?_⟩
      · rw [i1]; simp
      · rw [i2]; rfl
      · simp only [List.length_cons]; omega

/-- The scan loop stops on the first pair `FF D9` it meets: the image is what
precedes the pair and the position is left on the pair. -/
theorem scanLoop_ok {s : List Byte} {pos : Nat} {ox : Byte} {image : List Byte} {here : Nat}
    (h : scanLoop s pos 0 ox [] = .ok (image, here)) :
    ∃ r, s = image ++ 255 :: EOI :: r ∧ here = pos + image.length := by
  match s with
  | [] => simp [scanLoop] at h
  | b :: rest =>
    unfold scanLoop at h
    rw [if_pos rfl] at h
    obtain ⟨tail, r, i1, i2, i3⟩ := scanLoop_ok_aux (Nat.le_refl 1) (by omega) h
    simp only [List.nil_append] at i1
    subst i1
    exact ⟨r, i2, by omega⟩

theorem SosEntry_Read_ok {B : List Byte} {pos here : Nat} {e : SosEntry}
    (h : SosEntry.Read B pos = .ok (e, here)) :
    ∃ tmp d here1, lookupHeader.Read B pos = .ok tmp ∧ tmp.ReadData B pos = .ok (d, here1) ∧
      ∃ (componentCount : Byte) (data1 : List Byte) (cs : List SosComponent)
        (data2 image : List Byte),
        d.getD [] = componentCount :: data1 ∧
        readComponents componentCount.val data1 = .ok (cs, data2) ∧
        scanLoop (B.drop here1) here1 0 0 [] = .ok (image, here) ∧
        e = ⟨tmp.Xff0, tmp.XID, tmp.Len, componentCount, cs, some data2, image, pos⟩ := by
  unfold SosEntry.Read at h
  cases hl : lookupHeader.Read B pos with
  | error err => rw [hl] at h; cases h
  | panic => rw [hl] at h; cases h
  | ok tmp =>
    rw [hl] at h
    simp only at h
    split at h
    · cases h
    · cases hrd : tmp.ReadData B pos with
      | error err => rw [hrd] at h; cases h
      | panic => rw [hrd] at h; cases h
      | ok r =>
        obtain ⟨d, here1⟩ := r
        rw [hrd] at h
        simp only at h
        match hd : d.getD [] with
        | [] => rw [hd] at h; cases h
        | componentCount :: data1 =>
          rw [hd] at h
          simp only at h
          cases hc : readComponents componentCount.val data1 with
          | error err => rw [hc] at h; cases h
          | panic => rw [hc] at h; cases h
          | ok r2 =>
            obtain ⟨cs, data2⟩ := r2
            rw [hc] at h
            simp only at h
            cases hs : scanLoop (B.drop here1) here1 0 0 [] with
            | error err => rw [hs] at h; cases h
            | panic => rw [hs] at h; cases h
            | ok r3 =>
              obtain ⟨image, here2⟩ := r3
              rw [hs] at h
              simp only [Res.ok.injEq, Prod.mk.injEq] at h
              obtain ⟨he, hh⟩ := h
              subst hh
              exact ⟨tmp, d, here1, rfl, hrd, componentCount, data1, cs, data2, image, hd, hc,
                hs, he.symm⟩

/-- A start-of-scan step is always normal, and the stream goes on with the
pair `FF D9`. -/
theorem SosEntry_Read_step {B : List Byte} {pos here : Nat} {e : SosEntry}
    (h : SosEntry.Read B pos = .ok (e, here)) :
    e.pos = pos ∧ Normal B pos (.sos e) here ∧ ∃ r, B.drop here = 255 :: EOI :: r := by
  obtain ⟨tmp, d, here1, hl, hrd, cc, data1, cs, data2, image, hd, hc, hs, he⟩ :=
    SosEntry_Read_ok h
  subst he
  refine ⟨rfl, ?_⟩
  obtain ⟨r, hs1, hs2⟩ := scanLoop_ok hs
  obtain ⟨hc1, _⟩ := readComponents_ok hc
  rcases parsed_step hl hrd (by rw [hd]; exact List.cons_ne_nil _ _) with hn | hshort
  · obtain ⟨hn1, hn2⟩ := hn
    have hpos : pos ≤ B.length := by
      by_contra hcon
      rw [List.drop_of_length_le (by omega)] at hn2
      simp at hn2
    obtain ⟨hle1, hdrop1⟩ := drop_append_length hn2 hpos
    rw [← hn1] at hle1
    obtain ⟨_, hdrop2⟩ := drop_append_length hs1 hle1
    rw [← hs2] at hdrop2
    refine ⟨?_, r, hdrop2⟩
    unfold Normal
    rw [Entry.bytes_eq]
    simp only [Option.getD_some]
    rw [hd, hc1] at hn1 hn2
    constructor
    · rw [hs2, hn1]
      simp only [List.length_append, List.length_cons, List.length_nil]
      omega
    · rw [hn2, hs1, hdrop2]
      simp only [List.append_assoc, List.cons_append, List.nil_append]
  · rw [hshort.1, List.drop_length] at hs1
    simp at hs1

theorem App0Entry_Read_ok {B : List Byte} {pos here : Nat} {e : App0Entry}
    (h : App0Entry.Read B pos = .ok (e, here)) :
    ∃ bs, readFull B pos 18 = .ok (bs, pos + 18) ∧
      (App0Entry.ofFixed bs pos).IsValid = true ∧
      ((3 * (App0Entry.ofFixed bs pos).Xthumbnail.val * (App0Entry.ofFixed bs pos).Ythumbnail.val
            = 0 ∧ e = App0Entry.ofFixed bs pos ∧ here = pos + 18) ∨
       (0 < 3 * (App0Entry.ofFixed bs pos).Xthumbnail.val
              * (App0Entry.ofFixed bs pos).Ythumbnail.val ∧
        ∃ data, fileRead B (pos + 18)
            (3 * (App0Entry.ofFixed bs pos).Xthumbnail.val
              * (App0Entry.ofFixed bs pos).Ythumbnail.val) = .ok (data, here) ∧
          e = { App0Entry.ofFixed bs pos with Data := some data })) := by
  unfold App0Entry.Read at h
  cases hr : readFull B pos 18 with
  | error err => rw [hr] at h; cases h
  | panic => rw [hr] at h; cases h
  | ok r =>
    obtain ⟨bs, here1⟩ := r
    obtain ⟨hh, _, _, _⟩ := readFull_ok hr
    subst hh
    rw [hr] at h
    simp only at h
    split at h
    · cases h
    · rename_i hv
      refine ⟨bs, rfl, by simpa using hv, ?_⟩
      split at h
      · rename_i ht
        right
        refine ⟨ht, ?_⟩
        cases hf : fileRead B (pos + 18)
            (3 * (App0Entry.ofFixed bs pos).Xthumbnail.val
              * (App0Entry.ofFixed bs pos).Ythumbnail.val) with
        | error err => rw [hf] at h; cases h
        | panic => rw [hf] at h; cases h
        | ok r2 =>
          obtain ⟨data, here2⟩ := r2
          rw [hf] at h
          simp only [Res.ok.injEq, Prod.mk.injEq] at h
          obtain ⟨he, hh⟩ := h
          subst hh
          exact ⟨data, rfl, he.symm⟩
      · rename_i ht
        left
        simp only [Res.ok.injEq, Prod.mk.injEq] at h
        obtain ⟨he, hh⟩ := h
        exact ⟨by omega, he.symm, hh.symm⟩

theorem list_length_18 {bs : List Byte} (h : bs.length = 18) :
    ∃ b0 b1 b2 b3 b4 b5 b6 b7 b8 b9 b10 b11 b12 b13 b14 b15 b16 b17,
      bs = [b0, b1, b2, b3, b4, b5, b6, b7, b8, b9, b10, b11, b12, b13, b14, b15, b16, b17] := by
  match bs, h with
  | [b0, b1, b2, b3, b4, b5, b6, b7, b8, b9, b10, b11, b12, b13, b14, b15, b16, b17], _ =>
    exact ⟨b0, b1, b2, b3, b4, b5, b6, b7, b8, b9, b10, b11, b12, b13, b14, b15, b16, b17, rfl⟩

/-- The fixed part of an application segment 0 is written back as it was
read. -/
theorem App0Entry_bytes_ofFixed {bs : List Byte} (h : bs.length = 18) (pos : Nat)
    (data : Option (List Byte)) :
    (Entry.app0 { App0Entry.ofFixed bs pos with Data := data }).bytes = bs ++ data.getD [] := by
  obtain ⟨b0, b1, b2, b3, b4, b5, b6, b7, b8, b9, b10, b11, b12, b13, b14, b15, b16, b17, hbs⟩ :=
    list_length_18 h
  subst hbs
  rw [Entry.bytes_eq]
  simp only [App0Entry.ofFixed, List.getD_cons_zero, List.getD_cons_succ, toByte_beWord_hi,
    toByte_beWord_lo, List.drop_succ_cons, List.drop_zero, List.take_succ_cons, List.take_zero,
    List.cons_append, List.nil_append]

theorem App0Entry_Read_step {B : List Byte} {pos here : Nat} {e : App0Entry}
    (h : App0Entry.Read B pos = .ok (e, here)) :
    e.pos = pos ∧ (Normal B pos (.app0 e) here ∨ here = B.length ∨ here = pos) := by
  obtain ⟨bs, hr, _, hc⟩ := App0Entry_Read_ok h
  obtain ⟨_, hle, hlen, hd⟩ := readFull_ok hr
  rcases hc with ⟨_, he, hh⟩ | ⟨_, data, hf, he⟩
  · subst he hh
    refine ⟨rfl, Or.inl ?_⟩
    unfold Normal
    have hb : (Entry.app0 (App0Entry.ofFixed bs pos)).bytes
        = bs ++ (none : Option (List Byte)).getD [] := App0Entry_bytes_ofFixed hlen pos none
    simp only [Option.getD_none, List.append_nil] at hb
    rw [hb, hlen]
    exact ⟨rfl, hd⟩
  · subst he
    refine ⟨rfl, ?_⟩
    obtain ⟨hdl, hcase⟩ := fileRead_ok hf hle
    rcases hcase with ⟨h1, _, h3⟩ | ⟨h1, _⟩
    · left
      unfold Normal
      rw [App0Entry_bytes_ofFixed hlen pos (some data)]
      simp only [Option.getD_some, List.length_append, hlen, hdl]
      refine ⟨by omega, ?_⟩
      rw [hd, h3, List.append_assoc]
    · exact Or.inr (Or.inl h1)

/-! ### One step of the loop -/

theorem Res.entry_ok {α : Type} {f : α → Entry} {r : Res (α × Nat)} {e : Entry} {here : Nat}
    (h : r.entry f = .ok (e, here)) : ∃ a, r = .ok (a, here) ∧ e = f a := by
  cases r with
  | ok p =>
    obtain ⟨a, here2⟩ := p
    simp only [Res.entry, Res.ok.injEq, Prod.mk.injEq] at h
    obtain ⟨h1, h2⟩ := h
    subst h1 h2
    exact ⟨a, rfl, rfl⟩
  | error err => cases h
  | panic => cases h

theorem header_id {B : List Byte} {pos : Nat} {tmp : lookupHeader} {a b : Byte}
    {rest : List Byte} (hl : lookupHeader.Read B pos = .ok tmp)
    (hd : B.drop pos = a :: b :: rest) : tmp.Xff0 = a ∧ tmp.XID = b := by
  obtain ⟨l1, l2, hd2, _, _⟩ := lookupHeader_Read_ok hl
  rw [hd] at hd2
  simp only [List.cons.injEq] at hd2
  exact ⟨hd2.1.symm, hd2.2.1.symm⟩

/-- The marker byte under the position is the identifier of the entry that
`ReadEntry` returns. -/
theorem ReadEntry_id {B : List Byte} {pos here : Nat} {e : Entry} {b : Byte}
    {rest : List Byte} (hd : B.drop pos = 255 :: b :: rest)
    (h : anEntry.ReadEntry B pos = .ok (e, here)) : e.GetId = b := by
  have hpos : pos ≤ B.length := Nat.le_of_lt (drop_length_le hd)
  rw [ReadEntry_of_drop hd] at h
  split at h
  · cases h
  split at h
  · rename_i hb
    obtain ⟨a, hr, he⟩ := Res.entry_ok h
    have hl : 2 ≤ B.length := by
      have := congrArg List.length hd
      simp only [List.length_drop, List.length_cons] at this
      omega
    obtain ⟨h1, _, _⟩ := SoiEntry_Read_ok hl hr
    subst he h1
    exact hb.symm
  split at h
  · obtain ⟨a, hr, he⟩ := Res.entry_ok h
    obtain ⟨bs, hrf, _, hc⟩ := App0Entry_Read_ok hr
    obtain ⟨_, _, hlen, hd2⟩ := readFull_ok hrf
    obtain ⟨b0, b1, b2, b3, b4, b5, b6, b7, b8, b9, b10, b11, b12, b13, b14, b15, b16, b17,
      hbs⟩ := list_length_18 hlen
    subst hbs
    rw [hd] at hd2
    simp only [List.cons_append, List.cons.injEq] at hd2
    have hid : (App0Entry.ofFixed [b0, b1, b2, b3, b4, b5, b6, b7, b8, b9, b10, b11, b12, b13,
        b14, b15, b16, b17] pos).ID = b := hd2.2.1.symm
    rcases hc with ⟨_, he2, _⟩ | ⟨_, data, _, he2⟩
    · subst he he2; exact hid
    · subst he he2; exact hid
  split at h
  · obtain ⟨a, hr, he⟩ := Res.entry_ok h
    obtain ⟨tmp, d, hl, _, he2, _⟩ := AppnEntry_Read_ok hr
    subst he he2
    exact (header_id hl hd).2
  split at h
  · obtain ⟨a, hr, he⟩ := Res.entry_ok h
    obtain ⟨tmp, d, hl, _, he2, _⟩ := DqtEntry_Read_ok hr
    subst he he2
    exact (header_id hl hd).2
  split at h
  · obtain ⟨a, hr, he⟩ := Res.entry_ok h
    obtain ⟨tmp, d, hl, _, _, _, _, _, _, _, _, _, he2⟩ := SofEntry_Read_ok hr
    subst he he2
    exact (header_id hl hd).2
  split at h
  · obtain ⟨a, hr, he⟩ := Res.entry_ok h
    obtain ⟨tmp, d, hl, _, _, _, _, _, _, _, he2⟩ := DhtEntry_Read_ok hr
    subst he he2
    exact (header_id hl hd).2
  split at h
  · obtain ⟨a, hr, he⟩ := Res.entry_ok h
    obtain ⟨tmp, d, _, hl, _, _, _, _, _, _, _, _, _, he2⟩ := SosEntry_Read_ok hr
    subst he he2
    exact (header_id hl hd).2
  split at h
  · obtain ⟨a, hr, he⟩ := Res.entry_ok h
    obtain ⟨hb, he2, _⟩ := EoiEntry_Read_ok hd hr
    subst he he2
    exact hb.symm
  · cases h

/-- Classification of a successful step of `ReadEntry` at `pos`: a
start-of-image entry is read at offset 0 and leaves the position at 2; every
other entry records `pos` and either consumed exactly the bytes it writes, or
was cut short by the end of the file, or did not move. -/
theorem ReadEntry_step {B : List Byte} {pos here : Nat} {e : Entry}
    (h : anEntry.ReadEntry B pos = .ok (e, here)) :
    ∃ b, B.drop pos = 255 :: b :: B.drop (pos + 2) ∧ e.GetId = b ∧
      ((b = SOI ∧ e = .soi ⟨255, SOI, 0⟩ ∧ here = 2 ∧ ∃ r, B = 255 :: SOI :: r) ∨
       (b ≠ SOI ∧ e.Pos = pos ∧
          (Normal B pos e here ∨ (here = B.length ∧ b ≠ EOI) ∨ (here = pos ∧ b ≠ EOI)))) := by
  obtain ⟨b, hd, hv⟩ := ReadEntry_ok_drop h
  have hid := ReadEntry_id hd h
  refine ⟨b, hd, hid, ?_⟩
  have hpos : pos ≤ B.length := Nat.le_of_lt (drop_length_le hd)
  rw [ReadEntry_of_drop hd] at h
  split at h
  · cases h
  split at h
  · rename_i hb
    obtain ⟨a, hr, he⟩ := Res.entry_ok h
    have hl : 2 ≤ B.length := by
      have := congrArg List.length hd
      simp only [List.length_drop, List.length_cons] at this
      omega
    obtain ⟨h1, h2, h3⟩ := SoiEntry_Read_ok hl hr
    subst he h1
    exact Or.inl ⟨hb, rfl, h2, h3⟩
  rename_i hsoi
  right
  refine ⟨hsoi, ?_⟩
  split at h
  · rename_i hb
    obtain ⟨a, hr, he⟩ := Res.entry_ok h
    obtain ⟨h1, h2⟩ := App0Entry_Read_step hr
    subst he hb
    refine ⟨h1, ?_⟩
    rcases h2 with h2 | h2 | h2
    · exact Or.inl h2
    · exact Or.inr (Or.inl ⟨h2, by decide⟩)
    · exact Or.inr (Or.inr ⟨h2, by decide⟩)
  split at h
  · rename_i hb
    have hne : b ≠ EOI := by
      intro hc; subst hc; revert hb; decide
    obtain ⟨a, hr, he⟩ := Res.entry_ok h
    obtain ⟨h1, h2⟩ := AppnEntry_Read_step hr
    subst he
    refine ⟨h1, ?_⟩
    rcases h2 with h2 | h2 | h2
    · exact Or.inl h2
    · exact Or.inr (Or.inl ⟨h2, hne⟩)
    · exact Or.inr (Or.inr ⟨h2, hne⟩)
  split at h
  · rename_i hb
    obtain ⟨a, hr, he⟩ := Res.entry_ok h
    obtain ⟨h1, h2⟩ := DqtEntry_Read_step hr
    subst he hb
    refine ⟨h1, ?_⟩
    rcases h2 with h2 | h2 | h2
    · exact Or.inl h2
    · exact Or.inr (Or.inl ⟨h2, by decide⟩)
    · exact Or.inr (Or.inr ⟨h2, by decide⟩)
  split at h
  · rename_i hb
    have hne : b ≠ EOI := by
      intro hc; subst hc; revert hb; decide
    obtain ⟨a, hr, he⟩ := Res.entry_ok h
    obtain ⟨h1, h2⟩ := SofEntry_Read_step hr
    subst he
    refine ⟨h1, ?_⟩
    rcases h2 with h2 | h2 | h2
    · exact Or.inl h2
    · exact Or.inr (Or.inl ⟨h2, hne⟩)
    · exact Or.inr (Or.inr ⟨h2, hne⟩)
  split at h
  · rename_i hb
    obtain ⟨a, hr, he⟩ := Res.entry_ok h
    obtain ⟨h1, h2⟩ := DhtEntry_Read_step hr
    subst he hb
    refine ⟨h1, ?_⟩
    rcases h2 with h2 | h2 | h2
    · exact Or.inl h2
    · exact Or.inr (Or.inl ⟨h2, by decide⟩)
    · exact Or.inr (Or.inr ⟨h2, by decide⟩)
  split at h
  · obtain ⟨a, hr, he⟩ := Res.entry_ok h
    obtain ⟨h1, h2, _⟩ := SosEntry_Read_step hr
    subst he
    exact ⟨h1, Or.inl h2⟩
  split at h
  · obtain ⟨a, hr, he⟩ := Res.entry_ok h
    obtain ⟨hb, he2, hh⟩ := EoiEntry_Read_ok hd hr
    subst he he2 hb hh
    refine ⟨rfl, Or.inl ?_⟩
    unfold Normal
    rw [Entry.bytes_eq]
    exact ⟨rfl, hd⟩
  · cases h

/-! ### Runs of the loop -/

theorem ReadEntry_ok_le {B : List Byte} {pos here : Nat} {e : Entry}
    (h : anEntry.ReadEntry B pos = .ok (e, here)) : pos + 2 ≤ B.length := by
  obtain ⟨b, hd, _⟩ := ReadEntry_ok_drop h
  have := congrArg List.length hd
  simp only [List.length_drop, List.length_cons] at this
  omega

theorem Walk.snoc {B : List Byte} {p q r : Nat} {es : List Entry} {e : Entry}
    (hw : Walk B p es q) (h : anEntry.ReadEntry B q = .ok (e, r)) (hid : e.GetId ≠ EOI) :
    Walk B p (es ++ [e]) r := by
  induction hw with
  | nil p => exact Walk.cons h hid (Walk.nil r)
  | cons h1 hid1 _ ih => exact Walk.cons h1 hid1 (ih h)

theorem Walk.append {B : List Byte} {p q r : Nat} {es fs : List Entry}
    (hw : Walk B p es q) (hv : Walk B q fs r) : Walk B p (es ++ fs) r := by
  induction hw with
  | nil p => exact hv
  | cons h1 hid1 _ ih => exact Walk.cons h1 hid1 (ih hv)

/-- The loop follows a walk: after as many rounds as the walk has entries, the
loop is at the end of the walk with these entries appended. -/
theorem loadLoop_walk {B : List Byte} {p q : Nat} {es : List Entry} (hw : Walk B p es q)
    (fuel : Nat) (entries : List Entry) :
    Exif.loadLoop B (fuel + es.length) p entries = Exif.loadLoop B fuel q (entries ++ es) := by
  induction hw generalizing entries with
  | nil p => simp
  | @cons p q r e es h hid _ ih =>
    have : fuel + (e :: es).length = (fuel + es.length) + 1 := by
      simp only [List.length_cons]; omega
    rw [this, loadLoop_next h hid, ih]
    simp

/-- A finished loop is a walk followed by the reading of an end-of-image
entry. -/
theorem loadLoop_done {B : List Byte} {fuel p : Nat} {acc entries : List Entry} {pF : Nat}
    (h : Exif.loadLoop B fuel p acc = .done (entries, pF)) :
    ∃ es last q, Walk B p es q ∧ anEntry.ReadEntry B q = .ok (last, pF) ∧
      last.GetId = EOI ∧ entries = acc ++ es ++ [last] ∧ es.length < fuel := by
  induction fuel generalizing p acc with
  | zero => cases h
  | succ n ih =>
    unfold Exif.loadLoop at h
    cases hr : anEntry.ReadEntry B p with
    | error err => rw [hr] at h; cases h
    | panic => rw [hr] at h; cases h
    | ok r =>
      obtain ⟨e, here⟩ := r
      rw [hr] at h
      simp only at h
      split at h
      · rename_i hid
        simp only [Outcome.done.injEq, Prod.mk.injEq] at h
        obtain ⟨h1, h2⟩ := h
        subst h1 h2
        exact ⟨[], e, p, Walk.nil p, hr, hid, by simp, by simp⟩
      · rename_i hid
        obtain ⟨es, last, q, hw, hl, hlid, hent, hlen⟩ := ih h
        refine ⟨e :: es, last, q, Walk.cons hr hid hw, hl, hlid, ?_, ?_⟩
        · rw [hent]; simp
        · simp only [List.length_cons]; omega

/-- Conversely a walk followed by an end-of-image entry makes the loop finish,
given fuel for every round. -/
theorem loadLoop_of_walk {B : List Byte} {p q pF : Nat} {es : List Entry} {last : Entry}
    (hw : Walk B p es q) (hl : anEntry.ReadEntry B q = .ok (last, pF)) (hid : last.GetId = EOI)
    (fuel : Nat) (hfuel : es.length < fuel) (acc : List Entry) :
    Exif.loadLoop B fuel p acc = .done (acc ++ es ++ [last], pF) := by
  obtain ⟨k, hk⟩ : ∃ k, fuel = (k + 1) + es.length := ⟨fuel - es.length - 1, by omega⟩
  rw [hk, loadLoop_walk hw, loadLoop_last hl hid]

/-- From a given position the walk up to the end-of-image entry is unique. -/
theorem Walk.unique {B : List Byte} {p q q2 : Nat} {es es2 : List Entry} {last last2 : Entry}
    {pF pF2 : Nat} (hw : Walk B p es q) (hl : anEntry.ReadEntry B q = .ok (last, pF))
    (hid : last.GetId = EOI) (hw2 : Walk B p es2 q2)
    (hl2 : anEntry.ReadEntry B q2 = .ok (last2, pF2)) (hid2 : last2.GetId = EOI) :
    es = es2 ∧ q = q2 := by
  induction hw generalizing es2 with
  | nil p =>
    cases hw2 with
    | nil _ => exact ⟨rfl, rfl⟩
    | cons h hne _ =>
      rw [hl] at h
      simp only [Res.ok.injEq, Prod.mk.injEq] at h
      rw [h.1] at hid
      exact absurd hid hne
  | cons h hne _ ih =>
    cases hw2 with
    | nil _ =>
      rw [hl2] at h
      simp only [Res.ok.injEq, Prod.mk.injEq] at h
      rw [h.1] at hid2
      exact absurd hid2 hne
    | cons h2 hne2 hw3 =>
      rw [h] at h2
      simp only [Res.ok.injEq, Prod.mk.injEq] at h2
      obtain ⟨he, hq⟩ := h2
      subst he hq
      obtain ⟨i1, i2⟩ := ih hl hw3
      exact ⟨by rw [i1], i2⟩

/-- A walk that ends with the reading of an end-of-image entry does not pass a
position twice. -/
theorem Walk.no_cycle {B : List Byte} {p q : Nat} {cyc es : List Entry} {last : Entry}
    {pF : Nat} (hc : Walk B p cyc p) (hw : Walk B p es q)
    (hl : anEntry.ReadEntry B q = .ok (last, pF)) (hid : last.GetId = EOI) : cyc = [] := by
  have h2 := Walk.unique (hc.append hw) hl hid hw hl hid
  have := congrArg List.length h2.1
  simp only [List.length_append] at this
  exact List.length_eq_zero.mp (by omega)

theorem Walk.first_le {B : List Byte} {p q pF : Nat} {es : List Entry} {last : Entry}
    (hw : Walk B p es q) (hl : anEntry.ReadEntry B q = .ok (last, pF)) : p + 2 ≤ B.length := by
  cases hw with
  | nil _ => exact ReadEntry_ok_le hl
  | cons h _ _ => exact ReadEntry_ok_le h

/-- In a run that reaches an end-of-image entry, every step consumed exactly
the bytes of its entry and recorded the position it started from. The
hypothesis `hinv` says that the position `p` is the start of the stream or, in
a stream that starts with `FF D8`, was reached from offset 2. -/
theorem good_step {B : List Byte} {p q r pF : Nat} {e last : Entry} {es : List Entry}
    (h : anEntry.ReadEntry B p = .ok (e, q)) (hne : e.GetId ≠ EOI)
    (hw : Walk B q es r) (hl : anEntry.ReadEntry B r = .ok (last, pF))
    (hid : last.GetId = EOI)
    (hinv : ∀ t, B = 255 :: SOI :: t → p = 0 ∨ ∃ es0, Walk B 2 es0 p) :
    Normal B p e q ∧ e.Pos = p ∧
      (∀ t, B = 255 :: SOI :: t → q = 0 ∨ ∃ es0, Walk B 2 es0 q) := by
  obtain ⟨b, hd, hb, hc⟩ := ReadEntry_step h
  rcases hc with ⟨hsoi, he, hq, t, hB⟩ | ⟨hsoi, hpos, hc⟩
  · subst hq
    rcases hinv t hB with hp | ⟨es0, hw0⟩
    · subst hp he
      refine ⟨?_, rfl, fun _ _ => Or.inr ⟨[], Walk.nil 2⟩⟩
      unfold Normal
      rw [Entry.bytes_eq, hB]
      exact ⟨rfl, rfl⟩
    · have hcyc := Walk.no_cycle (hw0.snoc h hne) hw hl hid
      simp at hcyc
  · have hinv2 : ∀ t, B = 255 :: SOI :: t → q = 0 ∨ ∃ es0, Walk B 2 es0 q := by
      intro t hB
      rcases hinv t hB with hp | ⟨es0, hw0⟩
      · subst hp
        rw [List.drop_zero, hB] at hd
        simp only [List.cons.injEq, true_and] at hd
        exact absurd hd.1.symm hsoi
      · exact Or.inr ⟨es0 ++ [e], hw0.snoc h hne⟩
    rcases hc with hn | ⟨hshort, _⟩ | ⟨hstuck, _⟩
    · exact ⟨hn, hpos, hinv2⟩
    · subst hshort
      have := Walk.first_le hw hl
      omega
    · subst hstuck
      have hcyc := Walk.no_cycle (Walk.cons h hne (Walk.nil q)) hw hl hid
      simp at hcyc

/-- The entries of a run that reaches an end-of-image entry tile the stream
between the start and the end of the run. -/
theorem Walk.tiles {B : List Byte} {p q pF : Nat} {es : List Entry} {last : Entry}
    (hw : Walk B p es q) (hl : anEntry.ReadEntry B q = .ok (last, pF))
    (hid : last.GetId = EOI)
    (hinv : ∀ t, B = 255 :: SOI :: t → p = 0 ∨ ∃ es0, Walk B 2 es0 p) :
    q = p + (bytesOf es).length ∧ B.drop p = bytesOf es ++ B.drop q := by
  induction hw with
  | nil p => simp [bytesOf]
  | @cons p q r e es h hne hw ih =>
    obtain ⟨⟨hn1, hn2⟩, _, hinv2⟩ := good_step h hne hw hl hid hinv
    obtain ⟨i1, i2⟩ := ih hl hinv2
    have hb : bytesOf (e :: es) = e.bytes ++ bytesOf es := by
      simp only [bytesOf, List.map_cons, List.flatten_cons]
    rw [hb]
    constructor
    · rw [i1, hn1, List.length_append]; omega
    · rw [hn2, i2, List.append_assoc]

/-- The reading of an end-of-image entry consumes its two bytes. -/
theorem last_step {B : List Byte} {q pF : Nat} {last : Entry}
    (hl : anEntry.ReadEntry B q = .ok (last, pF)) (hid : last.GetId = EOI) :
    last = .eoi ⟨255, EOI, q⟩ ∧ pF = q + 2 ∧ B.drop q = 255 :: EOI :: B.drop (q + 2) := by
  obtain ⟨b, hd, hb⟩ := ReadEntry_ok_drop hl
  have hbe : b = EOI := by rw [← ReadEntry_id hd hl]; exact hid
  subst hbe
  rw [ReadEntry_of_drop hd] at hl
  have hl2 : (EoiEntry.Read B q).entry Entry.eoi = .ok (last, pF) := by
    simpa using hl
  obtain ⟨a, hr, he⟩ := Res.entry_ok hl2
  obtain ⟨_, he2, hh⟩ := EoiEntry_Read_ok hd hr
  subst he he2 hh
  exact ⟨rfl, rfl, hd⟩

/-- A successful `Load` into the zero container: the entries are a run from
offset 0 followed by an end-of-image entry, and `NoDataLeft` compares the
position behind that entry with the size of the file. -/
theorem Load_done {fuel : Nat} {path : String} {B : List Byte} {x : Exif}
    (h : Exif.Load fuel Exif.zero path B = .done x) :
    ∃ es q, Walk B 0 es q ∧
      anEntry.ReadEntry B q = .ok (.eoi ⟨255, EOI, q⟩, q + 2) ∧
      x = ⟨path, es ++ [.eoi ⟨255, EOI, q⟩], decide (q + 2 = B.length)⟩ ∧
      es.length < fuel := by
  unfold Exif.Load at h
  cases hloop : Exif.loadLoop B fuel 0 Exif.zero.Entries with
  | done r =>
    obtain ⟨entries, pF⟩ := r
    rw [hloop] at h
    simp only [Outcome.done.injEq] at h
    obtain ⟨es, last, q, hw, hl, hid, hent, hlen⟩ := loadLoop_done hloop
    obtain ⟨h1, h2, _⟩ := last_step hl hid
    subst h1 h2
    refine ⟨es, q, hw, hl, ?_, hlen⟩
    rw [← h, hent]
    simp [Exif.zero]
  | failed s e => rw [hloop] at h; cases h
  | panicked => rw [hloop] at h; cases h
  | outOfFuel => rw [hloop] at h; cases h

theorem Load_of_walk {B : List Byte} {q : Nat} {es : List Entry}
    (hw : Walk B 0 es q) (hl : anEntry.ReadEntry B q = .ok (.eoi ⟨255, EOI, q⟩, q + 2))
    (fuel : Nat) (hfuel : es.length < fuel) (path : String) :
    Exif.Load fuel Exif.zero path B
      = .done ⟨path, es ++ [.eoi ⟨255, EOI, q⟩], decide (q + 2 = B.length)⟩ := by
  unfold Exif.Load
  rw [loadLoop_of_walk hw hl rfl fuel hfuel]
  simp [Exif.zero]

/-- Claim C1: if `Load` succeeds on the stream `B` and reports `NoDataLeft`,
then `SaveTo`, with the no-op `Inject` applied in between or not, writes
exactly `B` to a newly created sink. -/
theorem C1_encode_decode_roundtrip (fuel : Nat) (path : String) (B : List Byte) (x : Exif)
    (xif : ExifData) (h : Exif.Load fuel Exif.zero path B = .done x)
    (hleft : x.NoDataLeft = true) :
    (x.SaveTo Writer.create).1.buf = B ∧
    ((x.Inject xif).1.SaveTo Writer.create).1.buf = B ∧
    (x.Inject xif).2 = none ∧ (x.SaveTo Writer.create).2 = none := by
  obtain ⟨es, q, hw, hl, hx, _⟩ := Load_done h
  subst hx
  simp only [decide_eq_true_eq] at hleft
  obtain ⟨_, ht2⟩ := Walk.tiles hw hl rfl (fun _ _ => Or.inl rfl)
  obtain ⟨_, _, hd⟩ := last_step hl rfl
  have hB : bytesOf (es ++ [.eoi ⟨255, EOI, q⟩]) = B := by
    rw [bytesOf_append, bytesOf_singleton, Entry.bytes_eq]
    rw [List.drop_zero, hd, hleft, List.drop_length] at ht2
    exact ht2.symm
  simp only [Exif.Inject, SaveTo_create, hB, and_self]

theorem C1_encode_decode_roundtrip_witness :
    ((⟨"a.jpg", [.soi ⟨255, SOI, 0⟩,
        .sos ⟨255, SOS, 5, 1, [⟨1, 0⟩], some [], [9, 8, 7, 6], 2⟩,
        .eoi ⟨255, EOI, 13⟩], true⟩ : Exif).SaveTo Writer.create).1.buf
      = [0xff, 0xd8, 0xff, 0xda, 0, 5, 1, 1, 0, 9, 8, 7, 6, 0xff, 0xd9] ∧
    (((⟨"a.jpg", [.soi ⟨255, SOI, 0⟩,
        .sos ⟨255, SOS, 5, 1, [⟨1, 0⟩], some [], [9, 8, 7, 6], 2⟩,
        .eoi ⟨255, EOI, 13⟩], true⟩ : Exif).Inject
          [("UserComment", .string "sample user comment")]).1.SaveTo Writer.create).1.buf
      = [0xff, 0xd8, 0xff, 0xda, 0, 5, 1, 1, 0, 9, 8, 7, 6, 0xff, 0xd9] ∧
    ((⟨"a.jpg", [.soi ⟨255, SOI, 0⟩,
        .sos ⟨255, SOS, 5, 1, [⟨1, 0⟩], some [], [9, 8, 7, 6], 2⟩,
        .eoi ⟨255, EOI, 13⟩], true⟩ : Exif).Inject
          [("UserComment", .string "sample user comment")]).2 = none ∧
    ((⟨"a.jpg", [.soi ⟨255, SOI, 0⟩,
        .sos ⟨255, SOS, 5, 1, [⟨1, 0⟩], some [], [9, 8, 7, 6], 2⟩,
        .eoi ⟨255, EOI, 13⟩], true⟩ : Exif).SaveTo Writer.create).2 = none :=
  C1_encode_decode_roundtrip 3 "a.jpg"
    [0xff, 0xd8, 0xff, 0xda, 0, 5, 1, 1, 0, 9, 8, 7, 6, 0xff, 0xd9] _
    [("UserComment", .string "sample user comment")] (by decide) rfl

/-- The variant reader behind a successful `ReadEntry`. -/
theorem ReadEntry_variant {B : List Byte} {pos here : Nat} {e : Entry}
    (h : anEntry.ReadEntry B pos = .ok (e, here)) :
    match e with
    | .soi a => SoiEntry.Read B = .ok (a, here)
    | .app0 a => App0Entry.Read B pos = .ok (a, here)
    | .appn a => AppnEntry.Read B pos = .ok (a, here)
    | .dqt a => DqtEntry.Read B pos = .ok (a, here)
    | .sof a => SofEntry.Read B pos = .ok (a, here)
    | .dht a => DhtEntry.Read B pos = .ok (a, here)
    | .sos a => SosEntry.Read B pos = .ok (a, here)
    | .eoi a => EoiEntry.Read B pos = .ok (a, here) := by
  obtain ⟨b, hd, _⟩ := ReadEntry_ok_drop h
  rw [ReadEntry_of_drop hd] at h
  split at h
  · cases h
  split at h
  · obtain ⟨a, hr, he⟩ := Res.entry_ok h
    subst he
    exact hr
  split at h
  · obtain ⟨a, hr, he⟩ := Res.entry_ok h
    subst he
    exact hr
  split at h
  · obtain ⟨a, hr, he⟩ := Res.entry_ok h
    subst he
    exact hr
  split at h
  · obtain ⟨a, hr, he⟩ := Res.entry_ok h
    subst he
    exact hr
  split at h
  · obtain ⟨a, hr, he⟩ := Res.entry_ok h
    subst he
    exact hr
  split at h
  · obtain ⟨a, hr, he⟩ := Res.entry_ok h
    subst he
    exact hr
  split at h
  · obtain ⟨a, hr, he⟩ := Res.entry_ok h
    subst he
    exact hr
  split at h
  · obtain ⟨a, hr, he⟩ := Res.entry_ok h
    subst he
    exact hr
  · cases h

theorem Walk.ne_eoi {B : List Byte} {p q : Nat} {es : List Entry} (hw : Walk B p es q) :
    ∀ e ∈ es, e.GetId ≠ EOI := by
  induction hw with
  | nil p => intro e he; cases he
  | cons h hne _ ih =>
    intro e he
    rcases List.mem_cons.mp he with h1 | h1
    · subst h1; exact hne
    · exact ih e h1

/-- Every entry of a run was returned by `ReadEntry` at some position. -/
theorem Walk.mem_read {B : List Byte} {p q : Nat} {es : List Entry} (hw : Walk B p es q) :
    ∀ e ∈ es, ∃ pos here, anEntry.ReadEntry B pos = .ok (e, here) := by
  induction hw with
  | nil p => intro e he; cases he
  | @cons p q r e0 es h hne _ ih =>
    intro e he
    rcases List.mem_cons.mp he with h1 | h1
    · subst h1; exact ⟨p, q, h⟩
    · exact ih e h1

/-- A successful `Load` into any container: the entries appended by the call
are a run from offset 0 followed by an end-of-image entry. -/
theorem Load_done_append {fuel : Nat} {x0 : Exif} {path : String} {B : List Byte} {x : Exif}
    (h : Exif.Load fuel x0 path B = .done x) :
    ∃ es q, Walk B 0 es q ∧
      anEntry.ReadEntry B q = .ok (.eoi ⟨255, EOI, q⟩, q + 2) ∧
      x = ⟨path, x0.Entries ++ es ++ [.eoi ⟨255, EOI, q⟩], decide (q + 2 = B.length)⟩ ∧
      es.length < fuel := by
  unfold Exif.Load at h
  cases hloop : Exif.loadLoop B fuel 0 x0.Entries with
  | done r =>
    obtain ⟨entries, pF⟩ := r
    rw [hloop] at h
    simp only [Outcome.done.injEq] at h
    obtain ⟨es, last, q, hw, hl, hid, hent, hlen⟩ := loadLoop_done hloop
    obtain ⟨h1, h2, _⟩ := last_step hl hid
    subst h1 h2
    refine ⟨es, q, hw, hl, ?_, hlen⟩
    rw [← h, hent]
  | failed s e => rw [hloop] at h; cases h
  | panicked => rw [hloop] at h; cases h
  | outOfFuel => rw [hloop] at h; cases h

/-- Claim C4: in a container that `Load` filled successfully, the entries
appended by the call end with an end-of-image entry and hold no other entry
with the end-of-image identifier; the loop stopped right behind that entry, so
`NoDataLeft` compares the offset of that entry plus 2 with the size of the
file. -/
theorem C4_last_entry_is_the_only_eoi (fuel : Nat) (x0 : Exif) (path : String)
    (B : List Byte) (x : Exif) (h : Exif.Load fuel x0 path B = .done x) :
    ∃ init last, x.Entries = x0.Entries ++ init ++ [.eoi last] ∧
      last.Xff0 = 255 ∧ last.ID = EOI ∧ (Entry.eoi last).GetId = EOI ∧
      (∀ e ∈ init, e.GetId ≠ EOI ∧ ∀ a, e ≠ .eoi a) ∧
      Exif.loadLoop B fuel 0 x0.Entries = .done (x.Entries, last.pos + 2) ∧
      x.NoDataLeft = decide (last.pos + 2 = B.length) := by
  obtain ⟨es, q, hw, hl, hx, hlen⟩ := Load_done_append h
  subst hx
  refine ⟨es, ⟨255, EOI, q⟩, rfl, rfl, rfl, rfl, ?_, ?_, rfl⟩
  · intro e he
    refine ⟨hw.ne_eoi e he, ?_⟩
    intro a hea
    subst hea
    obtain ⟨pos, here, hr⟩ := hw.mem_read _ he
    have hv := ReadEntry_variant hr
    obtain ⟨b, hd, _⟩ := ReadEntry_ok_drop hr
    obtain ⟨_, ha, _⟩ := EoiEntry_Read_ok hd hv
    subst ha
    exact hw.ne_eoi _ he rfl
  · exact loadLoop_of_walk hw hl rfl fuel hlen _

theorem C4_last_entry_is_the_only_eoi_witness :
    ∃ init last,
      (⟨"a.jpg", [.soi ⟨255, SOI, 0⟩, .appn ⟨255, APP1, 3, some [7], 2⟩, .eoi ⟨255, EOI, 7⟩],
          true⟩ : Exif).Entries = Exif.zero.Entries ++ init ++ [.eoi last] ∧
      last.Xff0 = 255 ∧ last.ID = EOI ∧ (Entry.eoi last).GetId = EOI ∧
      (∀ e ∈ init, e.GetId ≠ EOI ∧ ∀ a, e ≠ .eoi a) ∧
      Exif.loadLoop [0xff, 0xd8, 0xff, 0xe1, 0, 3, 7, 0xff, 0xd9] 3 0 Exif.zero.Entries
        = .done ((⟨"a.jpg", [.soi ⟨255, SOI, 0⟩, .appn ⟨255, APP1, 3, some [7], 2⟩,
            .eoi ⟨255, EOI, 7⟩], true⟩ : Exif).Entries, last.pos + 2) ∧
      (⟨"a.jpg", [.soi ⟨255, SOI, 0⟩, .appn ⟨255, APP1, 3, some [7], 2⟩, .eoi ⟨255, EOI, 7⟩],
          true⟩ : Exif).NoDataLeft
        = decide (last.pos + 2 = [0xff, 0xd8, 0xff, 0xe1, 0, 3, 7, 0xff, 0xd9].length) :=
  C4_last_entry_is_the_only_eoi 3 Exif.zero "a.jpg"
    [0xff, 0xd8, 0xff, 0xe1, 0, 3, 7, 0xff, 0xd9] _ (by decide)

/-- Claim C3, as stated, fails: the two-byte stream `FF D9` does not start with
`FF D8`, and `Load` succeeds on it with a container whose only entry is the
end-of-image entry. -/
theorem C3_counterexample :
    ([0xff, 0xd9] : List Byte).take 2 ≠ [0xff, SOI] ∧
    Exif.Load 1 Exif.zero "a.jpg" [0xff, 0xd9]
      = .done ⟨"a.jpg", [.eoi ⟨255, EOI, 0⟩], true⟩ := by
  decide

/-- Claim C3, amended: a stream whose first two bytes are not `FF` followed by
a marker of the recognised set makes `Load` fail with an error before any entry
is appended; and the first entry of a container that `Load` filled
successfully has offset 0 and carries the marker byte found at offset 1 of the
stream, so that it is the start-of-image entry exactly when the stream starts
with `FF D8`. -/
theorem C3_first_entry (fuel : Nat) (x0 : Exif) (path : String) (B : List Byte) :
    ((¬ ∃ m t, B = 255 :: m :: t ∧ m ∈ markerSet) →
      ∃ err, Exif.Load (fuel + 1) x0 path B
        = .failed ⟨path, x0.Entries, x0.NoDataLeft⟩ (.loadEntry err)) ∧
    (∀ x, Exif.Load fuel Exif.zero path B = .done x →
      ∃ first rest m t, x.Entries = first :: rest ∧ first.Pos = 0 ∧
        B = 255 :: m :: t ∧ m ∈ markerSet ∧ first.GetId = m ∧
        (m = SOI ↔ first = .soi ⟨255, SOI, 0⟩)) := by
  constructor
  · intro hB
    have hfail : ∀ err, anEntry.ReadEntry B 0 = .error err →
        Exif.Load (fuel + 1) x0 path B
          = .failed ⟨path, x0.Entries, x0.NoDataLeft⟩ (.loadEntry err) := by
      intro err he
      simp only [Exif.Load, loadLoop_error he]
    match B, hB with
    | [], _ => exact ⟨.EOF, hfail _ (by decide)⟩
    | [a], _ =>
      refine ⟨.ErrUnexpectedEOF, hfail _ ?_⟩
      simp [anEntry.ReadEntry, ReadStructHere, readFull]
    | a :: m :: t, hB =>
      refine ⟨.invalidEntry a m, hfail _ ?_⟩
      have hd : (a :: m :: t).drop 0 = a :: m :: t := rfl
      rw [ReadEntry_of_drop hd]
      have hv : anEntry.IsValid ⟨a, m⟩ = false := by
        cases hc : anEntry.IsValid ⟨a, m⟩ with
        | false => rfl
        | true =>
          have ha := isValid_xff0 a m hc
          subst ha
          exact absurd ⟨m, t, rfl, (isValid_markerSet m).1 hc⟩ hB
      rw [hv]
      rfl
  · intro x h
    obtain ⟨es, q, hw, hl, hx, _⟩ := Load_done h
    subst hx
    cases hw with
    | nil _ =>
      obtain ⟨_, _, hd⟩ := last_step hl rfl
      rw [List.drop_zero] at hd
      exact ⟨_, [], EOI, _, rfl, rfl, hd, by decide, rfl, by decide⟩
    | @cons _ q1 _ e es1 h1 hne hw1 =>
      obtain ⟨_, hpos, _⟩ := good_step h1 hne hw1 hl rfl (fun _ _ => Or.inl rfl)
      obtain ⟨b, hd, hb, hc⟩ := ReadEntry_step h1
      obtain ⟨b2, hd2, hv⟩ := ReadEntry_ok_drop h1
      have hbb : b2 = b := by
        rw [hd] at hd2
        simp only [List.cons.injEq, true_and] at hd2
        exact hd2.1.symm
      subst hbb
      rw [List.drop_zero] at hd
      refine ⟨e, _, b2, _, rfl, hpos, hd, (isValid_markerSet b2).1 hv, hb, ?_⟩
      rcases hc with ⟨hs, he, _⟩ | ⟨hs, _⟩
      · exact ⟨fun _ => he, fun _ => hs⟩
      · refine ⟨fun hc2 => absurd hc2 hs, fun he => ?_⟩
        subst he
        exact absurd hb.symm hs

theorem C3_first_entry_witness :
    (∃ err, Exif.Load (0 + 1) Exif.zero "a.jpg" [0x00, 0xd8, 0xff, 0xd9]
        = .failed ⟨"a.jpg", Exif.zero.Entries, Exif.zero.NoDataLeft⟩ (.loadEntry err)) ∧
    (∃ first rest m t,
        (⟨"a.jpg", [.soi ⟨255, SOI, 0⟩, .eoi ⟨255, EOI, 2⟩], true⟩ : Exif).Entries
          = first :: rest ∧ first.Pos = 0 ∧
        ([0xff, 0xd8, 0xff, 0xd9] : List Byte) = 255 :: m :: t ∧ m ∈ markerSet ∧
        first.GetId = m ∧ (m = SOI ↔ first = .soi ⟨255, SOI, 0⟩)) :=
  ⟨(C3_first_entry 0 Exif.zero "a.jpg" [0x00, 0xd8, 0xff, 0xd9]).1
      (by rintro ⟨m, t, h, _⟩; cases h),
    (C3_first_entry 2 Exif.zero "a.jpg" [0xff, 0xd8, 0xff, 0xd9]).2 _ (by decide)⟩

/-- What the validity check of an application segment 0 says about the 18
fixed bytes. -/
theorem app0_valid_fields {bs : List Byte} (hlen : bs.length = 18) (pos : Nat)
    (hv : (App0Entry.ofFixed bs pos).IsValid = true) :
    (App0Entry.ofFixed bs pos).Identifier = [0x4a, 0x46, 0x49, 0x46, 0] ∧
    ((App0Entry.ofFixed bs pos).Units = 0 ∨ (App0Entry.ofFixed bs pos).Units = 1 ∨
      (App0Entry.ofFixed bs pos).Units = 2) := by
  obtain ⟨b0, b1, b2, b3, b4, b5, b6, b7, b8, b9, b10, b11, b12, b13, b14, b15, b16, b17, hbs⟩ :=
    list_length_18 hlen
  subst hbs
  simp only [App0Entry.IsValid, App0Entry.ofFixed, List.getD_cons_zero, List.getD_cons_succ,
    List.drop_succ_cons, List.drop_zero, List.take_succ_cons, List.take_zero,
    Bool.and_eq_true, Bool.or_eq_true, beq_iff_eq] at hv ⊢
  obtain ⟨⟨⟨⟨⟨⟨⟨_, _⟩, h4⟩, h5⟩, h6⟩, h7⟩, h8⟩, hu⟩ := hv
  subst h4 h5 h6 h7 h8
  refine ⟨rfl, ?_⟩
  rcases hu with (hu | hu) | hu
  · exact Or.inl hu
  · exact Or.inr (Or.inl hu)
  · exact Or.inr (Or.inr hu)

/-- Claim C10: where the 18 fixed bytes `bs` of an application segment 0 can be
read, the reader fails whenever the five identifier bytes `bs[4..9]` are not
`'J','F','I','F',0` or the units byte `bs[11]` is not 0, 1 or 2; and every
application-0 entry of a container that `Load` filled successfully has that
identifier and units 0, 1 or 2. -/
theorem C10_app0_identifier_and_units (fuel : Nat) (path : String) (B : List Byte)
    (pos : Nat) :
    (∀ bs t, B.drop pos = bs ++ t → bs.length = 18 →
      ((bs.drop 4).take 5 ≠ [0x4a, 0x46, 0x49, 0x46, 0] ∨
        (bs.getD 11 0 ≠ 0 ∧ bs.getD 11 0 ≠ 1 ∧ bs.getD 11 0 ≠ 2)) →
      App0Entry.Read B pos = .error .invalidHeader) ∧
    (∀ x, Exif.Load fuel Exif.zero path B = .done x →
      ∀ a, Entry.app0 a ∈ x.Entries →
        a.Identifier = [0x4a, 0x46, 0x49, 0x46, 0] ∧
        (a.Units = 0 ∨ a.Units = 1 ∨ a.Units = 2)) := by
  constructor
  · intro bs t hd hlen hbad
    have hpos : pos ≤ B.length := by
      by_contra hc
      rw [List.drop_of_length_le (by omega)] at hd
      have := congrArg List.length hd
      simp only [List.length_nil, List.length_append] at this
      omega
    have hr := readFull_of_drop hd hpos
    rw [hlen] at hr
    have hv : (App0Entry.ofFixed bs pos).IsValid = false := by
      cases hc : (App0Entry.ofFixed bs pos).IsValid with
      | false => rfl
      | true =>
        obtain ⟨h1, h2⟩ := app0_valid_fields hlen pos hc
        rcases hbad with hb | ⟨hb0, hb1, hb2⟩
        · exact absurd h1 hb
        · rcases h2 with h2 | h2 | h2
          · exact absurd h2 hb0
          · exact absurd h2 hb1
          · exact absurd h2 hb2
    unfold App0Entry.Read
    rw [hr]
    simp only [hv]
    rfl
  · intro x h a ha
    obtain ⟨es, q, hw, _, hx, _⟩ := Load_done h
    subst hx
    have hmem : Entry.app0 a ∈ es := by
      rcases List.mem_append.mp ha with h1 | h1
      · exact h1
      · simp at h1
    obtain ⟨p, here, hr⟩ := hw.mem_read _ hmem
    have hv := ReadEntry_variant hr
    obtain ⟨bs, hrf, hval, hc⟩ := App0Entry_Read_ok hv
    obtain ⟨_, _, hlen, _⟩ := readFull_ok hrf
    have hf := app0_valid_fields hlen p hval
    rcases hc with ⟨_, he, _⟩ | ⟨_, data, _, he⟩
    · subst he; exact hf
    · subst he; exact hf

theorem C10_app0_identifier_and_units_witness :
    App0Entry.Read [0xff, 0xe0, 0, 16, 0x4a, 0x46, 0x58, 0x58, 0, 1, 1, 0, 0, 1, 0, 1, 0, 0] 0
      = .error .invalidHeader ∧
    (∀ a, Entry.app0 a ∈ (⟨"a.jpg", [.soi ⟨255, SOI, 0⟩,
        .app0 ⟨255, APP0, 16, [0x4a, 0x46, 0x49, 0x46, 0], [1, 1], 2, 72, 72, 0, 0, none, 2⟩,
        .eoi ⟨255, EOI, 20⟩], true⟩ : Exif).Entries →
        a.Identifier = [0x4a, 0x46, 0x49, 0x46, 0] ∧
        (a.Units = 0 ∨ a.Units = 1 ∨ a.Units = 2)) :=
  ⟨(C10_app0_identifier_and_units 0 "a.jpg"
      [0xff, 0xe0, 0, 16, 0x4a, 0x46, 0x58, 0x58, 0, 1, 1, 0, 0, 1, 0, 1, 0, 0] 0).1
      [0xff, 0xe0, 0, 16, 0x4a, 0x46, 0x58, 0x58, 0, 1, 1, 0, 0, 1, 0, 1, 0, 0] [] rfl rfl
      (Or.inl (by decide)),
    (C10_app0_identifier_and_units 3 "a.jpg"
      [0xff, 0xd8, 0xff, 0xe0, 0, 16, 0x4a, 0x46, 0x49, 0x46, 0, 1, 1, 2, 0, 72, 0, 72, 0, 0,
        0xff, 0xd9] 0).2 _ (by decide)⟩

theorem beWord_lt (hi lo : Byte) : (beWord hi lo : Nat) < 65536 := by
  have h1 := hi.isLt
  have h2 := lo.isLt
  show (256 * hi.val + lo.val : Nat) < 65536
  omega

theorem lookupHeader_Read_valid {B : List Byte} {pos : Nat} {lkp : lookupHeader}
    (h : lookupHeader.Read B pos = .ok lkp) : lkp.IsValid = true := by
  unfold lookupHeader.Read at h
  cases hp : ReadStructHere B pos 4 with
  | error err => rw [hp] at h; cases h
  | panic => rw [hp] at h; cases h
  | ok bs =>
    rw [hp] at h
    simp only at h
    split at h
    · cases h
    · rename_i hv
      cases h
      simpa using hv

theorem lookupHeader_valid_xff0 {lkp : lookupHeader} (h : lkp.IsValid = true) :
    lkp.Xff0 = 255 := by
  simp only [lookupHeader.IsValid, Bool.and_eq_true, beq_iff_eq] at h
  exact h.1

/-- The Huffman-table reader once the header and a non-empty payload are
read: the panic and the three checks, in source order. -/
theorem DhtEntry_Read_eval {B : List Byte} {pos here : Nat} {tmp : lookupHeader}
    {htInfo : Byte} {data1 : List Byte} (hl : lookupHeader.Read B pos = .ok tmp)
    (hid : tmp.XID = DHT) (hrd : tmp.ReadData B pos = .ok (some (htInfo :: data1), here)) :
    DhtEntry.Read B pos =
      if data1.length < 16 then .panic
      else if sumOfSymbols (data1.take 16) > 256 then
        .error (.badNumOfSymbolsSum (sumOfSymbols (data1.take 16)))
      else if (data1.drop 16).length ≠ sumOfSymbols (data1.take 16) then
        .error (.badNumOfSymbolsData (data1.drop 16).length (sumOfSymbols (data1.take 16)))
      else .ok (⟨tmp.Xff0, tmp.XID, tmp.Len, htInfo, data1.take 16, some (data1.drop 16), pos⟩,
        here) := by
  have hx := lookupHeader_valid_xff0 (lookupHeader_Read_valid hl)
  unfold DhtEntry.Read
  rw [hl]
  simp only [hrd, DhtEntry.IsValid, hx, hid, Option.getD_some]
  by_cases h16 : data1.length < 16
  · simp [h16]
  · have hlen : (data1.take 16).length = 16 := by
      simp only [List.length_take]; omega
    simp [h16, hlen]

/-- Claim C9: for a Huffman-table segment whose payload `data` (the `Len - 2`
bytes that `ReadData` returns) holds at least the 17 header bytes, the reader
succeeds when the sum of the 16 symbol counts `data[1..17]` is at most 256 and
equals the number of bytes of `data` behind the first 17, and returns an error
otherwise; every entry the reader returns has 16 symbol counts, a `Data` of as
many bytes as their sum, a sum of at most 256 and a declared length of 19 plus
the sum. -/
theorem C9_dht_symbol_counts (B : List Byte) (pos : Nat) :
    (∀ tmp data here, lookupHeader.Read B pos = .ok tmp → tmp.XID = DHT →
      tmp.ReadData B pos = .ok (some data, here) → 17 ≤ data.length →
      ((sumOfSymbols ((data.drop 1).take 16) ≤ 256 ∧
          sumOfSymbols ((data.drop 1).take 16) = data.length - 17) →
        ∃ e, DhtEntry.Read B pos = .ok (e, here)) ∧
      (¬ (sumOfSymbols ((data.drop 1).take 16) ≤ 256 ∧
          sumOfSymbols ((data.drop 1).take 16) = data.length - 17) →
        ∃ err, DhtEntry.Read B pos = .error err)) ∧
    (∀ e here, DhtEntry.Read B pos = .ok (e, here) →
      e.NumOfSymbols.length = 16 ∧
      (∃ d, e.Data = some d ∧ d.length = sumOfSymbols e.NumOfSymbols) ∧
      sumOfSymbols e.NumOfSymbols ≤ 256 ∧
      e.Length = 19 + sumOfSymbols e.NumOfSymbols) := by
  constructor
  · intro tmp data here hl hid hrd h17
    match data, h17 with
    | htInfo :: data1, h17 =>
      have h16 : ¬ data1.length < 16 := by
        simp only [List.length_cons] at h17; omega
      have hdl : (data1.drop 16).length = (htInfo :: data1).length - 17 := by
        simp only [List.length_drop, List.length_cons]; omega
      rw [DhtEntry_Read_eval hl hid hrd, if_neg h16]
      simp only [List.drop_succ_cons, List.drop_zero]
      constructor
      · rintro ⟨h1, h2⟩
        rw [if_neg (by omega), if_neg (by rw [hdl]; simp [h2])]
        exact ⟨_, rfl⟩
      · intro hn
        by_cases h1 : sumOfSymbols (data1.take 16) > 256
        · rw [if_pos h1]
          exact ⟨_, rfl⟩
        · rw [if_neg h1]
          have h2 : (data1.drop 16).length ≠ sumOfSymbols (data1.take 16) := by
            intro hc
            apply hn
            exact ⟨by omega, by rw [← hdl, hc]⟩
          rw [if_pos h2]
          exact ⟨_, rfl⟩
  · intro e here h
    obtain ⟨tmp, d, hl, hrd, htInfo, data1, hd, h16, hsum, hdat, he⟩ := DhtEntry_Read_ok h
    subst he
    obtain ⟨l1, l2, _, hlen, _, hc⟩ := opaque_shape hl hrd
    have hnl : (data1.take 16).length = 16 := by
      simp only [List.length_take]; omega
    refine ⟨hnl, ⟨_, rfl, hdat⟩, hsum, ?_⟩
    rcases hc with ⟨_, h2, _⟩ | ⟨h0, data, h1, h2, _⟩
    · subst h2
      simp at hd
    · subst h1
      simp only [Option.getD_some] at hd
      subst hd
      simp only [List.length_cons, List.length_drop] at h2 hdat
      have hb : @LT.lt Nat _ tmp.Len 65536 := by
        rw [hlen]
        exact beWord_lt l1 l2
      have h0n : @Ne Nat tmp.Len 0 := h0
      show @Eq Nat tmp.Len (19 + sumOfSymbols (data1.take 16))
      omega

theorem C9_dht_symbol_counts_witness :
    (((sumOfSymbols ((([0, 1, 0, 0, 0, 0, 0, 0, 0, 0, 0, 0, 0, 0, 0, 0, 0, 5] :
            List Byte).drop 1).take 16) ≤ 256 ∧
          sumOfSymbols ((([0, 1, 0, 0, 0, 0, 0, 0, 0, 0, 0, 0, 0, 0, 0, 0, 0, 5] :
            List Byte).drop 1).take 16)
            = ([0, 1, 0, 0, 0, 0, 0, 0, 0, 0, 0, 0, 0, 0, 0, 0, 0, 5] : List Byte).length - 17) →
        ∃ e, DhtEntry.Read
          [0xff, 0xc4, 0, 20, 0, 1, 0, 0, 0, 0, 0, 0, 0, 0, 0, 0, 0, 0, 0, 0, 0, 5] 0
            = .ok (e, 22)) ∧
      (¬ (sumOfSymbols ((([0, 1, 0, 0, 0, 0, 0, 0, 0, 0, 0, 0, 0, 0, 0, 0, 0, 5] :
            List Byte).drop 1).take 16) ≤ 256 ∧
          sumOfSymbols ((([0, 1, 0, 0, 0, 0, 0, 0, 0, 0, 0, 0, 0, 0, 0, 0, 0, 5] :
            List Byte).drop 1).take 16)
            = ([0, 1, 0, 0, 0, 0, 0, 0, 0, 0, 0, 0, 0, 0, 0, 0, 0, 5] : List Byte).length - 17) →
        ∃ err, DhtEntry.Read
          [0xff, 0xc4, 0, 20, 0, 1, 0, 0, 0, 0, 0, 0, 0, 0, 0, 0, 0, 0, 0, 0, 0, 5] 0
            = .error err)) ∧
    ((⟨255, DHT, 20, 0, [1, 0, 0, 0, 0, 0, 0, 0, 0, 0, 0, 0, 0, 0, 0, 0], some [5], 0⟩ :
        DhtEntry).NumOfSymbols.length = 16 ∧
      (∃ d, (⟨255, DHT, 20, 0, [1, 0, 0, 0, 0, 0, 0, 0, 0, 0, 0, 0, 0, 0, 0, 0], some [5], 0⟩ :
          DhtEntry).Data = some d ∧
        d.length = sumOfSymbols (⟨255, DHT, 20, 0, [1, 0, 0, 0, 0, 0, 0, 0, 0, 0, 0, 0, 0, 0, 0, 0],
          some [5], 0⟩ : DhtEntry).NumOfSymbols) ∧
      sumOfSymbols (⟨255, DHT, 20, 0, [1, 0, 0, 0, 0, 0, 0, 0, 0, 0, 0, 0, 0, 0, 0, 0], some [5],
        0⟩ : DhtEntry).NumOfSymbols ≤ 256 ∧
      (⟨255, DHT, 20, 0, [1, 0, 0, 0, 0, 0, 0, 0, 0, 0, 0, 0, 0, 0, 0, 0], some [5], 0⟩ :
        DhtEntry).Length
        = 19 + sumOfSymbols (⟨255, DHT, 20, 0, [1, 0, 0, 0, 0, 0, 0, 0, 0, 0, 0, 0, 0, 0, 0, 0],
          some [5], 0⟩ : DhtEntry).NumOfSymbols) :=
  ⟨(C9_dht_symbol_counts
      [0xff, 0xc4, 0, 20, 0, 1, 0, 0, 0, 0, 0, 0, 0, 0, 0, 0, 0, 0, 0, 0, 0, 5] 0).1
      ⟨255, DHT, 20⟩ [0, 1, 0, 0, 0, 0, 0, 0, 0, 0, 0, 0, 0, 0, 0, 0, 0, 5] 22
      (by decide) rfl (by decide) (by decide),
    (C9_dht_symbol_counts
      [0xff, 0xc4, 0, 20, 0, 1, 0, 0, 0, 0, 0, 0, 0, 0, 0, 0, 0, 0, 0, 0, 0, 5] 0).2
      _ 22 (by decide)⟩

/-! ### Extension of the stream behind the part that was read -/

theorem drop_append_cons {B : List Byte} {pos : Nat} {s : List Byte}
    (h : B.drop pos = s) (hpos : pos ≤ B.length) (T : List Byte) :
    (B ++ T).drop pos = s ++ T := by
  rw [List.drop_append_of_le_length hpos, h]

theorem scanLoop_append {s : List Byte} {pos sz : Nat} {ox : Byte} {img : List Byte}
    {r : List Byte × Nat} (h : scanLoop s pos sz ox img = .ok r) (T : List Byte) :
    scanLoop (s ++ T) pos sz ox img = .ok r := by
  induction s generalizing pos sz ox img with
  | nil => simp [scanLoop] at h
  | cons b rest ih =>
    rw [List.cons_append]
    unfold scanLoop at h ⊢
    split at h
    · rename_i h1
      rw [if_pos h1]
      exact ih h
    · rename_i h1
      rw [if_neg h1]
      split at h
      · rename_i h2
        rw [if_pos h2]
        exact h
      · rename_i h2
        rw [if_neg h2]
        exact ih h

theorem lookupHeader_ReadData_append {lkp : lookupHeader} {B : List Byte} {pos here : Nat}
    {d : Option (List Byte)} (h : lkp.ReadData B pos = .ok (d, here))
    (hpos : pos + 4 ≤ B.length) (hlt : here < B.length) (T : List Byte) :
    lkp.ReadData (B ++ T) pos = .ok (d, here) := by
  rcases lookupHeader_ReadData_ok h hpos with ⟨h0, h1, h2⟩ | ⟨h0, data, h1, hf, hlen, hc⟩
  · subst h1 h2
    unfold lookupHeader.ReadData
    rw [if_pos h0]
  · subst h1
    have hfull : here = pos + 4 + (lkp.Len + 65536 - 2) % 65536 := by
      rcases hc with ⟨hc1, _⟩ | ⟨hc1, _⟩
      · rw [hc1, hlen]
      · omega
    unfold lookupHeader.ReadData
    rw [if_neg h0, fileRead_append hf hpos hfull T]

theorem AppnEntry_Read_append {B : List Byte} {pos here : Nat} {e : AppnEntry}
    (h : AppnEntry.Read B pos = .ok (e, here)) (hlt : here < B.length) (T : List Byte) :
    AppnEntry.Read (B ++ T) pos = .ok (e, here) := by
  obtain ⟨tmp, d, hl, hrd, _, _⟩ := AppnEntry_Read_ok h
  obtain ⟨_, _, _, _, hle⟩ := lookupHeader_Read_ok hl
  unfold AppnEntry.Read at h ⊢
  rw [hl] at h
  rw [lookupHeader_Read_append hl T]
  simp only at h ⊢
  split at h
  · cases h
  · rename_i hv
    rw [if_neg hv]
    rw [hrd] at h
    rw [lookupHeader_ReadData_append hrd hle hlt T]
    exact h

theorem DqtEntry_Read_append {B : List Byte} {pos here : Nat} {e : DqtEntry}
    (h : DqtEntry.Read B pos = .ok (e, here)) (hlt : here < B.length) (T : List Byte) :
    DqtEntry.Read (B ++ T) pos = .ok (e, here) := by
  obtain ⟨tmp, d, hl, hrd, _, _⟩ := DqtEntry_Read_ok h
  obtain ⟨_, _, _, _, hle⟩ := lookupHeader_Read_ok hl
  unfold DqtEntry.Read at h ⊢
  rw [hl] at h
  rw [lookupHeader_Read_append hl T]
  simp only at h ⊢
  split at h
  · cases h
  · rename_i hv
    rw [if_neg hv]
    rw [hrd] at h
    rw [lookupHeader_ReadData_append hrd hle hlt T]
    exact h

theorem SofEntry_Read_append {B : List Byte} {pos here : Nat} {e : SofEntry}
    (h : SofEntry.Read B pos = .ok (e, here)) (hlt : here < B.length) (T : List Byte) :
    SofEntry.Read (B ++ T) pos = .ok (e, here) := by
  obtain ⟨tmp, d, hl, hrd, _⟩ := SofEntry_Read_ok h
  obtain ⟨_, _, _, _, hle⟩ := lookupHeader_Read_ok hl
  unfold SofEntry.Read at h ⊢
  rw [hl] at h
  rw [lookupHeader_Read_append hl T]
  simp only at h ⊢
  split at h
  · cases h
  · rename_i hv
    rw [if_neg hv]
    rw [hrd] at h
    rw [lookupHeader_ReadData_append hrd hle hlt T]
    exact h

theorem DhtEntry_Read_append {B : List Byte} {pos here : Nat} {e : DhtEntry}
    (h : DhtEntry.Read B pos = .ok (e, here)) (hlt : here < B.length) (T : List Byte) :
    DhtEntry.Read (B ++ T) pos = .ok (e, here) := by
  obtain ⟨tmp, d, hl, hrd, _⟩ := DhtEntry_Read_ok h
  obtain ⟨_, _, _, _, hle⟩ := lookupHeader_Read_ok hl
  unfold DhtEntry.Read at h ⊢
  rw [hl] at h
  rw [lookupHeader_Read_append hl T]
  simp only at h ⊢
  split at h
  · cases h
  · rename_i hv
    rw [if_neg hv]
    rw [hrd] at h
    rw [lookupHeader_ReadData_append hrd hle hlt T]
    exact h

theorem SosEntry_Read_append {B : List Byte} {pos here : Nat} {e : SosEntry}
    (h : SosEntry.Read B pos = .ok (e, here)) (hlt : here < B.length) (T : List Byte) :
    SosEntry.Read (B ++ T) pos = .ok (e, here) := by
  obtain ⟨tmp, d, here1, hl, hrd, cc, data1, cs, data2, image, hd, hc, hs, _⟩ :=
    SosEntry_Read_ok h
  obtain ⟨_, _, _, _, hle⟩ := lookupHeader_Read_ok hl
  obtain ⟨r, _, hs2⟩ := scanLoop_ok hs
  have hlt1 : here1 < B.length := by omega
  have hs3 : scanLoop ((B ++ T).drop here1) here1 0 0 [] = .ok (image, here) := by
    rw [List.drop_append_of_le_length (Nat.le_of_lt hlt1)]
    exact scanLoop_append hs T
  unfold SosEntry.Read at h ⊢
  rw [hl] at h
  rw [lookupHeader_Read_append hl T]
  simp only at h ⊢
  split at h
  · cases h
  · rename_i hv
    rw [if_neg hv]
    rw [hrd] at h
    rw [lookupHeader_ReadData_append hrd hle hlt1 T]
    simp only [hd, hc, hs] at h
    simp only [hd, hc, hs3]
    exact h

theorem App0Entry_Read_append {B : List Byte} {pos here : Nat} {e : App0Entry}
    (h : App0Entry.Read B pos = .ok (e, here)) (hlt : here < B.length) (T : List Byte) :
    App0Entry.Read (B ++ T) pos = .ok (e, here) := by
  obtain ⟨bs, hr, _, hc⟩ := App0Entry_Read_ok h
  obtain ⟨_, hle, _, _⟩ := readFull_ok hr
  unfold App0Entry.Read at h ⊢
  rw [hr] at h
  rw [readFull_append hr T]
  simp only at h ⊢
  split at h
  · cases h
  · rename_i hv
    rw [if_neg hv]
    split at h
    · rename_i ht
      rw [if_pos ht]
      rcases hc with ⟨ht0, _, _⟩ | ⟨_, data, hf, _⟩
      · omega
      · obtain ⟨_, hcase⟩ := fileRead_ok hf hle
        have hfull : here = pos + 18 + 3 * (App0Entry.ofFixed bs pos).Xthumbnail.val
            * (App0Entry.ofFixed bs pos).Ythumbnail.val := by
          rcases hcase with ⟨h1, _⟩ | ⟨h1, _⟩
          · exact h1
          · omega
        rw [hf] at h
        rw [fileRead_append hf hle hfull T]
        exact h
    · rename_i ht
      rw [if_neg ht]
      exact h

theorem SoiEntry_Read_append {B : List Byte} {here : Nat} {e : SoiEntry}
    (hl : 2 ≤ B.length) (h : SoiEntry.Read B = .ok (e, here)) (T : List Byte) :
    SoiEntry.Read (B ++ T) = .ok (e, here) := by
  have hf : ∀ tmp h2, fileRead B 0 2 = .ok (tmp, h2) →
      fileRead (B ++ T) 0 2 = .ok (tmp, h2) := by
    intro tmp h2 hr
    obtain ⟨_, hcase⟩ := fileRead_ok hr (Nat.zero_le _)
    refine fileRead_append hr (Nat.zero_le _) ?_ T
    rcases hcase with ⟨h1, _⟩ | ⟨h1, _⟩
    · exact h1
    · omega
  unfold SoiEntry.Read at h ⊢
  cases hr : fileRead B 0 2 with
  | error err => rw [hr] at h; cases h
  | panic => rw [hr] at h; cases h
  | ok r =>
    obtain ⟨tmp, h2⟩ := r
    rw [hr] at h
    rw [hf tmp h2 hr]
    exact h

theorem EoiEntry_Read_append {B : List Byte} {pos here : Nat} {e : EoiEntry}
    (hl : pos + 2 ≤ B.length) (h : EoiEntry.Read B pos = .ok (e, here)) (T : List Byte) :
    EoiEntry.Read (B ++ T) pos = .ok (e, here) := by
  have hf : ∀ tmp h2, fileRead B pos 2 = .ok (tmp, h2) →
      fileRead (B ++ T) pos 2 = .ok (tmp, h2) := by
    intro tmp h2 hr
    obtain ⟨_, hcase⟩ := fileRead_ok hr (by omega)
    refine fileRead_append hr (by omega) ?_ T
    rcases hcase with ⟨h1, _⟩ | ⟨h1, _⟩
    · exact h1
    · omega
  unfold EoiEntry.Read at h ⊢
  cases hr : fileRead B pos 2 with
  | error err => rw [hr] at h; cases h
  | panic => rw [hr] at h; cases h
  | ok r =>
    obtain ⟨tmp, h2⟩ := r
    rw [hr] at h
    rw [hf tmp h2 hr]
    exact h

/-- A step that ends before the end of the file, or that reads an end-of-image
entry, is the same step on every extension of the file. -/
theorem ReadEntry_append {B : List Byte} {pos here : Nat} {e : Entry}
    (h : anEntry.ReadEntry B pos = .ok (e, here))
    (hlt : here < B.length ∨ e.GetId = EOI) (T : List Byte) :
    anEntry.ReadEntry (B ++ T) pos = .ok (e, here) := by
  obtain ⟨b, hd, hv⟩ := ReadEntry_ok_drop h
  have hid := ReadEntry_id hd h
  have hle := ReadEntry_ok_le h
  have hd2 : (B ++ T).drop pos = 255 :: b :: (B.drop (pos + 2) ++ T) :=
    drop_append_cons hd (by omega) T
  have hlt2 : b ≠ EOI → here < B.length := by
    intro hb
    rcases hlt with h1 | h1
    · exact h1
    · rw [hid] at h1
      exact absurd h1 hb
  rw [ReadEntry_of_drop hd] at h
  rw [ReadEntry_of_drop hd2]
  split at h
  · cases h
  rename_i hval
  rw [if_neg hval]
  split at h
  · rename_i hb
    rw [if_pos hb]
    obtain ⟨a, hr, he⟩ := Res.entry_ok h
    subst he
    rw [SoiEntry_Read_append (by omega) hr T]
    rfl
  rename_i hb1
  rw [if_neg hb1]
  split at h
  · rename_i hb
    rw [if_pos hb]
    obtain ⟨a, hr, he⟩ := Res.entry_ok h
    subst he
    rw [App0Entry_Read_append hr (hlt2 (by subst hb; decide)) T]
    rfl
  rename_i hb2
  rw [if_neg hb2]
  split at h
  · rename_i hb
    rw [if_pos hb]
    obtain ⟨a, hr, he⟩ := Res.entry_ok h
    subst he
    rw [AppnEntry_Read_append hr (hlt2 (by intro hc; subst hc; revert hb; decide)) T]
    rfl
  rename_i hb3
  rw [if_neg hb3]
  split at h
  · rename_i hb
    rw [if_pos hb]
    obtain ⟨a, hr, he⟩ := Res.entry_ok h
    subst he
    rw [DqtEntry_Read_append hr (hlt2 (by subst hb; decide)) T]
    rfl
  rename_i hb4
  rw [if_neg hb4]
  split at h
  · rename_i hb
    rw [if_pos hb]
    obtain ⟨a, hr, he⟩ := Res.entry_ok h
    subst he
    rw [SofEntry_Read_append hr (hlt2 (by intro hc; subst hc; revert hb; decide)) T]
    rfl
  rename_i hb5
  rw [if_neg hb5]
  split at h
  · rename_i hb
    rw [if_pos hb]
    obtain ⟨a, hr, he⟩ := Res.entry_ok h
    subst he
    rw [DhtEntry_Read_append hr (hlt2 (by subst hb; decide)) T]
    rfl
  rename_i hb6
  rw [if_neg hb6]
  split at h
  · rename_i hb
    rw [if_pos hb]
    obtain ⟨a, hr, he⟩ := Res.entry_ok h
    subst he
    rw [SosEntry_Read_append hr (hlt2 (by subst hb; decide)) T]
    rfl
  rename_i hb7
  rw [if_neg hb7]
  split at h
  · rename_i hb
    rw [if_pos hb]
    obtain ⟨a, hr, he⟩ := Res.entry_ok h
    subst he
    rw [EoiEntry_Read_append hle hr T]
    rfl
  · cases h

/-- A run that reaches an end-of-image entry is the same run on every
extension of the file. -/
theorem Walk.extend {B : List Byte} {p q pF : Nat} {es : List Entry} {last : Entry}
    (hw : Walk B p es q) (hl : anEntry.ReadEntry B q = .ok (last, pF)) (T : List Byte) :
    Walk (B ++ T) p es q := by
  induction hw with
  | nil p => exact Walk.nil p
  | cons h hne hw1 ih =>
    have hlt := Walk.first_le hw1 hl
    exact Walk.cons (ReadEntry_append h (Or.inl (by omega)) T) hne (ih hl)

/-- Claim C2: if `Load` succeeds on `B` and reports `NoDataLeft`, then on `B`
followed by a non-empty `T` it succeeds too, with the same entries (no entry is
added for `T`) and with `NoDataLeft` false. -/
theorem C2_trailing_bytes_are_reported (fuel : Nat) (path : String) (B T : List Byte)
    (x : Exif) (h : Exif.Load fuel Exif.zero path B = .done x)
    (hleft : x.NoDataLeft = true) (hT : T ≠ []) :
    Exif.Load fuel Exif.zero path (B ++ T)
      = .done ⟨x.Path, x.Entries, false⟩ := by
  obtain ⟨es, q, hw, hl, hx, hfuel⟩ := Load_done h
  subst hx
  simp only [decide_eq_true_eq] at hleft
  rw [Load_of_walk (hw.extend hl T) (ReadEntry_append hl (Or.inr rfl) T) fuel hfuel path]
  have hne : ¬ (q + 2 = (B ++ T).length) := by
    have : 0 < T.length := List.length_pos.mpr hT
    simp only [List.length_append]
    omega
  simp only [hne, decide_False]

theorem C2_trailing_bytes_are_reported_witness :
    Exif.Load 3 Exif.zero "a.jpg" ([0xff, 0xd8, 0xff, 0xe1, 0, 3, 7, 0xff, 0xd9] ++ [1, 2, 3])
      = .done ⟨(⟨"a.jpg", [.soi ⟨255, SOI, 0⟩, .appn ⟨255, APP1, 3, some [7], 2⟩,
            .eoi ⟨255, EOI, 7⟩], true⟩ : Exif).Path,
          (⟨"a.jpg", [.soi ⟨255, SOI, 0⟩, .appn ⟨255, APP1, 3, some [7], 2⟩,
            .eoi ⟨255, EOI, 7⟩], true⟩ : Exif).Entries, false⟩ :=
  C2_trailing_bytes_are_reported 3 "a.jpg" [0xff, 0xd8, 0xff, 0xe1, 0, 3, 7, 0xff, 0xd9]
    [1, 2, 3] _ (by decide) rfl (by decide)

/-! ### The offset lookup -/

theorem covers_iff (e : Entry) (o : Nat) :
    (decide (e.Pos ≤ o) && decide (o ≤ e.Pos + e.Len)) = true ↔ e.covers o := by
  simp only [Entry.covers, Bool.and_eq_true, decide_eq_true_eq]

theorem SectionAt_eq_some {x : Exif} {o : Nat} {s : Entry} :
    x.SectionAt o = some s ↔
      s.covers o ∧ ∃ pre post, x.Entries = pre ++ s :: post ∧ ∀ e ∈ pre, ¬ e.covers o := by
  unfold Exif.SectionAt
  rw [List.find?_eq_some]
  constructor
  · rintro ⟨h1, pre, post, h2, h3⟩
    refine ⟨(covers_iff s o).1 h1, pre, post, h2, ?_⟩
    intro e he hc
    have := h3 e he
    rw [(covers_iff e o).2 hc] at this
    cases this
  · rintro ⟨h1, pre, post, h2, h3⟩
    refine ⟨(covers_iff s o).2 h1, pre, post, h2, ?_⟩
    intro e he
    cases hc : (decide (e.Pos ≤ o) && decide (o ≤ e.Pos + e.Len)) with
    | false => rfl
    | true => exact absurd ((covers_iff e o).1 hc) (h3 e he)

theorem SectionAt_eq_none {x : Exif} {o : Nat} :
    x.SectionAt o = none ↔ ∀ e ∈ x.Entries, ¬ e.covers o := by
  unfold Exif.SectionAt
  rw [List.find?_eq_none]
  constructor
  · intro h e he hc
    exact h e he ((covers_iff e o).2 hc)
  · intro h e he hc
    exact h e he ((covers_iff e o).1 hc)

/-- Claim C19: `SectionAt` returns the first entry, in container order, whose
closed range `[Pos, Pos + Len]` holds the offset, and `nil` exactly when no
entry's range holds it; an offset on the boundary shared by two adjacent
entries, when no entry before them holds it, resolves to the earlier one. -/
theorem C19_section_at_first_match (x : Exif) (o : Nat) :
    (∀ s, x.SectionAt o = some s ↔
      s.covers o ∧ ∃ pre post, x.Entries = pre ++ s :: post ∧ ∀ e ∈ pre, ¬ e.covers o) ∧
    (x.SectionAt o = none ↔ ∀ e ∈ x.Entries, ¬ e.covers o) ∧
    (∀ pre e1 e2 post, x.Entries = pre ++ e1 :: e2 :: post →
      e1.Pos + e1.Len = o → e2.Pos = o → (∀ e ∈ pre, ¬ e.covers o) →
      e1.covers o ∧ e2.covers o ∧ x.SectionAt o = some e1) := by
  refine ⟨fun s => SectionAt_eq_some, SectionAt_eq_none, ?_⟩
  intro pre e1 e2 post hx h1 h2 hpre
  have hc1 : e1.covers o := ⟨by omega, by omega⟩
  have hc2 : e2.covers o := ⟨by omega, by omega⟩
  exact ⟨hc1, hc2, SectionAt_eq_some.2 ⟨hc1, pre, e2 :: post, hx, hpre⟩⟩

theorem C19_section_at_first_match_witness :
    (Entry.soi ⟨255, SOI, 0⟩).covers 2 ∧ (Entry.eoi ⟨255, EOI, 2⟩).covers 2 ∧
    (⟨"a.jpg", [.soi ⟨255, SOI, 0⟩, .eoi ⟨255, EOI, 2⟩], true⟩ : Exif).SectionAt 2
      = some (.soi ⟨255, SOI, 0⟩) :=
  (C19_section_at_first_match ⟨"a.jpg", [.soi ⟨255, SOI, 0⟩, .eoi ⟨255, EOI, 2⟩], true⟩ 2).2.2
    [] (.soi ⟨255, SOI, 0⟩) (.eoi ⟨255, EOI, 2⟩) [] rfl rfl rfl (by simp)

/-! ### A failed `Load` -/

theorem loadLoop_failed {B : List Byte} {fuel p : Nat} {acc entries : List Entry} {q : Nat}
    {err : Err} (h : Exif.loadLoop B fuel p acc = .failed (entries, q) err) :
    ∃ es e1, Walk B p es q ∧ anEntry.ReadEntry B q = .error e1 ∧ err = .loadEntry e1 ∧
      entries = acc ++ es ∧ es.length < fuel := by
  induction fuel generalizing p acc with
  | zero => cases h
  | succ n ih =>
    unfold Exif.loadLoop at h
    cases hr : anEntry.ReadEntry B p with
    | error e1 =>
      rw [hr] at h
      simp only [Outcome.failed.injEq, Prod.mk.injEq] at h
      obtain ⟨⟨h1, h2⟩, h3⟩ := h
      subst h1 h2 h3
      exact ⟨[], e1, Walk.nil p, hr, rfl, by simp, by simp⟩
    | panic => rw [hr] at h; cases h
    | ok r =>
      obtain ⟨e, here⟩ := r
      rw [hr] at h
      simp only at h
      split at h
      · cases h
      · rename_i hid
        obtain ⟨es, e1, hw, he, herr, hent, hlen⟩ := ih h
        refine ⟨e :: es, e1, Walk.cons hr hid hw, he, herr, ?_, ?_⟩
        · rw [hent]; simp
        · simp only [List.length_cons]; omega

/-- Claim C20, as stated, fails: on the stream `FF D8 FF FE` the call of `Load`
on the zero container fails at the second marker, and the container then holds
the start-of-image entry that was parsed before the failure. -/
theorem C20_counterexample :
    Exif.Load 2 Exif.zero "a.jpg" [0xff, 0xd8, 0xff, 0xfe]
      = .failed ⟨"a.jpg", [.soi ⟨255, SOI, 0⟩], false⟩ (.loadEntry (.invalidEntry 255 COM)) ∧
    (⟨"a.jpg", [.soi ⟨255, SOI, 0⟩], false⟩ : Exif).Entries ≠ Exif.zero.Entries := by
  decide

/-- Claim C20, amended: a failed `Load` returns the error of the entry reader
that failed, and leaves in the container the entries it held before the call
followed by the entries that were parsed before the failure, in order; the
list is the one before the call exactly when the first entry fails. -/
theorem C20_failed_load_keeps_parsed_entries (fuel : Nat) (x0 : Exif) (path : String)
    (B : List Byte) (x : Exif) (err : Err)
    (h : Exif.Load fuel x0 path B = .failed x err) :
    ∃ es q e1, Walk B 0 es q ∧ anEntry.ReadEntry B q = .error e1 ∧ err = .loadEntry e1 ∧
      x = ⟨path, x0.Entries ++ es, x0.NoDataLeft⟩ ∧
      (x.Entries = x0.Entries ↔ es = []) := by
  unfold Exif.Load at h
  cases hloop : Exif.loadLoop B fuel 0 x0.Entries with
  | done r => rw [hloop] at h; cases h
  | failed s e =>
    obtain ⟨entries, q⟩ := s
    rw [hloop] at h
    simp only [Outcome.failed.injEq] at h
    obtain ⟨hx, he⟩ := h
    subst hx he
    obtain ⟨es, e1, hw, hr, herr, hent, _⟩ := loadLoop_failed hloop
    subst hent
    refine ⟨es, q, e1, hw, hr, herr, rfl, ?_⟩
    simp
  | panicked => rw [hloop] at h; cases h
  | outOfFuel => rw [hloop] at h; cases h

theorem C20_failed_load_keeps_parsed_entries_witness :
    ∃ es q e1, Walk [0xff, 0xd8, 0xff, 0xfe] 0 es q ∧
      anEntry.ReadEntry [0xff, 0xd8, 0xff, 0xfe] q = .error e1 ∧
      Err.loadEntry (.invalidEntry 255 COM) = .loadEntry e1 ∧
      (⟨"a.jpg", [.soi ⟨255, SOI, 0⟩], false⟩ : Exif)
        = ⟨"a.jpg", Exif.zero.Entries ++ es, Exif.zero.NoDataLeft⟩ ∧
      ((⟨"a.jpg", [.soi ⟨255, SOI, 0⟩], false⟩ : Exif).Entries = Exif.zero.Entries ↔ es = []) :=
  C20_failed_load_keeps_parsed_entries 2 Exif.zero "a.jpg" [0xff, 0xd8, 0xff, 0xfe] _ _
    (by decide)

/-! ### Evaluation of the readers on a stream of known shape -/

theorem lookupHeader_isValid_eq (a b : Byte) (L : Word) :
    lookupHeader.IsValid ⟨a, b, L⟩ = anEntry.IsValid ⟨a, b⟩ := rfl

theorem header_rest {B : List Byte} {pos : Nat} {a b c d : Byte} {t : List Byte}
    (hd : B.drop pos = a :: b :: c :: d :: t) : pos + 4 ≤ B.length ∧ B.drop (pos + 4) = t := by
  have hpos : pos ≤ B.length := Nat.le_of_lt (drop_length_le hd)
  exact @drop_append_length B pos [a, b, c, d] t hd hpos

theorem lookupHeader_Read_eval {B : List Byte} {pos : Nat} {a b c d : Byte} {t : List Byte}
    (hd : B.drop pos = a :: b :: c :: d :: t) (hv : anEntry.IsValid ⟨a, b⟩ = true) :
    lookupHeader.Read B pos = .ok ⟨a, b, beWord c d⟩ := by
  rw [lookupHeader_Read_of_drop hd, lookupHeader_isValid_eq, hv]
  rfl

theorem lookupHeader_ReadData_eval {lkp : lookupHeader} {B : List Byte} {pos : Nat}
    {payload rest : List Byte} (h0 : lkp.Len ≠ 0) (hle : pos + 4 ≤ B.length)
    (hd : B.drop (pos + 4) = payload ++ rest)
    (hlen : payload.length = (lkp.Len + 65536 - 2) % 65536) :
    lkp.ReadData B pos = .ok (some payload, pos + 4 + payload.length) := by
  unfold lookupHeader.ReadData
  rw [if_neg h0, ← hlen, fileRead_of_drop hd hle]

set_option maxRecDepth 100000 in
theorem appn_case_facts : ∀ id : Byte, isAppnCase id = true →
    anEntry.IsValid ⟨255, id⟩ = true ∧ id ≠ SOI ∧ id ≠ APP0 ∧
      AppnEntry.IsValid ⟨255, id, 0, none, 0⟩ = true := by
  decide

theorem AppnEntry_isValid_eq (a b : Byte) (L : Word) (d : Option (List Byte)) (p : Nat) :
    AppnEntry.IsValid ⟨a, b, L, d, p⟩ = AppnEntry.IsValid ⟨a, b, 0, none, 0⟩ := rfl

theorem AppnEntry_Read_eval {B : List Byte} {pos : Nat} {id l1 l2 : Byte}
    {payload rest : List Byte}
    (hd : B.drop pos = 255 :: id :: l1 :: l2 :: (payload ++ rest))
    (hid : isAppnCase id = true) (h0 : beWord l1 l2 ≠ 0)
    (hlen : payload.length = (beWord l1 l2 + 65536 - 2) % 65536) :
    AppnEntry.Read B pos
      = .ok (⟨255, id, beWord l1 l2, some payload, pos⟩, pos + 4 + payload.length) := by
  obtain ⟨hv, _, _, hva⟩ := appn_case_facts id hid
  obtain ⟨hle, hrest⟩ := header_rest hd
  have hrd : (⟨255, id, beWord l1 l2⟩ : lookupHeader).ReadData B pos
      = .ok (some payload, pos + 4 + payload.length) :=
    lookupHeader_ReadData_eval h0 hle hrest hlen
  unfold AppnEntry.Read
  rw [lookupHeader_Read_eval hd hv]
  simp only [AppnEntry_isValid_eq 255 id (beWord l1 l2) none pos, hva, hrd]
  rfl

theorem DqtEntry_Read_eval {B : List Byte} {pos : Nat} {l1 l2 : Byte}
    {payload rest : List Byte}
    (hd : B.drop pos = 255 :: DQT :: l1 :: l2 :: (payload ++ rest))
    (h0 : beWord l1 l2 ≠ 0)
    (hlen : payload.length = (beWord l1 l2 + 65536 - 2) % 65536) :
    DqtEntry.Read B pos
      = .ok (⟨255, DQT, beWord l1 l2, some payload, pos⟩, pos + 4 + payload.length) := by
  obtain ⟨hle, hrest⟩ := header_rest hd
  have hrd : (⟨255, DQT, beWord l1 l2⟩ : lookupHeader).ReadData B pos
      = .ok (some payload, pos + 4 + payload.length) :=
    lookupHeader_ReadData_eval h0 hle hrest hlen
  unfold DqtEntry.Read
  rw [lookupHeader_Read_eval hd (by decide)]
  simp only [DqtEntry.IsValid, hrd]
  rfl

theorem ReadEntry_at_appn {B : List Byte} {pos : Nat} {id : Byte} {t : List Byte}
    (hd : B.drop pos = 255 :: id :: t) (hid : isAppnCase id = true) :
    anEntry.ReadEntry B pos = (AppnEntry.Read B pos).entry Entry.appn := by
  obtain ⟨hv, h1, h2, _⟩ := appn_case_facts id hid
  rw [ReadEntry_of_drop hd]
  simp only [hv, h1, h2, hid, Bool.not_true, Bool.false_eq_true, if_false, if_true]

theorem ReadEntry_at_dqt {B : List Byte} {pos : Nat} {t : List Byte}
    (hd : B.drop pos = 255 :: DQT :: t) :
    anEntry.ReadEntry B pos = (DqtEntry.Read B pos).entry Entry.dqt := by
  rw [ReadEntry_of_drop hd]
  simp +decide

theorem length_mod_of_ge {L : Nat} (h2 : 2 ≤ L) (hL : L < 65536) :
    (L + 65536 - 2) % 65536 = L - 2 := by
  omega

/-- Claim C16: an opaque segment (marker `E1..EF` or the quantization table
`DB`) with declared length `L ≥ 2` that is followed by `L - 2` bytes `payload`
is read as an entry whose `Data` is exactly `payload`, and the position moves
by `L + 2`; for `L = 2` the payload is empty and the position moves by 4. -/
theorem C16_opaque_payload (B : List Byte) (pos : Nat) (id l1 l2 : Byte)
    (payload rest : List Byte)
    (hd : B.drop pos = 255 :: id :: l1 :: l2 :: (payload ++ rest))
    (hL : 2 ≤ beWord l1 l2) (hlen : payload.length = beWord l1 l2 - 2) :
    (isAppnCase id = true →
      AppnEntry.Read B pos
        = .ok (⟨255, id, beWord l1 l2, some payload, pos⟩, pos + (beWord l1 l2 + 2)) ∧
      anEntry.ReadEntry B pos
        = .ok (.appn ⟨255, id, beWord l1 l2, some payload, pos⟩, pos + (beWord l1 l2 + 2))) ∧
    (id = DQT →
      DqtEntry.Read B pos
        = .ok (⟨255, id, beWord l1 l2, some payload, pos⟩, pos + (beWord l1 l2 + 2)) ∧
      anEntry.ReadEntry B pos
        = .ok (.dqt ⟨255, id, beWord l1 l2, some payload, pos⟩, pos + (beWord l1 l2 + 2))) ∧
    (beWord l1 l2 = 2 → payload = [] ∧ pos + (beWord l1 l2 + 2) = pos + 4) := by
  have hLn : @LE.le Nat _ 2 (beWord l1 l2) := hL
  have hlt := beWord_lt l1 l2
  have h0 : beWord l1 l2 ≠ 0 := by
    intro hc
    rw [hc] at hLn
    omega
  have hlenn : @Eq Nat payload.length (beWord l1 l2 - 2) := hlen
  have hlen2 : payload.length = (beWord l1 l2 + 65536 - 2) % 65536 := by
    rw [length_mod_of_ge hLn hlt]
    exact hlen
  have hpos : pos + 4 + payload.length = pos + (beWord l1 l2 + 2) := by
    show @Eq Nat _ _
    omega
  refine ⟨?_, ?_, ?_⟩
  · intro hid
    have hr := AppnEntry_Read_eval hd hid h0 hlen2
    rw [hpos] at hr
    refine ⟨hr, ?_⟩
    rw [ReadEntry_at_appn hd hid, hr]
    rfl
  · intro hid
    subst hid
    have hr := DqtEntry_Read_eval hd h0 hlen2
    rw [hpos] at hr
    refine ⟨hr, ?_⟩
    rw [ReadEntry_at_dqt hd, hr]
    rfl
  · intro h2
    rw [h2] at hlenn
    refine ⟨List.length_eq_zero.mp hlenn, ?_⟩
    rw [h2]

theorem C16_opaque_payload_witness :
    (isAppnCase APP1 = true →
      AppnEntry.Read [0xff, 0xd8, 0xff, 0xe1, 0, 4, 7, 8, 0xff, 0xd9] 2
        = .ok (⟨255, APP1, beWord 0 4, some [7, 8], 2⟩, 2 + (beWord 0 4 + 2)) ∧
      anEntry.ReadEntry [0xff, 0xd8, 0xff, 0xe1, 0, 4, 7, 8, 0xff, 0xd9] 2
        = .ok (.appn ⟨255, APP1, beWord 0 4, some [7, 8], 2⟩, 2 + (beWord 0 4 + 2))) ∧
    (APP1 = DQT →
      DqtEntry.Read [0xff, 0xd8, 0xff, 0xe1, 0, 4, 7, 8, 0xff, 0xd9] 2
        = .ok (⟨255, APP1, beWord 0 4, some [7, 8], 2⟩, 2 + (beWord 0 4 + 2)) ∧
      anEntry.ReadEntry [0xff, 0xd8, 0xff, 0xe1, 0, 4, 7, 8, 0xff, 0xd9] 2
        = .ok (.dqt ⟨255, APP1, beWord 0 4, some [7, 8], 2⟩, 2 + (beWord 0 4 + 2))) ∧
    (beWord 0 4 = 2 → ([7, 8] : List Byte) = [] ∧ 2 + (beWord 0 4 + 2) = 2 + 4) :=
  C16_opaque_payload [0xff, 0xd8, 0xff, 0xe1, 0, 4, 7, 8, 0xff, 0xd9] 2 APP1 0 4 [7, 8]
    [0xff, 0xd9] rfl (by decide) (by decide)

/-- Claim C11: on a valid application-0 header `bs` (the 18 fixed bytes) with
thumbnail dimensions `x = bs[16]` and `y = bs[17]`, followed by at least
`3 * x * y` bytes `t`, the reader returns the entry of the fixed bytes with the
first `3 * x * y` bytes of `t` as `Data` (`nil` when the product is 0) and moves
the position by `18 + 3 * x * y`; for `x = 2`, `y = 1` these are 6 bytes. -/
theorem C11_app0_thumbnail (B : List Byte) (pos : Nat) (bs t : List Byte)
    (hd : B.drop pos = bs ++ t) (hlen : bs.length = 18)
    (hv : (App0Entry.ofFixed bs pos).IsValid = true)
    (henough : 3 * (bs.getD 16 0).val * (bs.getD 17 0).val ≤ t.length) :
    App0Entry.Read B pos
      = .ok ({ App0Entry.ofFixed bs pos with
                Data := if 3 * (bs.getD 16 0).val * (bs.getD 17 0).val = 0 then none
                        else some (t.take (3 * (bs.getD 16 0).val * (bs.getD 17 0).val)) },
             pos + 18 + 3 * (bs.getD 16 0).val * (bs.getD 17 0).val) ∧
    (t.take (3 * (bs.getD 16 0).val * (bs.getD 17 0).val)).length
      = 3 * (bs.getD 16 0).val * (bs.getD 17 0).val ∧
    (bs.getD 16 0 = 2 → bs.getD 17 0 = 1 →
      ∃ a, App0Entry.Read B pos = .ok (a, pos + 18 + 6) ∧ a.Data = some (t.take 6) ∧
        (t.take 6).length = 6) := by
  have hpos : pos ≤ B.length := by
    by_contra hc
    rw [List.drop_of_length_le (by omega)] at hd
    have := congrArg List.length hd
    simp only [List.length_nil, List.length_append] at this
    omega
  have hr := readFull_of_drop hd hpos
  rw [hlen] at hr
  obtain ⟨hle, hrest⟩ := drop_append_length hd hpos
  rw [hlen] at hle hrest
  have hx : (App0Entry.ofFixed bs pos).Xthumbnail = bs.getD 16 0 := rfl
  have hy : (App0Entry.ofFixed bs pos).Ythumbnail = bs.getD 17 0 := rfl
  have htake : (t.take (3 * (bs.getD 16 0).val * (bs.getD 17 0).val)).length
      = 3 * (bs.getD 16 0).val * (bs.getD 17 0).val := by
    rw [List.length_take]
    omega
  have main : App0Entry.Read B pos
      = .ok ({ App0Entry.ofFixed bs pos with
                Data := if 3 * (bs.getD 16 0).val * (bs.getD 17 0).val = 0 then none
                        else some (t.take (3 * (bs.getD 16 0).val * (bs.getD 17 0).val)) },
             pos + 18 + 3 * (bs.getD 16 0).val * (bs.getD 17 0).val) := by
    unfold App0Entry.Read
    rw [hr]
    simp only [hv, hx, hy, Bool.not_true, Bool.false_eq_true, if_false]
    by_cases h0 : 3 * (bs.getD 16 0).val * (bs.getD 17 0).val = 0
    · rw [if_neg (by omega), if_pos h0, h0]
      rfl
    · rw [if_pos (by omega), if_neg h0]
      have hsplit : B.drop (pos + 18)
          = t.take (3 * (bs.getD 16 0).val * (bs.getD 17 0).val)
            ++ t.drop (3 * (bs.getD 16 0).val * (bs.getD 17 0).val) := by
        rw [hrest, List.take_append_drop]
      have hf := fileRead_of_drop hsplit hle
      rw [htake] at hf
      rw [hf]
  refine ⟨main, htake, ?_⟩
  intro h16 h17
  rw [h16, h17] at main htake
  exact ⟨_, main, rfl, htake⟩

theorem C11_app0_thumbnail_witness :
    App0Entry.Read
        [0xff, 0xe0, 0, 22, 0x4a, 0x46, 0x49, 0x46, 0, 1, 1, 0, 0, 1, 0, 1, 2, 1,
          10, 11, 12, 13, 14, 15, 0xff, 0xd9] 0
      = .ok ({ App0Entry.ofFixed
                [0xff, 0xe0, 0, 22, 0x4a, 0x46, 0x49, 0x46, 0, 1, 1, 0, 0, 1, 0, 1, 2, 1] 0 with
                Data := if 3 * (([0xff, 0xe0, 0, 22, 0x4a, 0x46, 0x49, 0x46, 0, 1, 1, 0, 0, 1, 0,
                          1, 2, 1] : List Byte).getD 16 0).val
                        * (([0xff, 0xe0, 0, 22, 0x4a, 0x46, 0x49, 0x46, 0, 1, 1, 0, 0, 1, 0, 1,
                          2, 1] : List Byte).getD 17 0).val = 0 then none
                        else some (([10, 11, 12, 13, 14, 15, 0xff, 0xd9] : List Byte).take
                          (3 * (([0xff, 0xe0, 0, 22, 0x4a, 0x46, 0x49, 0x46, 0, 1, 1, 0, 0, 1,
                            0, 1, 2, 1] : List Byte).getD 16 0).val
                          * (([0xff, 0xe0, 0, 22, 0x4a, 0x46, 0x49, 0x46, 0, 1, 1, 0, 0, 1, 0,
                            1, 2, 1] : List Byte).getD 17 0).val)) },
             0 + 18 + 3 * (([0xff, 0xe0, 0, 22, 0x4a, 0x46, 0x49, 0x46, 0, 1, 1, 0, 0, 1, 0, 1,
                2, 1] : List Byte).getD 16 0).val
               * (([0xff, 0xe0, 0, 22, 0x4a, 0x46, 0x49, 0x46, 0, 1, 1, 0, 0, 1, 0, 1, 2,
                1] : List Byte).getD 17 0).val) ∧
    (([10, 11, 12, 13, 14, 15, 0xff, 0xd9] : List Byte).take
        (3 * (([0xff, 0xe0, 0, 22, 0x4a, 0x46, 0x49, 0x46, 0, 1, 1, 0, 0, 1, 0, 1, 2, 1] :
            List Byte).getD 16 0).val
          * (([0xff, 0xe0, 0, 22, 0x4a, 0x46, 0x49, 0x46, 0, 1, 1, 0, 0, 1, 0, 1, 2, 1] :
            List Byte).getD 17 0).val)).length
      = 3 * (([0xff, 0xe0, 0, 22, 0x4a, 0x46, 0x49, 0x46, 0, 1, 1, 0, 0, 1, 0, 1, 2, 1] :
            List Byte).getD 16 0).val
          * (([0xff, 0xe0, 0, 22, 0x4a, 0x46, 0x49, 0x46, 0, 1, 1, 0, 0, 1, 0, 1, 2, 1] :
            List Byte).getD 17 0).val ∧
    ((([0xff, 0xe0, 0, 22, 0x4a, 0x46, 0x49, 0x46, 0, 1, 1, 0, 0, 1, 0, 1, 2, 1] :
          List Byte).getD 16 0) = 2 →
      (([0xff, 0xe0, 0, 22, 0x4a, 0x46, 0x49, 0x46, 0, 1, 1, 0, 0, 1, 0, 1, 2, 1] :
          List Byte).getD 17 0) = 1 →
      ∃ a, App0Entry.Read
          [0xff, 0xe0, 0, 22, 0x4a, 0x46, 0x49, 0x46, 0, 1, 1, 0, 0, 1, 0, 1, 2, 1,
            10, 11, 12, 13, 14, 15, 0xff, 0xd9] 0 = .ok (a, 0 + 18 + 6) ∧
        a.Data = some (([10, 11, 12, 13, 14, 15, 0xff, 0xd9] : List Byte).take 6) ∧
        (([10, 11, 12, 13, 14, 15, 0xff, 0xd9] : List Byte).take 6).length = 6) :=
  C11_app0_thumbnail
    [0xff, 0xe0, 0, 22, 0x4a, 0x46, 0x49, 0x46, 0, 1, 1, 0, 0, 1, 0, 1, 2, 1,
      10, 11, 12, 13, 14, 15, 0xff, 0xd9] 0
    [0xff, 0xe0, 0, 22, 0x4a, 0x46, 0x49, 0x46, 0, 1, 1, 0, 0, 1, 0, 1, 2, 1]
    [10, 11, 12, 13, 14, 15, 0xff, 0xd9] rfl rfl (by decide) (by decide)

/-! ### The scan data -/

theorem scanLoop_clean_aux (E : List Byte) :
    ∀ (s : List Byte) (pos sz : Nat) (ox : Byte) (img rest : List Byte),
      1 ≤ sz → ox :: s = E ++ 255 :: EOI :: rest → hasEoiPair E = false →
      scanLoop s pos sz ox img = .ok (img ++ E, pos + E.length - 1) := by
  induction E with
  | nil =>
    intro s pos sz ox img rest hsz hs _
    simp only [List.nil_append, List.cons.injEq] at hs
    obtain ⟨h1, h2⟩ := hs
    subst h1 h2
    unfold scanLoop
    rw [if_neg (by omega), if_pos ⟨rfl, rfl⟩]
    simp
  | cons a E2 ih =>
    intro s pos sz ox img rest hsz hs hE
    simp only [List.cons_append, List.cons.injEq] at hs
    obtain ⟨h1, h2⟩ := hs
    subst h1
    have hE2 : hasEoiPair E2 = false := by
      match E2, hE with
      | [], _ => rfl
      | [_], _ => rfl
      | b :: c :: r, hE =>
        simp only [hasEoiPair, Bool.or_eq_false_iff] at hE
        simp only [hasEoiPair, Bool.or_eq_false_iff]
        exact hE.2
    match s, h2 with
    | [], h2 => exact absurd (congrArg List.length h2) (by simp; omega)
    | b :: s2, h2 =>
      have hnot : ¬ (ox = 255 ∧ b = EOI) := by
        rintro ⟨hox, hb⟩
        subst hox hb
        match E2, h2, hE with
        | [], h2, _ =>
          simp only [List.nil_append, List.cons.injEq] at h2
          exact absurd h2.1 (by decide)
        | c :: r, h2, hE =>
          simp only [List.cons_append, List.cons.injEq] at h2
          obtain ⟨hc, _⟩ := h2
          subst hc
          simp [hasEoiPair] at hE
      unfold scanLoop
      rw [if_neg (by omega), if_neg hnot]
      rw [ih s2 (pos + 1) (sz + 1) b (img ++ [ox]) rest (by omega) h2 hE2]
      simp only [List.append_assoc, List.singleton_append, List.length_cons, Res.ok.injEq,
        Prod.mk.injEq, true_and]
      omega

/-- On bytes `E` without the pair `FF D9`, followed by `FF D9`, the scan loop
returns `E` and the position of the pair. -/
theorem scanLoop_clean {E rest : List Byte} (pos : Nat) (ox : Byte)
    (hE : hasEoiPair E = false) :
    scanLoop (E ++ 255 :: EOI :: rest) pos 0 ox [] = .ok (E, pos + E.length) := by
  match hs : E ++ 255 :: EOI :: rest with
  | [] => simp at hs
  | b :: s =>
    unfold scanLoop
    rw [if_pos rfl]
    rw [scanLoop_clean_aux E s (pos + 1) (0 + 1) b [] rest (by omega) hs.symm hE]
    simp only [List.nil_append, Res.ok.injEq, Prod.mk.injEq, true_and]
    omega

theorem readComponents_total (n : Nat) :
    ∀ d : List Byte, 2 * n ≤ d.length → ∃ cs rest, readComponents n d = .ok (cs, rest) := by
  induction n with
  | zero => intro d _; exact ⟨[], d, rfl⟩
  | succ n ih =>
    intro d hd
    match d, hd with
    | id :: ht :: d2, hd =>
      simp only [List.length_cons] at hd
      obtain ⟨cs, rest, h⟩ := ih d2 (by omega)
      exact ⟨⟨id, ht⟩ :: cs, rest, by simp only [readComponents, h]⟩

theorem SosEntry_Read_eval {B : List Byte} {pos : Nat} {l1 l2 cc : Byte}
    {d1 E rest : List Byte} {cs : List SosComponent} {data2 : List Byte}
    (hd : B.drop pos = 255 :: SOS :: l1 :: l2 :: ((cc :: d1) ++ E ++ 255 :: EOI :: rest))
    (h0 : beWord l1 l2 ≠ 0)
    (hlen : (cc :: d1).length = (beWord l1 l2 + 65536 - 2) % 65536)
    (hc : readComponents cc.val d1 = .ok (cs, data2)) (hE : hasEoiPair E = false) :
    SosEntry.Read B pos
      = .ok (⟨255, SOS, beWord l1 l2, cc, cs, some data2, E, pos⟩,
          pos + 4 + (cc :: d1).length + E.length) ∧
    B.drop (pos + 4 + (cc :: d1).length + E.length) = 255 :: EOI :: rest := by
  have hd2 : B.drop pos
      = 255 :: SOS :: l1 :: l2 :: ((cc :: d1) ++ (E ++ 255 :: EOI :: rest)) := by
    rw [hd, List.append_assoc]
  obtain ⟨hle, hrest⟩ := header_rest hd2
  have hrd : (⟨255, SOS, beWord l1 l2⟩ : lookupHeader).ReadData B pos
      = .ok (some (cc :: d1), pos + 4 + (cc :: d1).length) :=
    lookupHeader_ReadData_eval h0 hle hrest hlen
  obtain ⟨hle2, hrest2⟩ := drop_append_length hrest hle
  obtain ⟨_, hrest3⟩ := drop_append_length hrest2 hle2
  refine ⟨?_, hrest3⟩
  unfold SosEntry.Read
  rw [lookupHeader_Read_eval hd (by decide)]
  simp only [SosEntry.IsValid, hrd, Option.getD_some, hc, hrest2, scanLoop_clean _ 0 hE]
  rfl

theorem ReadEntry_at_sos {B : List Byte} {pos : Nat} {t : List Byte}
    (hd : B.drop pos = 255 :: SOS :: t) :
    anEntry.ReadEntry B pos = (SosEntry.Read B pos).entry Entry.sos := by
  rw [ReadEntry_of_drop hd]
  simp +decide

theorem ReadEntry_at_eoi {B : List Byte} {pos : Nat} {t : List Byte}
    (hd : B.drop pos = 255 :: EOI :: t) :
    anEntry.ReadEntry B pos = .ok (.eoi ⟨255, EOI, pos⟩, pos + 2) := by
  have hpos : pos ≤ B.length := Nat.le_of_lt (drop_length_le hd)
  have hr : fileRead B pos 2 = .ok ([255, EOI], pos + 2) :=
    @fileRead_of_drop B pos [255, EOI] t hd hpos
  have he : EoiEntry.Read B pos = .ok (⟨255, EOI, pos⟩, pos + 2) := by
    unfold EoiEntry.Read
    rw [hr]
    rfl
  rw [ReadEntry_of_drop hd]
  simp +decide [he, Res.entry]

theorem ReadEntry_at_soi {B : List Byte} {t : List Byte} (hB : B = 255 :: SOI :: t) :
    anEntry.ReadEntry B 0 = .ok (.soi ⟨255, SOI, 0⟩, 2) := by
  subst hB
  have hr : fileRead (255 :: SOI :: t) 0 2 = .ok ([255, SOI], 2) :=
    @fileRead_of_drop (255 :: SOI :: t) 0 [255, SOI] t rfl (Nat.zero_le _)
  have he : SoiEntry.Read (255 :: SOI :: t) = .ok (⟨255, SOI, 0⟩, 2) := by
    unfold SoiEntry.Read
    rw [hr]
    rfl
  have hd : (255 :: SOI :: t : List Byte).drop 0 = 255 :: SOI :: t := rfl
  rw [ReadEntry_of_drop hd]
  simp +decide [he, Res.entry]

/-- `Load` on a stream made of a start-of-image marker, a start-of-scan segment
whose payload `cc :: d1` parses, entropy bytes `E` without the pair `FF D9`,
and an end-of-image marker. -/
theorem load_scan_stream {l1 l2 cc : Byte} {d1 E : List Byte} {cs : List SosComponent}
    {data2 : List Byte} (h0 : beWord l1 l2 ≠ 0)
    (hlen : (cc :: d1).length = (beWord l1 l2 + 65536 - 2) % 65536)
    (hc : readComponents cc.val d1 = .ok (cs, data2)) (hE : hasEoiPair E = false)
    (fuel : Nat) (path : String) :
    Exif.Load (fuel + 3) Exif.zero path
        (255 :: SOI :: 255 :: SOS :: l1 :: l2 :: ((cc :: d1) ++ E ++ [255, EOI]))
      = .done ⟨path,
          [.soi ⟨255, SOI, 0⟩, .sos ⟨255, SOS, beWord l1 l2, cc, cs, some data2, E, 2⟩,
            .eoi ⟨255, EOI, 2 + 4 + (cc :: d1).length + E.length⟩], true⟩ := by
  have hd : (255 :: SOI :: 255 :: SOS :: l1 :: l2 :: ((cc :: d1) ++ E ++ [255, EOI])).drop 2
      = 255 :: SOS :: l1 :: l2 :: ((cc :: d1) ++ E ++ 255 :: EOI :: []) := rfl
  obtain ⟨hsos, hrest⟩ := SosEntry_Read_eval hd h0 hlen hc hE
  have h1 := @ReadEntry_at_soi _ (255 :: SOS :: l1 :: l2 :: ((cc :: d1) ++ E ++ [255, EOI])) rfl
  have h2 : anEntry.ReadEntry
      (255 :: SOI :: 255 :: SOS :: l1 :: l2 :: ((cc :: d1) ++ E ++ [255, EOI])) 2
      = .ok (.sos ⟨255, SOS, beWord l1 l2, cc, cs, some data2, E, 2⟩,
          2 + 4 + (cc :: d1).length + E.length) := by
    rw [ReadEntry_at_sos hd, hsos]
    rfl
  have h3 := ReadEntry_at_eoi hrest
  have hw : Walk (255 :: SOI :: 255 :: SOS :: l1 :: l2 :: ((cc :: d1) ++ E ++ [255, EOI])) 0
      [.soi ⟨255, SOI, 0⟩, .sos ⟨255, SOS, beWord l1 l2, cc, cs, some data2, E, 2⟩]
      (2 + 4 + (cc :: d1).length + E.length) :=
    Walk.cons h1 (by decide) (Walk.cons h2 (by show SOS ≠ EOI; decide) (Walk.nil _))
  rw [Load_of_walk hw h3 (fuel + 3) (by simp) path]
  simp only [List.cons_append, List.nil_append, List.length_cons, List.length_append,
    List.length_nil, Outcome.done.injEq, Exif.mk.injEq, true_and, decide_eq_true_eq]
  omega

set_option maxRecDepth 100000 in
theorem stuffing_byte_ne_eoi : ∀ b : Byte, (b = 0 ∨ (RST0 ≤ b ∧ b ≤ RST7)) → b ≠ EOI := by
  decide

theorem stuffed_no_pair : ∀ E : List Byte, stuffed E = true → hasEoiPair E = false
  | [], _ => rfl
  | [_], _ => rfl
  | a :: b :: r, h => by
    simp only [stuffed, Bool.and_eq_true, Bool.or_eq_true, bne_iff_ne, ne_eq, beq_iff_eq,
      decide_eq_true_eq] at h
    obtain ⟨h1, h2⟩ := h
    have ih := stuffed_no_pair (b :: r) h2
    simp only [hasEoiPair, Bool.or_eq_false_iff, Bool.and_eq_false_iff, beq_eq_false_iff_ne,
      ne_eq]
    refine ⟨?_, ih⟩
    by_cases ha : a = 255
    · right
      rcases h1 with (h1 | h1) | h1
      · exact absurd ha h1
      · exact stuffing_byte_ne_eoi b (Or.inl h1)
      · exact stuffing_byte_ne_eoi b (Or.inr h1)
    · exact Or.inl ha

/-- A scan header of declared length `L` whose `L - 2` payload bytes are the
component count `cc` and `d1`, with room for the `cc` pairs. -/
theorem scan_header_facts {l1 l2 cc : Byte} {d1 : List Byte}
    (hlen : (cc :: d1).length = beWord l1 l2 - 2)
    (hn : 1 + 2 * cc.val ≤ beWord l1 l2 - 2) :
    beWord l1 l2 ≠ 0 ∧ (cc :: d1).length = (beWord l1 l2 + 65536 - 2) % 65536 ∧
    4 + (cc :: d1).length = beWord l1 l2 + 2 ∧
    ∃ cs data2, readComponents cc.val d1 = .ok (cs, data2) ∧
      d1 = componentBytes cs ++ data2 ∧ cs.length = cc.val := by
  have hlt := beWord_lt l1 l2
  have hlenn : @Eq Nat (cc :: d1).length (beWord l1 l2 - 2) := hlen
  have hnn : @LE.le Nat _ (1 + 2 * cc.val) (beWord l1 l2 - 2) := hn
  simp only [List.length_cons] at hlenn
  have h2 : @LE.le Nat _ 2 (beWord l1 l2) := by omega
  obtain ⟨cs, data2, hc⟩ := readComponents_total cc.val d1 (by omega)
  obtain ⟨hc1, hc2⟩ := readComponents_ok hc
  refine ⟨?_, ?_, ?_, cs, data2, hc, hc1, hc2⟩
  · intro h0
    rw [h0] at h2
    omega
  · rw [length_mod_of_ge h2 hlt]
    exact hlen
  · show @Eq Nat _ _
    simp only [List.length_cons]
    omega

/-- Claim C12: a start-of-scan segment with a well-formed header (declared
length `L`, `L - 2` payload bytes `cc :: d1`, component count `cc` with
`L - 2 ≥ 1 + 2 * cc`) that is followed by bytes `E` without the adjacent pair
`FF D9` and then by `FF D9` is read with `Image = E`; the position is left on
the pair, at `pos + L + 2 + |E|`, and the next entry read is the end-of-image
entry at that offset. The second part is the instance of the specification:
start of image, one component pair, four entropy bytes, end of image. -/
theorem C12_scan_image_is_entropy_bytes :
    (∀ (B : List Byte) (pos : Nat) (l1 l2 cc : Byte) (d1 E rest : List Byte),
      B.drop pos = 255 :: SOS :: l1 :: l2 :: ((cc :: d1) ++ E ++ 255 :: EOI :: rest) →
      (cc :: d1).length = beWord l1 l2 - 2 → 1 + 2 * cc.val ≤ beWord l1 l2 - 2 →
      hasEoiPair E = false →
      ∃ cs data2, d1 = componentBytes cs ++ data2 ∧ cs.length = cc.val ∧
        SosEntry.Read B pos
          = .ok (⟨255, SOS, beWord l1 l2, cc, cs, some data2, E, pos⟩,
              pos + (beWord l1 l2 + 2) + E.length) ∧
        anEntry.ReadEntry B pos
          = .ok (.sos ⟨255, SOS, beWord l1 l2, cc, cs, some data2, E, pos⟩,
              pos + (beWord l1 l2 + 2) + E.length) ∧
        B.drop (pos + (beWord l1 l2 + 2) + E.length) = 255 :: EOI :: rest ∧
        anEntry.ReadEntry B (pos + (beWord l1 l2 + 2) + E.length)
          = .ok (.eoi ⟨255, EOI, pos + (beWord l1 l2 + 2) + E.length⟩,
              pos + (beWord l1 l2 + 2) + E.length + 2)) ∧
    (∀ (c h e1 e2 e3 e4 : Byte) (fuel : Nat) (path : String),
      hasEoiPair [e1, e2, e3, e4] = false →
      Exif.Load (fuel + 3) Exif.zero path
          [255, SOI, 255, SOS, 0, 5, 1, c, h, e1, e2, e3, e4, 255, EOI]
        = .done ⟨path,
            [.soi ⟨255, SOI, 0⟩,
              .sos ⟨255, SOS, 5, 1, [⟨c, h⟩], some [], [e1, e2, e3, e4], 2⟩,
              .eoi ⟨255, EOI, 13⟩], true⟩) := by
  constructor
  · intro B pos l1 l2 cc d1 E rest hd hlen hn hE
    obtain ⟨h0, hlen2, hsum, cs, data2, hc, hc1, hc2⟩ := scan_header_facts hlen hn
    obtain ⟨hsos, hrest⟩ := SosEntry_Read_eval hd h0 hlen2 hc hE
    have hp : pos + 4 + (cc :: d1).length + E.length
        = pos + (beWord l1 l2 + 2) + E.length := by
      have : @Eq Nat (4 + (cc :: d1).length) (beWord l1 l2 + 2) := hsum
      show @Eq Nat _ _
      omega
    rw [hp] at hsos hrest
    refine ⟨cs, data2, hc1, hc2, hsos, ?_, hrest, ReadEntry_at_eoi hrest⟩
    rw [ReadEntry_at_sos hd, hsos]
    rfl
  · intro c h e1 e2 e3 e4 fuel path hE
    have hlen : ([1, c, h] : List Byte).length = (beWord 0 5 + 65536 - 2) % 65536 := by
      show 3 = (beWord 0 5 + 65536 - 2) % 65536
      decide
    exact @load_scan_stream 0 5 1 [c, h] [e1, e2, e3, e4] [⟨c, h⟩] [] (by decide) hlen
      rfl hE fuel path

theorem C12_scan_image_is_entropy_bytes_witness :
    (∃ cs data2, ([1, 0] : List Byte) = componentBytes cs ++ data2 ∧
        cs.length = (1 : Byte).val ∧
        SosEntry.Read [0xff, 0xd8, 0xff, 0xda, 0, 5, 1, 1, 0, 9, 8, 7, 6, 0xff, 0xd9] 2
          = .ok (⟨255, SOS, beWord 0 5, 1, cs, some data2, [9, 8, 7, 6], 2⟩,
              2 + (beWord 0 5 + 2) + ([9, 8, 7, 6] : List Byte).length) ∧
        anEntry.ReadEntry [0xff, 0xd8, 0xff, 0xda, 0, 5, 1, 1, 0, 9, 8, 7, 6, 0xff, 0xd9] 2
          = .ok (.sos ⟨255, SOS, beWord 0 5, 1, cs, some data2, [9, 8, 7, 6], 2⟩,
              2 + (beWord 0 5 + 2) + ([9, 8, 7, 6] : List Byte).length) ∧
        ([0xff, 0xd8, 0xff, 0xda, 0, 5, 1, 1, 0, 9, 8, 7, 6, 0xff, 0xd9] : List Byte).drop
            (2 + (beWord 0 5 + 2) + ([9, 8, 7, 6] : List Byte).length) = 255 :: EOI :: [] ∧
        anEntry.ReadEntry [0xff, 0xd8, 0xff, 0xda, 0, 5, 1, 1, 0, 9, 8, 7, 6, 0xff, 0xd9]
            (2 + (beWord 0 5 + 2) + ([9, 8, 7, 6] : List Byte).length)
          = .ok (.eoi ⟨255, EOI, 2 + (beWord 0 5 + 2) + ([9, 8, 7, 6] : List Byte).length⟩,
              2 + (beWord 0 5 + 2) + ([9, 8, 7, 6] : List Byte).length + 2)) ∧
    Exif.Load (0 + 3) Exif.zero "a.jpg"
        [255, SOI, 255, SOS, 0, 5, 1, 1, 0, 9, 8, 7, 6, 255, EOI]
      = .done ⟨"a.jpg",
          [.soi ⟨255, SOI, 0⟩, .sos ⟨255, SOS, 5, 1, [⟨1, 0⟩], some [], [9, 8, 7, 6], 2⟩,
            .eoi ⟨255, EOI, 13⟩], true⟩ :=
  ⟨C12_scan_image_is_entropy_bytes.1
      [0xff, 0xd8, 0xff, 0xda, 0, 5, 1, 1, 0, 9, 8, 7, 6, 0xff, 0xd9] 2 0 5 1 [1, 0]
      [9, 8, 7, 6] [] rfl (by decide) (by decide) (by decide),
    C12_scan_image_is_entropy_bytes.2 1 0 9 8 7 6 0 "a.jpg" (by decide)⟩

/-- Claim C13: entropy bytes `E` in which every `FF` is followed, within `E`, by
`00` or by a restart marker byte `D0..D7` hold no pair `FF D9`, and the scan
loop does not stop inside them: `Load` on start of image, a well-formed
start-of-scan header, `E`, end of image returns the start-of-image entry, the
scan entry with `Image = E` and the end-of-image entry behind `E`. -/
theorem C13_stuffed_bytes_do_not_end_scan (l1 l2 cc : Byte) (d1 E : List Byte)
    (fuel : Nat) (path : String)
    (hlen : (cc :: d1).length = beWord l1 l2 - 2)
    (hn : 1 + 2 * cc.val ≤ beWord l1 l2 - 2) (hS : stuffed E = true) :
    hasEoiPair E = false ∧
    ∃ cs data2, d1 = componentBytes cs ++ data2 ∧ cs.length = cc.val ∧
      Exif.Load (fuel + 3) Exif.zero path
          (255 :: SOI :: 255 :: SOS :: l1 :: l2 :: ((cc :: d1) ++ E ++ [255, EOI]))
        = .done ⟨path,
            [.soi ⟨255, SOI, 0⟩, .sos ⟨255, SOS, beWord l1 l2, cc, cs, some data2, E, 2⟩,
              .eoi ⟨255, EOI, 2 + (beWord l1 l2 + 2) + E.length⟩], true⟩ := by
  have hE := stuffed_no_pair E hS
  obtain ⟨h0, hlen2, hsum, cs, data2, hc, hc1, hc2⟩ := scan_header_facts hlen hn
  refine ⟨hE, cs, data2, hc1, hc2, ?_⟩
  rw [load_scan_stream h0 hlen2 hc hE fuel path]
  have hp : 2 + 4 + (cc :: d1).length + E.length = 2 + (beWord l1 l2 + 2) + E.length := by
    have : @Eq Nat (4 + (cc :: d1).length) (beWord l1 l2 + 2) := hsum
    show @Eq Nat _ _
    omega
  rw [hp]

theorem C13_stuffed_bytes_do_not_end_scan_witness :
    hasEoiPair [0x12, 0xff, 0x00, 0xff, 0xd0, 0x34] = false ∧
    ∃ cs data2, ([1, 0] : List Byte) = componentBytes cs ++ data2 ∧
      cs.length = (1 : Byte).val ∧
      Exif.Load (0 + 3) Exif.zero "a.jpg"
          (255 :: SOI :: 255 :: SOS :: 0 :: 5 ::
            ((1 :: [1, 0]) ++ [0x12, 0xff, 0x00, 0xff, 0xd0, 0x34] ++ [255, EOI]))
        = .done ⟨"a.jpg",
            [.soi ⟨255, SOI, 0⟩,
              .sos ⟨255, SOS, beWord 0 5, 1, cs, some data2,
                [0x12, 0xff, 0x00, 0xff, 0xd0, 0x34], 2⟩,
              .eoi ⟨255, EOI, 2 + (beWord 0 5 + 2)
                + ([0x12, 0xff, 0x00, 0xff, 0xd0, 0x34] : List Byte).length⟩], true⟩ :=
  C13_stuffed_bytes_do_not_end_scan 0 5 1 [1, 0] [0x12, 0xff, 0x00, 0xff, 0xd0, 0x34] 0 "a.jpg"
    (by decide) (by decide) (by decide)

/-! ### Offsets of the entries of a loaded container -/

theorem Tiled_append {p : Nat} {es fs : List Entry} :
    Tiled p (es ++ fs) ↔ Tiled p es ∧ Tiled (p + (bytesOf es).length) fs := by
  induction es generalizing p with
  | nil => simp [Tiled, bytesOf]
  | cons e es ih =>
    have hb : bytesOf (e :: es) = e.bytes ++ bytesOf es := by
      simp only [bytesOf, List.map_cons, List.flatten_cons]
    show (e.Pos = p ∧ Tiled (p + e.bytes.length) (es ++ fs)) ↔
      ((e.Pos = p ∧ Tiled (p + e.bytes.length) es) ∧ Tiled (p + (bytesOf (e :: es)).length) fs)
    rw [ih, hb, List.length_append, Nat.add_assoc, and_assoc]

theorem Tiled_mem {p : Nat} {es : List Entry} (h : Tiled p es) :
    ∀ e ∈ es, p ≤ e.Pos ∧ e.Pos + e.bytes.length ≤ p + (bytesOf es).length := by
  induction es generalizing p with
  | nil => intro e he; cases he
  | cons e0 es ih =>
    have hb : bytesOf (e0 :: es) = e0.bytes ++ bytesOf es := by
      simp only [bytesOf, List.map_cons, List.flatten_cons]
    obtain ⟨h1, h2⟩ := h
    intro e he
    rw [hb, List.length_append]
    rcases List.mem_cons.mp he with h3 | h3
    · subst h3
      omega
    · have := ih h2 e h3
      omega

/-- In a list of entries that lie one behind the other, an entry starts where
the entries before it end. -/
theorem Tiled_split {p : Nat} {pre post : List Entry} {s : Entry}
    (h : Tiled p (pre ++ s :: post)) :
    s.Pos = p + (bytesOf pre).length ∧ ∀ e ∈ pre, e.Pos + e.bytes.length ≤ s.Pos := by
  obtain ⟨h1, h2⟩ := Tiled_append.1 h
  obtain ⟨h3, _⟩ := h2
  refine ⟨h3, ?_⟩
  intro e he
  have := (Tiled_mem h1 e he).2
  omega

/-- The entries of a run that reaches an end-of-image entry, and that entry,
lie one behind the other from the start of the run. -/
theorem Walk.tiled {B : List Byte} {p q pF : Nat} {es : List Entry} {last : Entry}
    (hw : Walk B p es q) (hl : anEntry.ReadEntry B q = .ok (last, pF))
    (hid : last.GetId = EOI)
    (hinv : ∀ t, B = 255 :: SOI :: t → p = 0 ∨ ∃ es0, Walk B 2 es0 p) :
    Tiled p (es ++ [last]) := by
  induction hw with
  | nil p =>
    obtain ⟨h1, _, _⟩ := last_step hl hid
    subst h1
    exact ⟨rfl, trivial⟩
  | @cons p q r e es h hne hw ih =>
    obtain ⟨⟨hn1, _⟩, hpos, hinv2⟩ := good_step h hne hw hl hid hinv
    have := ih hl hinv2
    rw [hn1] at this
    exact ⟨hpos, this⟩

/-- The entries of a successfully loaded container lie one behind the other
from offset 0; each was returned by `ReadEntry`. -/
theorem Load_tiled {fuel : Nat} {path : String} {B : List Byte} {x : Exif}
    (h : Exif.Load fuel Exif.zero path B = .done x) :
    Tiled 0 x.Entries ∧ (∀ e ∈ x.Entries, ∃ pos here, anEntry.ReadEntry B pos = .ok (e, here)) ∧
    ∃ es q, x.Entries = es ++ [.eoi ⟨255, EOI, q⟩] ∧ q = (bytesOf es).length := by
  obtain ⟨es, q, hw, hl, hx, _⟩ := Load_done h
  subst hx
  have ht := Walk.tiled hw hl rfl (fun _ _ => Or.inl rfl)
  refine ⟨ht, ?_, es, q, rfl, ?_⟩
  · intro e he
    rcases List.mem_append.mp he with h1 | h1
    · exact hw.mem_read e h1
    · simp only [List.mem_singleton] at h1
      subst h1
      exact ⟨q, q + 2, hl⟩
  · have := (Tiled_split ht).1
    simpa [Entry.Pos] using this

theorem payload_size {B : List Byte} {pos here : Nat} {tmp : lookupHeader}
    {d : Option (List Byte)} (hl : lookupHeader.Read B pos = .ok tmp)
    (hrd : tmp.ReadData B pos = .ok (d, here)) :
    (d.getD []).length = payloadSize tmp.Len ∧ @LT.lt Nat _ tmp.Len 65536 := by
  obtain ⟨l1, l2, _, hlen, _, hc⟩ := opaque_shape hl hrd
  have hlt : @LT.lt Nat _ tmp.Len 65536 := by
    rw [hlen]
    exact beWord_lt l1 l2
  refine ⟨?_, hlt⟩
  rcases hc with ⟨h0, h1, _⟩ | ⟨h0, data, h1, h2, _⟩
  · subst h1
    simp [payloadSize, h0]
  · subst h1
    simp only [Option.getD_some, payloadSize, if_neg h0]
    exact h2

theorem componentBytes_length (cs : List SosComponent) :
    (componentBytes cs).length = 2 * cs.length := by
  induction cs with
  | nil => rfl
  | cons c cs ih =>
    simp only [componentBytes, List.length_cons, ih]
    omega

/-- The number of bytes that an entry returned by `ReadEntry` writes. -/
theorem entry_bytes_length {B : List Byte} {pos here : Nat} {e : Entry}
    (h : anEntry.ReadEntry B pos = .ok (e, here)) :
    match e with
    | .soi _ => e.bytes.length = 2
    | .app0 a => e.bytes.length = 18 + 3 * a.Xthumbnail.val * a.Ythumbnail.val
    | .appn a => e.bytes.length = 4 + payloadSize a.Length ∧ @LT.lt Nat _ a.Length 65536
    | .dqt a => e.bytes.length = 4 + payloadSize a.Length ∧ @LT.lt Nat _ a.Length 65536
    | .sof a => e.bytes.length = 4 + payloadSize a.Length ∧ @LT.lt Nat _ a.Length 65536
    | .dht a => e.bytes.length = 4 + payloadSize a.Length ∧ @LT.lt Nat _ a.Length 65536
    | .sos a =>
      e.bytes.length = 4 + payloadSize a.Length + a.Image.length ∧
        @LT.lt Nat _ a.Length 65536
    | .eoi _ => e.bytes.length = 2 := by
  have hv := ReadEntry_variant h
  have hle := ReadEntry_ok_le h
  cases e with
  | soi a =>
    rw [Entry.bytes_eq]
    rfl
  | eoi a =>
    rw [Entry.bytes_eq]
    rfl
  | app0 a =>
    simp only at hv ⊢
    obtain ⟨bs, hr, _, hc⟩ := App0Entry_Read_ok hv
    obtain ⟨_, hle2, hlen, _⟩ := readFull_ok hr
    rcases hc with ⟨ht, he, _⟩ | ⟨_, data, hf, he⟩
    · subst he
      have hb : (Entry.app0 (App0Entry.ofFixed bs pos)).bytes
          = bs ++ (none : Option (List Byte)).getD [] := App0Entry_bytes_ofFixed hlen pos none
      rw [hb, ht]
      simp [hlen]
    · subst he
      obtain ⟨hdl, _⟩ := fileRead_ok hf hle2
      rw [App0Entry_bytes_ofFixed hlen pos (some data)]
      simp only [Option.getD_some, List.length_append, hlen, hdl]
  | appn a =>
    simp only at hv ⊢
    obtain ⟨tmp, d, hl, hrd, he, _⟩ := AppnEntry_Read_ok hv
    subst he
    obtain ⟨h1, h2⟩ := payload_size hl hrd
    refine ⟨?_, h2⟩
    rw [Entry.bytes_eq]
    simp only [List.length_append, List.length_cons, List.length_nil, h1]
  | dqt a =>
    simp only at hv ⊢
    obtain ⟨tmp, d, hl, hrd, he, _⟩ := DqtEntry_Read_ok hv
    subst he
    obtain ⟨h1, h2⟩ := payload_size hl hrd
    refine ⟨?_, h2⟩
    rw [Entry.bytes_eq]
    simp only [List.length_append, List.length_cons, List.length_nil, h1]
  | sof a =>
    simp only at hv ⊢
    obtain ⟨tmp, d, hl, hrd, p, h0, h1, w0, w1, c, data3, hd, he⟩ := SofEntry_Read_ok hv
    subst he
    obtain ⟨h1, h2⟩ := payload_size hl hrd
    refine ⟨?_, h2⟩
    rw [Entry.bytes_eq]
    rw [hd] at h1
    simp only [List.length_cons] at h1
    simp only [List.length_append, List.length_cons, List.length_nil, Option.getD_some]
    omega
  | dht a =>
    simp only at hv ⊢
    obtain ⟨tmp, d, hl, hrd, htInfo, data1, hd, h16, _, _, he⟩ := DhtEntry_Read_ok hv
    subst he
    obtain ⟨h1, h2⟩ := payload_size hl hrd
    refine ⟨?_, h2⟩
    rw [Entry.bytes_eq]
    rw [hd] at h1
    simp only [List.length_cons] at h1
    simp only [List.length_append, List.length_cons, List.length_nil, Option.getD_some,
      List.length_take, List.length_drop]
    omega
  | sos a =>
    simp only at hv ⊢
    obtain ⟨tmp, d, here1, hl, hrd, cc, data1, cs, data2, image, hd, hc, _, he⟩ :=
      SosEntry_Read_ok hv
    subst he
    obtain ⟨h1, h2⟩ := payload_size hl hrd
    obtain ⟨hc1, _⟩ := readComponents_ok hc
    refine ⟨?_, h2⟩
    rw [Entry.bytes_eq]
    rw [hd, hc1] at h1
    simp only [List.length_cons, List.length_append] at h1
    simp only [List.length_append, List.length_cons, List.length_nil, Option.getD_some]
    omega

/-- The declared range of an entry returned by `ReadEntry`, other than an
application segment 0, is not longer than the bytes of the entry. -/
theorem declared_le_bytes {B : List Byte} {pos here : Nat} {e : Entry}
    (h : anEntry.ReadEntry B pos = .ok (e, here)) (hne : ∀ a, e ≠ .app0 a) :
    e.Len ≤ e.bytes.length := by
  have hb := entry_bytes_length h
  have key : ∀ L : Nat, L < 65536 → L + 2 ≤ 4 + payloadSize L := by
    intro L hL
    unfold payloadSize
    split <;> omega
  cases e with
  | soi a => simp only at hb; rw [hb]; exact Nat.le_refl 2
  | eoi a => simp only at hb; rw [hb]; exact Nat.le_refl 2
  | app0 a => exact absurd rfl (hne a)
  | appn a => simp only at hb; rw [hb.1]; exact key _ hb.2
  | dqt a => simp only at hb; rw [hb.1]; exact key _ hb.2
  | sof a => simp only at hb; rw [hb.1]; exact key _ hb.2
  | dht a => simp only at hb; rw [hb.1]; exact key _ hb.2
  | sos a =>
    simp only at hb
    rw [hb.1]
    exact Nat.le_trans (key _ hb.2) (Nat.le_add_right _ _)

theorem len_le_bytes {B : List Byte} {pos here : Nat} {e : Entry}
    (h : anEntry.ReadEntry B pos = .ok (e, here))
    (happ : ∀ a, e = .app0 a → a.Length ≤ 16 + 3 * a.Xthumbnail.val * a.Ythumbnail.val) :
    e.Len ≤ e.bytes.length := by
  by_cases hne : ∀ a, e ≠ .app0 a
  · exact declared_le_bytes h hne
  · simp only [ne_eq, not_forall, not_not] at hne
    obtain ⟨a, ha⟩ := hne
    have hb := entry_bytes_length h
    have hL := happ a ha
    subst ha
    simp only at hb
    rw [hb]
    show @LE.le Nat _ (a.Length + 2) _
    have hL2 : @LE.le Nat _ a.Length (16 + 3 * a.Xthumbnail.val * a.Ythumbnail.val) := hL
    omega

/-- Claim C17, as stated, fails. On `FF D8 FF D9` the offset 2 lies in the
declared range `[2, 4]` of the end-of-image entry and `SectionAt 2` returns the
start-of-image entry, whose closed range `[0, 2]` holds it too. On a stream
whose application segment 0 declares the length 100 the offset 21 lies in the
range `[20, 22]` of the end-of-image entry and `SectionAt 21` returns the
application entry, whose declared range is `[2, 104]`. -/
theorem C17_counterexample :
    Exif.Load 2 Exif.zero "a.jpg" [0xff, 0xd8, 0xff, 0xd9]
      = .done ⟨"a.jpg", [.soi ⟨255, SOI, 0⟩, .eoi ⟨255, EOI, 2⟩], true⟩ ∧
    (Entry.eoi ⟨255, EOI, 2⟩).Pos ≤ 2 ∧
    2 ≤ (Entry.eoi ⟨255, EOI, 2⟩).Pos + (Entry.eoi ⟨255, EOI, 2⟩).Len ∧
    (⟨"a.jpg", [.soi ⟨255, SOI, 0⟩, .eoi ⟨255, EOI, 2⟩], true⟩ : Exif).SectionAt 2
      = some (.soi ⟨255, SOI, 0⟩) ∧
    Exif.Load 3 Exif.zero "a.jpg"
        [0xff, 0xd8, 0xff, 0xe0, 0, 100, 0x4a, 0x46, 0x49, 0x46, 0, 1, 1, 0, 0, 1, 0, 1, 0, 0,
          0xff, 0xd9]
      = .done ⟨"a.jpg", [.soi ⟨255, SOI, 0⟩,
          .app0 ⟨255, APP0, 100, [0x4a, 0x46, 0x49, 0x46, 0], [1, 1], 0, 1, 1, 0, 0, none, 2⟩,
          .eoi ⟨255, EOI, 20⟩], true⟩ ∧
    (Entry.eoi ⟨255, EOI, 20⟩).Pos < 21 ∧
    21 ≤ (Entry.eoi ⟨255, EOI, 20⟩).Pos + (Entry.eoi ⟨255, EOI, 20⟩).Len ∧
    (⟨"a.jpg", [.soi ⟨255, SOI, 0⟩,
          .app0 ⟨255, APP0, 100, [0x4a, 0x46, 0x49, 0x46, 0], [1, 1], 0, 1, 1, 0, 0, none, 2⟩,
          .eoi ⟨255, EOI, 20⟩], true⟩ : Exif).SectionAt 21
      = some (.app0 ⟨255, APP0, 100, [0x4a, 0x46, 0x49, 0x46, 0], [1, 1], 0, 1, 1, 0, 0, none,
          2⟩) := by
  decide

/-- Claim C17, amended: in a successfully loaded container, for an entry `s`
and an offset `o` in its declared range, `SectionAt o` returns `s` when no
entry before `s` holds `o` in its closed range; that is the case when `o` lies
behind the start of `s` (or `s` is the first entry) and every application
segment 0 before `s` declares a length of at most `16 + 3 * x * y`. -/
theorem C17_section_at_inside (fuel : Nat) (path : String) (B : List Byte) (x : Exif)
    (pre post : List Entry) (s : Entry) (o : Nat)
    (h : Exif.Load fuel Exif.zero path B = .done x) (hx : x.Entries = pre ++ s :: post)
    (hlo : s.Pos ≤ o) (hhi : o ≤ s.Pos + s.Len) :
    ((∀ e ∈ pre, ¬ e.covers o) → x.SectionAt o = some s) ∧
    ((s.Pos < o ∨ pre = []) →
      (∀ a, Entry.app0 a ∈ pre → a.Length ≤ 16 + 3 * a.Xthumbnail.val * a.Ythumbnail.val) →
      x.SectionAt o = some s) := by
  have hfirst : (∀ e ∈ pre, ¬ e.covers o) → x.SectionAt o = some s :=
    fun hpre => SectionAt_eq_some.2 ⟨⟨hlo, hhi⟩, pre, post, hx, hpre⟩
  refine ⟨hfirst, ?_⟩
  intro hin happ
  apply hfirst
  obtain ⟨ht, hread, _⟩ := Load_tiled h
  rw [hx] at ht hread
  obtain ⟨_, hbefore⟩ := Tiled_split ht
  intro e he hc
  rcases hin with hin | hin
  · obtain ⟨p, here, hr⟩ := hread e (List.mem_append_left _ he)
    have hlen := len_le_bytes hr (fun a ha => happ a (ha ▸ he))
    have := hbefore e he
    obtain ⟨_, hc2⟩ := hc
    omega
  · subst hin
    cases he

theorem C17_section_at_inside_witness :
    ((∀ e ∈ [Entry.soi ⟨255, SOI, 0⟩], ¬ e.covers 3) →
      (⟨"a.jpg", [.soi ⟨255, SOI, 0⟩, .eoi ⟨255, EOI, 2⟩], true⟩ : Exif).SectionAt 3
        = some (.eoi ⟨255, EOI, 2⟩)) ∧
    (((Entry.eoi ⟨255, EOI, 2⟩).Pos < 3 ∨ [Entry.soi ⟨255, SOI, 0⟩] = []) →
      (∀ a, Entry.app0 a ∈ [Entry.soi ⟨255, SOI, 0⟩] →
        a.Length ≤ 16 + 3 * a.Xthumbnail.val * a.Ythumbnail.val) →
      (⟨"a.jpg", [.soi ⟨255, SOI, 0⟩, .eoi ⟨255, EOI, 2⟩], true⟩ : Exif).SectionAt 3
        = some (.eoi ⟨255, EOI, 2⟩)) :=
  C17_section_at_inside 2 "a.jpg" [0xff, 0xd8, 0xff, 0xd9] _ [.soi ⟨255, SOI, 0⟩] []
    (.eoi ⟨255, EOI, 2⟩) 3 (by decide) rfl (by decide) (by decide)

/-- Claim C18, as stated, fails: on a stream whose application segment 0
declares the length 100 the end-of-image entry has offset 20 and length 2, and
`SectionAt 23` returns the application entry, whose declared range is
`[2, 104]`. -/
theorem C18_counterexample :
    Exif.Load 3 Exif.zero "a.jpg"
        [0xff, 0xd8, 0xff, 0xe0, 0, 100, 0x4a, 0x46, 0x49, 0x46, 0, 1, 1, 0, 0, 1, 0, 1, 0, 0,
          0xff, 0xd9]
      = .done ⟨"a.jpg", [.soi ⟨255, SOI, 0⟩,
          .app0 ⟨255, APP0, 100, [0x4a, 0x46, 0x49, 0x46, 0], [1, 1], 0, 1, 1, 0, 0, none, 2⟩,
          .eoi ⟨255, EOI, 20⟩], true⟩ ∧
    (Entry.eoi ⟨255, EOI, 20⟩).Pos + (Entry.eoi ⟨255, EOI, 20⟩).Len < 23 ∧
    (⟨"a.jpg", [.soi ⟨255, SOI, 0⟩,
          .app0 ⟨255, APP0, 100, [0x4a, 0x46, 0x49, 0x46, 0], [1, 1], 0, 1, 1, 0, 0, none, 2⟩,
          .eoi ⟨255, EOI, 20⟩], true⟩ : Exif).SectionAt 23
      = some (.app0 ⟨255, APP0, 100, [0x4a, 0x46, 0x49, 0x46, 0], [1, 1], 0, 1, 1, 0, 0, none,
          2⟩) := by
  decide

/-- Claim C18, amended: in a successfully loaded container whose last entry is
`last`, `SectionAt o` is `nil` for every offset `o` that is greater than
`last.Pos + last.Len` and greater than `Pos + Len` of every application segment
0 of the container; the second condition follows from the first when every
application segment 0 declares a length of at most `16 + 3 * x * y`. -/
theorem C18_section_at_past_the_end (fuel : Nat) (path : String) (B : List Byte) (x : Exif)
    (init : List Entry) (last : Entry) (o : Nat)
    (h : Exif.Load fuel Exif.zero path B = .done x) (hx : x.Entries = init ++ [last])
    (ho : last.Pos + last.Len < o) :
    ((∀ a, Entry.app0 a ∈ x.Entries → a.pos + (a.Length + 2) < o) →
      x.SectionAt o = none) ∧
    ((∀ a, Entry.app0 a ∈ x.Entries →
        a.Length ≤ 16 + 3 * a.Xthumbnail.val * a.Ythumbnail.val) →
      x.SectionAt o = none) := by
  obtain ⟨ht, hread, es, q, hes, hq⟩ := Load_tiled h
  have hlast : last = .eoi ⟨255, EOI, q⟩ ∧ init = es := by
    rw [hx] at hes
    have := List.append_inj' hes rfl
    simp only [List.cons.injEq, and_true] at this
    exact ⟨this.2, this.1⟩
  obtain ⟨hl, hi⟩ := hlast
  subst hl hi
  have hend : ∀ e ∈ x.Entries, e.Pos + e.bytes.length ≤ q + 2 := by
    intro e he
    have := (Tiled_mem ht e he).2
    have hb : (Entry.eoi ⟨255, EOI, q⟩).bytes.length = 2 := by
      rw [Entry.bytes_eq]
      rfl
    rw [hx, bytesOf_append, bytesOf_singleton, List.length_append, hb] at this
    omega
  have ho2 : q + 2 < o := ho
  have key : (∀ a, Entry.app0 a ∈ x.Entries → a.pos + (a.Length + 2) < o) →
      x.SectionAt o = none := by
    intro happ
    rw [SectionAt_eq_none]
    intro e he hc
    obtain ⟨_, hc2⟩ := hc
    by_cases hne : ∀ a, e ≠ .app0 a
    · obtain ⟨p, here, hr⟩ := hread e he
      have := declared_le_bytes hr hne
      have := hend e he
      omega
    · simp only [ne_eq, not_forall, not_not] at hne
      obtain ⟨a, ha⟩ := hne
      subst ha
      have := happ a he
      have hc3 : o ≤ a.pos + (a.Length + 2) := hc2
      omega
  refine ⟨key, ?_⟩
  intro happ
  apply key
  intro a ha
  obtain ⟨p, here, hr⟩ := hread _ ha
  have := len_le_bytes hr (fun a2 ha2 => happ a2 (ha2 ▸ ha))
  have := hend _ ha
  have hlen : (Entry.app0 a).Len = a.Length + 2 := rfl
  have hpos : (Entry.app0 a).Pos = a.pos := rfl
  omega

theorem C18_section_at_past_the_end_witness :
    ((∀ a, Entry.app0 a ∈ (⟨"a.jpg", [.soi ⟨255, SOI, 0⟩, .eoi ⟨255, EOI, 2⟩], true⟩ :
          Exif).Entries → a.pos + (a.Length + 2) < 5) →
      (⟨"a.jpg", [.soi ⟨255, SOI, 0⟩, .eoi ⟨255, EOI, 2⟩], true⟩ : Exif).SectionAt 5 = none) ∧
    ((∀ a, Entry.app0 a ∈ (⟨"a.jpg", [.soi ⟨255, SOI, 0⟩, .eoi ⟨255, EOI, 2⟩], true⟩ :
          Exif).Entries → a.Length ≤ 16 + 3 * a.Xthumbnail.val * a.Ythumbnail.val) →
      (⟨"a.jpg", [.soi ⟨255, SOI, 0⟩, .eoi ⟨255, EOI, 2⟩], true⟩ : Exif).SectionAt 5 = none) :=
  C18_section_at_past_the_end 2 "a.jpg" [0xff, 0xd8, 0xff, 0xd9] _ [.soi ⟨255, SOI, 0⟩]
    (.eoi ⟨255, EOI, 2⟩) 5 (by decide) rfl (by decide)

/-- Every entry of a run that reaches an end-of-image entry was read at the
offset it records, and the position moved by the number of bytes it writes. -/
theorem Walk.mem_step {B : List Byte} {p q pF : Nat} {es : List Entry} {last : Entry}
    (hw : Walk B p es q) (hl : anEntry.ReadEntry B q = .ok (last, pF))
    (hid : last.GetId = EOI)
    (hinv : ∀ t, B = 255 :: SOI :: t → p = 0 ∨ ∃ es0, Walk B 2 es0 p) :
    ∀ e ∈ es, anEntry.ReadEntry B e.Pos = .ok (e, e.Pos + e.bytes.length) := by
  induction hw with
  | nil p => intro e he; cases he
  | @cons p q r e0 es h hne hw ih =>
    obtain ⟨⟨hn1, _⟩, hpos, hinv2⟩ := good_step h hne hw hl hid hinv
    intro e he
    rcases List.mem_cons.mp he with h1 | h1
    · subst h1
      rw [hpos, ← hn1]
      exact h
    · exact ih hl hinv2 e h1

theorem Load_mem_step {fuel : Nat} {path : String} {B : List Byte} {x : Exif}
    (h : Exif.Load fuel Exif.zero path B = .done x) :
    ∀ e ∈ x.Entries, anEntry.ReadEntry B e.Pos = .ok (e, e.Pos + e.bytes.length) := by
  obtain ⟨es, q, hw, hl, hx, _⟩ := Load_done h
  subst hx
  intro e he
  rcases List.mem_append.mp he with h1 | h1
  · exact Walk.mem_step hw hl rfl (fun _ _ => Or.inl rfl) e h1
  · simp only [List.mem_singleton] at h1
    subst h1
    have hb : (Entry.eoi ⟨255, EOI, q⟩).bytes.length = 2 := by
      rw [Entry.bytes_eq]
      rfl
    rw [hb]
    exact hl

theorem payloadSize_of_ge {L : Nat} (h2 : 2 ≤ L) (hL : L < 65536) : payloadSize L = L - 2 := by
  unfold payloadSize
  rw [if_neg (by omega)]
  omega

/-- The declared length of a Huffman-table entry that the reader returns. -/
theorem dht_length {B : List Byte} {pos here : Nat} {a : DhtEntry}
    (h : DhtEntry.Read B pos = .ok (a, here)) :
    @Eq Nat a.Length (19 + sumOfSymbols a.NumOfSymbols) := by
  obtain ⟨tmp, d, hl, hrd, htInfo, data1, hd, h16, hsum, hdat, he⟩ := DhtEntry_Read_ok h
  subst he
  obtain ⟨h1, h2⟩ := payload_size hl hrd
  rw [hd] at h1
  simp only [List.length_cons] at h1
  simp only [List.length_drop] at hdat
  show @Eq Nat tmp.Len (19 + sumOfSymbols (data1.take 16))
  unfold payloadSize at h1
  split at h1 <;> omega

/-- Claim C15, as stated, fails: on this stream the application segment 0
declares the length 0, `Load` succeeds, and the 14 bytes of the entry behind
its length field are not `Length - 2` bytes. -/
theorem C15_counterexample :
    Exif.Load 3 Exif.zero "a.jpg"
        [0xff, 0xd8, 0xff, 0xe0, 0, 0, 0x4a, 0x46, 0x49, 0x46, 0, 1, 1, 0, 0, 1, 0, 1, 0, 0,
          0xff, 0xd9]
      = .done ⟨"a.jpg", [.soi ⟨255, SOI, 0⟩,
          .app0 ⟨255, APP0, 0, [0x4a, 0x46, 0x49, 0x46, 0], [1, 1], 0, 1, 1, 0, 0, none, 2⟩,
          .eoi ⟨255, EOI, 20⟩], true⟩ ∧
    ¬ (2 ≤ (⟨255, APP0, 0, [0x4a, 0x46, 0x49, 0x46, 0], [1, 1], 0, 1, 1, 0, 0, none, 2⟩ :
        App0Entry).Length) ∧
    (Entry.app0 ⟨255, APP0, 0, [0x4a, 0x46, 0x49, 0x46, 0], [1, 1], 0, 1, 1, 0, 0, none,
        2⟩).bytes.length - 4 = 14 := by
  decide

/-- Claim C15, amended: every entry of a successfully loaded container was
read at its offset and moved the position by the number of bytes it writes.
For an opaque application, quantization-table or frame-header entry with a
declared length of at least 2 that number is `Len = Length + 2`, so `Length - 2`
bytes follow the length field; a Huffman-table entry always has a declared
length of at least 19 and the same holds; for a start-of-scan entry with a
declared length of at least 2 the number is `Len` plus the size of the image;
for an application segment 0 it is `18 + 3 * x * y`, whatever the declared
length. -/
theorem C15_declared_length_and_advance (fuel : Nat) (path : String) (B : List Byte)
    (x : Exif) (e : Entry) (h : Exif.Load fuel Exif.zero path B = .done x)
    (he : e ∈ x.Entries) :
    anEntry.ReadEntry B e.Pos = .ok (e, e.Pos + e.bytes.length) ∧
    match e with
    | .soi _ => e.bytes.length = e.Len
    | .app0 a => e.bytes.length = 18 + 3 * a.Xthumbnail.val * a.Ythumbnail.val
    | .appn a => 2 ≤ a.Length → e.bytes.length - 4 = a.Length - 2 ∧ e.bytes.length = e.Len
    | .dqt a => 2 ≤ a.Length → e.bytes.length - 4 = a.Length - 2 ∧ e.bytes.length = e.Len
    | .sof a => 2 ≤ a.Length → e.bytes.length - 4 = a.Length - 2 ∧ e.bytes.length = e.Len
    | .dht a => 19 ≤ a.Length ∧ e.bytes.length - 4 = a.Length - 2 ∧ e.bytes.length = e.Len
    | .sos a =>
      2 ≤ a.Length →
        e.bytes.length - 4 - a.Image.length = a.Length - 2 ∧
        e.bytes.length = e.Len + a.Image.length
    | .eoi _ => e.bytes.length = e.Len := by
  have hstep := Load_mem_step h e he
  refine ⟨hstep, ?_⟩
  have hb := entry_bytes_length hstep
  have key : ∀ (L n : Nat), n = 4 + payloadSize L → L < 65536 → 2 ≤ L →
      n - 4 = L - 2 ∧ n = L + 2 := by
    intro L n hn hL h2
    rw [payloadSize_of_ge h2 hL] at hn
    omega
  cases e with
  | soi a => exact hb
  | eoi a => exact hb
  | app0 a => exact hb
  | appn a => exact fun h2 => key _ _ hb.1 hb.2 h2
  | dqt a => exact fun h2 => key _ _ hb.1 hb.2 h2
  | sof a => exact fun h2 => key _ _ hb.1 hb.2 h2
  | dht a =>
    have hlen := dht_length (ReadEntry_variant hstep)
    have h19 : @LE.le Nat _ 19 a.Length := by omega
    exact ⟨h19, key _ _ hb.1 hb.2 (by omega)⟩
  | sos a =>
    intro h2
    obtain ⟨h3, h4⟩ := hb
    have h2n : @LE.le Nat _ 2 a.Length := h2
    rw [payloadSize_of_ge h2n h4] at h3
    constructor
    · show @Eq Nat _ _
      omega
    · show @Eq Nat _ (a.Length + 2 + a.Image.length)
      omega

theorem C15_declared_length_and_advance_witness :
    anEntry.ReadEntry [0xff, 0xd8, 0xff, 0xe1, 0, 3, 7, 0xff, 0xd9]
        (Entry.appn ⟨255, APP1, 3, some [7], 2⟩).Pos
      = .ok (.appn ⟨255, APP1, 3, some [7], 2⟩,
          (Entry.appn ⟨255, APP1, 3, some [7], 2⟩).Pos
            + (Entry.appn ⟨255, APP1, 3, some [7], 2⟩).bytes.length) ∧
    (2 ≤ (⟨255, APP1, 3, some [7], 2⟩ : AppnEntry).Length →
      (Entry.appn ⟨255, APP1, 3, some [7], 2⟩).bytes.length - 4
          = (⟨255, APP1, 3, some [7], 2⟩ : AppnEntry).Length - 2 ∧
        (Entry.appn ⟨255, APP1, 3, some [7], 2⟩).bytes.length
          = (Entry.appn ⟨255, APP1, 3, some [7], 2⟩).Len) :=
  C15_declared_length_and_advance 3 "a.jpg" [0xff, 0xd8, 0xff, 0xe1, 0, 3, 7, 0xff, 0xd9]
    ⟨"a.jpg", [.soi ⟨255, SOI, 0⟩, .appn ⟨255, APP1, 3, some [7], 2⟩, .eoi ⟨255, EOI, 7⟩], true⟩
    (.appn ⟨255, APP1, 3, some [7], 2⟩) (by decide) (by decide)

/-- Claim C14 (refuted on the code): a start-of-scan segment of declared length
1 is read with a payload of 65535 bytes, because the size `Len - 2` of the
payload buffer is a `uint16` difference. On the stream `FF D8 FF DA 00 01`,
65535 zero bytes (the component count 0 and 65534 more), no entropy bytes,
`FF D9`, `Load` succeeds; the scan entry has offset 2, declared length 1 and an
empty image, and the end-of-image entry that follows it has offset 65541, not
`2 + 1 + 2 + 0`. -/
theorem C14_scan_of_length_one :
    Exif.Load 3 Exif.zero "a.jpg"
        (255 :: SOI :: 255 :: SOS :: 0 :: 1 ::
          (((0 : Byte) :: List.replicate 65534 0) ++ [] ++ [255, EOI]))
      = .done ⟨"a.jpg",
          [.soi ⟨255, SOI, 0⟩,
            .sos ⟨255, SOS, 1, 0, [], some (List.replicate 65534 0), [], 2⟩,
            .eoi ⟨255, EOI, 65541⟩], true⟩ ∧
    (Entry.eoi ⟨255, EOI, 65541⟩).Pos
      ≠ (Entry.sos ⟨255, SOS, 1, 0, [], some (List.replicate 65534 0), [], 2⟩).Pos
        + (⟨255, SOS, 1, 0, [], some (List.replicate 65534 0), [], 2⟩ : SosEntry).Length + 2
        + (⟨255, SOS, 1, 0, [], some (List.replicate 65534 0), [], 2⟩ : SosEntry).Image.length := by
  have hlen : ((0 : Byte) :: List.replicate 65534 0).length
      = (beWord 0 1 + 65536 - 2) % 65536 := by
    rw [List.length_cons, List.length_replicate]
    decide
  have hl := @load_scan_stream 0 1 0 (List.replicate 65534 0) [] [] (List.replicate 65534 0)
    (by decide) hlen rfl rfl 0 "a.jpg"
  have hw : beWord 0 1 = 1 := by decide
  have hp : 2 + 4 + ((0 : Byte) :: List.replicate 65534 0).length + ([] : List Byte).length
      = 65541 := by
    rw [List.length_cons, List.length_replicate]
    rfl
  rw [hw, hp] at hl
  refine ⟨hl, ?_⟩
  show (65541 : Nat) ≠ 2 + 1 + 2 + 0
  decide

/-! ### What holds of a start-of-scan entry in a loaded container -/

theorem scanLoop_image_aux {s : List Byte} {pos sz : Nat} {ox : Byte} {img image : List Byte}
    {here : Nat} (hsz : 1 ≤ sz) (h : scanLoop s pos sz ox img = .ok (image, here)) :
    ∃ tail, image = img ++ tail ∧ hasEoiPair tail = false ∧ (tail = [] ∨ ∃ t, tail = ox :: t) := by
  induction s generalizing pos sz ox img with
  | nil => simp [scanLoop] at h
  | cons b rest ih =>
    unfold scanLoop at h
    rw [if_neg (by omega)] at h
    split at h
    · simp only [Res.ok.injEq, Prod.mk.injEq] at h
      exact ⟨[], by simp [h.1], rfl, Or.inl rfl⟩
    · rename_i hnot
      obtain ⟨tail, i1, i2, i3⟩ := ih (by omega) h
      refine ⟨ox :: tail, by rw [i1]; simp, ?_, Or.inr ⟨tail, rfl⟩⟩
      rcases i3 with i3 | ⟨t, i3⟩
      · subst i3
        rfl
      · subst i3
        simp only [hasEoiPair, Bool.or_eq_false_iff, Bool.and_eq_false_iff,
          beq_eq_false_iff_ne, ne_eq]
        refine ⟨?_, i2⟩
        by_cases hox : ox = 255
        · exact Or.inr (fun hb => hnot ⟨hox, hb⟩)
        · exact Or.inl hox

/-- The image that the scan loop returns holds no pair `FF D9`. -/
theorem scanLoop_image_clean {s : List Byte} {pos : Nat} {ox : Byte} {image : List Byte}
    {here : Nat} (h : scanLoop s pos 0 ox [] = .ok (image, here)) :
    hasEoiPair image = false := by
  match s with
  | [] => simp [scanLoop] at h
  | b :: rest =>
    unfold scanLoop at h
    rw [if_pos rfl] at h
    obtain ⟨tail, i1, i2, _⟩ := scanLoop_image_aux (Nat.le_refl 1) h
    simp only [List.nil_append] at i1
    rw [i1]
    exact i2

/-- In a run, nothing but the end of the run follows a start-of-scan entry: the
position behind it holds `FF D9`, which is read as an end-of-image entry. -/
theorem Walk.sos_last {B : List Byte} {p q : Nat} {es : List Entry} (hw : Walk B p es q) :
    ∀ (pre : List Entry) (a : SosEntry) (post : List Entry), es = pre ++ .sos a :: post →
      post = [] ∧ hasEoiPair a.Image = false := by
  induction hw with
  | nil p =>
    intro pre a post h
    exact absurd (congrArg List.length h) (by simp; omega)
  | @cons p q r e es h hne hw ih =>
    intro pre a post hes
    match pre, hes with
    | [], hes =>
      simp only [List.nil_append, List.cons.injEq] at hes
      obtain ⟨he, hpost⟩ := hes
      subst he hpost
      have hv : SosEntry.Read B p = .ok (a, q) := ReadEntry_variant h
      obtain ⟨_, _, rest, hd⟩ := SosEntry_Read_step hv
      obtain ⟨_, _, _, _, _, _, _, _, _, image, _, _, hs, ha⟩ := SosEntry_Read_ok hv
      have hclean : hasEoiPair a.Image = false := by
        subst ha
        exact scanLoop_image_clean hs
      refine ⟨?_, hclean⟩
      cases hw with
      | nil _ => rfl
      | cons h2 hne2 _ =>
        rw [ReadEntry_at_eoi hd] at h2
        simp only [Res.ok.injEq, Prod.mk.injEq] at h2
        rw [← h2.1] at hne2
        exact absurd rfl hne2
    | e2 :: pre2, hes =>
      simp only [List.cons_append, List.cons.injEq] at hes
      exact ih pre2 a post hes.2

/-- In a successfully loaded container a start-of-scan entry is followed by the
end-of-image entry and by nothing else; that entry starts where the bytes of
the scan entry end, and the image holds no pair `FF D9`. -/
theorem sos_then_eoi {fuel : Nat} {path : String} {B : List Byte} {x : Exif}
    {pre post : List Entry} {a : SosEntry}
    (h : Exif.Load fuel Exif.zero path B = .done x)
    (hx : x.Entries = pre ++ .sos a :: post) :
    post = [.eoi ⟨255, EOI, a.pos + (Entry.sos a).bytes.length⟩] ∧
    hasEoiPair a.Image = false := by
  obtain ⟨ht, _, _⟩ := Load_tiled h
  obtain ⟨es, q, hw, _, hxe, _⟩ := Load_done h
  subst hxe
  simp only at hx ht
  have hpost : post ≠ [] := by
    intro hp
    subst hp
    have := congrArg List.getLast? hx
    simp at this
  obtain ⟨post0, l, hl⟩ : ∃ post0 l, post = post0 ++ [l] :=
    ⟨post.dropLast, post.getLast hpost, (List.dropLast_append_getLast hpost).symm⟩
  subst hl
  have hx2 : es ++ [Entry.eoi ⟨255, EOI, q⟩] = (pre ++ .sos a :: post0) ++ [l] := by
    rw [hx]
    simp
  obtain ⟨hes, hl2⟩ := List.append_inj' hx2 rfl
  simp only [List.cons.injEq, and_true] at hl2
  subst hl2
  obtain ⟨hp0, hclean⟩ := hw.sos_last pre a post0 hes
  subst hp0
  refine ⟨?_, hclean⟩
  rw [hx] at ht
  have ht2 : Tiled 0 ((pre ++ [.sos a]) ++ .eoi ⟨255, EOI, q⟩ :: []) := by
    simpa using ht
  have ht3 : Tiled 0 (pre ++ .sos a :: [.eoi ⟨255, EOI, q⟩]) := by
    simpa using ht
  obtain ⟨h1, _⟩ := Tiled_split ht2
  obtain ⟨h2, _⟩ := Tiled_split ht3
  rw [bytesOf_append, bytesOf_singleton, List.length_append] at h1
  have hq : q = a.pos + (Entry.sos a).bytes.length := by
    have h1n : q = 0 + ((bytesOf pre).length + (Entry.sos a).bytes.length) := h1
    have h2n : a.pos = 0 + (bytesOf pre).length := h2
    omega
  rw [hq]
  rfl

/-! ### The encoder and the binary primitives -/

/-- Claim C22 (refuted on the code): `SaveTo` does not return the error of a
failed segment write. It returns `nil` for every container and every sink;
with a sink that accepts one byte only, the `Write` of the start-of-image
entry fails with a short write, `SaveTo` goes on to the next entry and
reports success with one byte written. -/
theorem C22_save_drops_write_error :
    (∀ (x : Exif) (fd : Writer), (x.SaveTo fd).2 = none) ∧
    (Entry.soi ⟨255, SOI, 0⟩).Write ⟨[], some 1⟩ = (⟨[255], some 0⟩, some .shortWrite) ∧
    (⟨"a.jpg", [.soi ⟨255, SOI, 0⟩, .eoi ⟨255, EOI, 2⟩], true⟩ : Exif).SaveTo ⟨[], some 1⟩
      = (⟨[255], some 0⟩, none) := by
  refine ⟨fun _ _ => rfl, ?_, ?_⟩ <;> decide

/-- Claim C24: `Inject` returns no error and the container it was given: the
same path, the same entries in the same order, the same `NoDataLeft`; so
every field, payload and offset of every entry is as before. -/
theorem C24_inject_is_a_no_op (x : Exif) (xif : ExifData) :
    (x.Inject xif).2 = none ∧ (x.Inject xif).1 = x ∧
    (x.Inject xif).1.Entries = x.Entries ∧
    (x.Inject xif).1.Entries.map Entry.Pos = x.Entries.map Entry.Pos ∧
    (x.Inject xif).1.Entries.map Entry.GetData = x.Entries.map Entry.GetData :=
  ⟨rfl, rfl, rfl, rfl, rfl⟩

/-- The peek on an open file is the peek that the readers use, with the
position it leaves. -/
theorem File_ReadStructHere_ok {B : List Byte} {p n : Nat} {bs : List Byte}
    (h : ReadStructHere B p n = .ok bs) :
    File.ReadStructHere ⟨B, p⟩ n = (⟨B, p⟩, .ok bs) := by
  unfold ReadStructHere at h
  unfold File.ReadStructHere File.binaryRead
  cases hr : readFull B p n with
  | ok r =>
    obtain ⟨bs2, here⟩ := r
    rw [hr] at h
    cases h
    simp only [hr, File.Seek, Tell]
  | error e => rw [hr] at h; cases h
  | panic => rw [hr] at h; cases h

/-- Claim C25: when `n` bytes are left at position `p`, the peek returns no
error and exactly the `n` bytes found at `p`, and the position of the file is
`p` again afterwards. The bytes are decoded big-endian: the peek of a segment
header at four bytes `a b c d` gives the prefix `a`, the marker `b` and the
length `256 * c + d`. -/
theorem C25_peek_keeps_position (B : List Byte) (p n : Nat) (h : p + n ≤ B.length) :
    File.ReadStructHere ⟨B, p⟩ n = (⟨B, p⟩, .ok ((B.drop p).take n)) ∧
    ReadStructHere B p n = .ok ((B.drop p).take n) ∧
    ((B.drop p).take n).length = n ∧
    (∀ i, i < n → ((B.drop p).take n).get? i = B.get? (p + i)) ∧
    (∀ a b c d rest, B.drop p = a :: b :: c :: d :: rest →
      lookupHeader.IsValid ⟨a, b, 256 * c.val + d.val⟩ = true →
      lookupHeader.Read B p = .ok ⟨a, b, 256 * c.val + d.val⟩) := by
  have hp : ReadStructHere B p n = .ok ((B.drop p).take n) := by
    unfold ReadStructHere readFull
    rw [if_pos h]
  refine ⟨File_ReadStructHere_ok hp, hp, ?_, ?_, ?_⟩
  · simp only [List.length_take, List.length_drop]
    omega
  · intro i hi
    rw [List.get?_eq_getElem?, List.get?_eq_getElem?, List.getElem?_take_of_lt hi,
      List.getElem?_drop]
  · intro a b c d rest hd hv
    have hpos : p ≤ B.length := Nat.le_of_lt (drop_length_le hd)
    have h4 : ReadStructHere B p 4 = .ok [a, b, c, d] :=
      @ReadStructHere_of_drop B p [a, b, c, d] rest hd hpos
    unfold lookupHeader.Read
    rw [h4]
    simp only [List.getD_cons_zero, List.getD_cons_succ, beWord]
    rw [hv]
    rfl

theorem C25_peek_keeps_position_witness :
    File.ReadStructHere ⟨[0xff, 0xd8, 0xff, 0xe1, 0, 3, 7, 0xff, 0xd9], 2⟩ 4
      = (⟨[0xff, 0xd8, 0xff, 0xe1, 0, 3, 7, 0xff, 0xd9], 2⟩, .ok [0xff, 0xe1, 0, 3]) ∧
    lookupHeader.Read [0xff, 0xd8, 0xff, 0xe1, 0, 3, 7, 0xff, 0xd9] 2 = .ok ⟨255, APP1, 3⟩ :=
  ⟨(C25_peek_keeps_position [0xff, 0xd8, 0xff, 0xe1, 0, 3, 7, 0xff, 0xd9] 2 4 (by decide)).1,
   (C25_peek_keeps_position [0xff, 0xd8, 0xff, 0xe1, 0, 3, 7, 0xff, 0xd9] 2 4
      (by decide)).2.2.2.2 255 APP1 0 3 [7, 0xff, 0xd9] rfl (by decide)⟩

/-- Claim C26: for a word `v < 2^16`, `WriteWordBE` hands the sink the two
bytes `v / 256`, `v % 256` and `WriteWordLE` the two bytes `v % 256`,
`v / 256`; a sink without limit appends them; `GetWordBE` and `GetWordLE`
read `v` back from the bytes written. -/
theorem C26_word_round_trip (v : Nat) (hv : v < 65536) (fd : Writer) :
    WriteWordBE fd v = fd.Write [toByte (v / 256), toByte v] ∧
    WriteWordLE fd v = fd.Write [toByte v, toByte (v / 256)] ∧
    (toByte (v / 256)).val = v / 256 ∧ (toByte v).val = v % 256 ∧
    (WriteWordBE ⟨fd.buf, none⟩ v).1.buf = fd.buf ++ [toByte (v / 256), toByte v] ∧
    (WriteWordLE ⟨fd.buf, none⟩ v).1.buf = fd.buf ++ [toByte v, toByte (v / 256)] ∧
    GetWordBE ((WriteWordBE Writer.create v).1.buf) = .ok v ∧
    GetWordLE ((WriteWordLE Writer.create v).1.buf) = .ok v := by
  have h1 : (toByte (v / 256)).val = v / 256 := by
    show (v / 256) % 256 = v / 256
    omega
  have h2 : (toByte v).val = v % 256 := rfl
  refine ⟨rfl, rfl, h1, h2, rfl, rfl, ?_, ?_⟩
  · show Res.ok (256 * (toByte (v / 256)).val + (toByte v).val) = Res.ok v
    rw [h1, h2]
    congr 1
    omega
  · show Res.ok ((toByte v).val + 256 * (toByte (v / 256)).val) = Res.ok v
    rw [h1, h2]
    congr 1
    omega

theorem C26_word_round_trip_witness :
    (WriteWordBE Writer.create 0x1234).1.buf = [0x12, 0x34] ∧
    (WriteWordLE Writer.create 0x1234).1.buf = [0x34, 0x12] ∧
    GetWordBE ((WriteWordBE Writer.create 0x1234).1.buf) = .ok 0x1234 ∧
    GetWordLE ((WriteWordLE Writer.create 0x1234).1.buf) = .ok 0x1234 :=
  ⟨(C26_word_round_trip 0x1234 (by decide) Writer.create).2.2.2.2.1,
   (C26_word_round_trip 0x1234 (by decide) Writer.create).2.2.2.2.2.1,
   (C26_word_round_trip 0x1234 (by decide) Writer.create).2.2.2.2.2.2.1,
   (C26_word_round_trip 0x1234 (by decide) Writer.create).2.2.2.2.2.2.2⟩

/-! ### Validity of the entries of a loaded container -/

set_option maxRecDepth 100000 in
theorem sof_case_valid : ∀ b : Byte, isSofCase b = true →
    ((255 : Byte) == 255 &&
      (b == SOF0 || b == SOF1 || b == SOF2 || b == SOF3 || b == SOF5 || b == SOF6 ||
       b == SOF7 || b == SOF9 || b == SOFa || b == SOFb || b == SOFd || b == SOFe ||
       b == SOFf)) = true := by
  decide

/-- Every entry that `ReadEntry` returns passes the validity check of its
variant. -/
theorem ReadEntry_valid {B : List Byte} {pos here : Nat} {e : Entry}
    (h : anEntry.ReadEntry B pos = .ok (e, here)) : e.IsValid = true := by
  obtain ⟨b, hd, hv⟩ := ReadEntry_ok_drop h
  have hle := ReadEntry_ok_le h
  rw [ReadEntry_of_drop hd] at h
  split at h
  · cases h
  split at h
  · obtain ⟨a, hr, he⟩ := Res.entry_ok h
    obtain ⟨h1, _, _⟩ := SoiEntry_Read_ok (by omega) hr
    subst he h1
    rfl
  split at h
  · obtain ⟨a, hr, he⟩ := Res.entry_ok h
    obtain ⟨bs, _, hval, hc⟩ := App0Entry_Read_ok hr
    subst he
    rcases hc with ⟨_, h1, _⟩ | ⟨_, data, _, h1⟩
    · subst h1
      exact hval
    · subst h1
      exact hval
  split at h
  · obtain ⟨a, hr, he⟩ := Res.entry_ok h
    obtain ⟨_, _, _, _, _, hval⟩ := AppnEntry_Read_ok hr
    subst he
    exact hval
  split at h
  · obtain ⟨a, hr, he⟩ := Res.entry_ok h
    obtain ⟨_, _, _, _, _, hval⟩ := DqtEntry_Read_ok hr
    subst he
    exact hval
  split at h
  · rename_i hb
    obtain ⟨a, hr, he⟩ := Res.entry_ok h
    obtain ⟨tmp, d, hl, _, _, _, _, _, _, _, _, _, h1⟩ := SofEntry_Read_ok hr
    obtain ⟨hx, hi⟩ := header_id hl hd
    subst he h1
    show SofEntry.IsValid _ = true
    simp only [SofEntry.IsValid, hx, hi]
    exact sof_case_valid b hb
  split at h
  · rename_i hb
    obtain ⟨a, hr, he⟩ := Res.entry_ok h
    obtain ⟨tmp, d, hl, _, _, _, _, _, _, _, h1⟩ := DhtEntry_Read_ok hr
    obtain ⟨hx, hi⟩ := header_id hl hd
    subst he h1
    show DhtEntry.IsValid _ = true
    simp only [DhtEntry.IsValid, hx, hi, hb]
    rfl
  split at h
  · rename_i hb
    obtain ⟨a, hr, he⟩ := Res.entry_ok h
    obtain ⟨tmp, d, _, hl, _, _, _, _, _, _, _, _, _, h1⟩ := SosEntry_Read_ok hr
    obtain ⟨hx, hi⟩ := header_id hl hd
    subst he h1
    show SosEntry.IsValid _ = true
    simp only [SosEntry.IsValid, hx, hi, hb]
    rfl
  split at h
  · obtain ⟨a, hr, he⟩ := Res.entry_ok h
    obtain ⟨_, h1, _⟩ := EoiEntry_Read_ok hd hr
    subst he h1
    rfl
  · cases h

theorem bytes_take_two (e : Entry) (hv : e.IsValid = true) : e.bytes.take 2 = [255, e.GetId] := by
  rw [Entry.bytes_eq]
  cases e <;>
    simp only [Entry.IsValid, SoiEntry.IsValid, App0Entry.IsValid, AppnEntry.IsValid,
      DqtEntry.IsValid, SofEntry.IsValid, DhtEntry.IsValid, SosEntry.IsValid, EoiEntry.IsValid,
      Bool.and_eq_true, beq_iff_eq] at hv <;>
    simp [Entry.GetId, hv]

/-- Claim C23: every entry of a container that `Load` filled successfully
starts, in the stream at its recorded offset and in the bytes it writes, with
the byte `FF` followed by its marker; the marker belongs to the recognised
set; and the validity check of its variant answers true. -/
theorem C23_segments_are_valid (fuel : Nat) (path : String) (B : List Byte) (x : Exif)
    (h : Exif.Load fuel Exif.zero path B = .done x) :
    ∀ e ∈ x.Entries,
      (B.drop e.Pos).take 2 = [255, e.GetId] ∧ e.bytes.take 2 = [255, e.GetId] ∧
      e.GetId ∈ markerSet ∧ anEntry.IsValid ⟨255, e.GetId⟩ = true ∧ e.IsValid = true := by
  intro e he
  have hr := Load_mem_step h e he
  obtain ⟨b, hd, hv⟩ := ReadEntry_ok_drop hr
  have hid := ReadEntry_id hd hr
  have hval := ReadEntry_valid hr
  subst hid
  refine ⟨?_, bytes_take_two e hval, (isValid_markerSet _).1 hv, hv, hval⟩
  rw [hd]
  rfl

theorem C23_segments_are_valid_witness :
    (([0xff, 0xd8, 0xff, 0xe1, 0, 3, 7, 0xff, 0xd9] : List Byte).drop
        (Entry.appn ⟨255, APP1, 3, some [7], 2⟩).Pos).take 2
      = [255, (Entry.appn ⟨255, APP1, 3, some [7], 2⟩).GetId] ∧
    (Entry.appn ⟨255, APP1, 3, some [7], 2⟩).bytes.take 2
      = [255, (Entry.appn ⟨255, APP1, 3, some [7], 2⟩).GetId] ∧
    (Entry.appn ⟨255, APP1, 3, some [7], 2⟩).GetId ∈ markerSet ∧
    anEntry.IsValid ⟨255, (Entry.appn ⟨255, APP1, 3, some [7], 2⟩).GetId⟩ = true ∧
    (Entry.appn ⟨255, APP1, 3, some [7], 2⟩).IsValid = true :=
  C23_segments_are_valid 3 "a.jpg" [0xff, 0xd8, 0xff, 0xe1, 0, 3, 7, 0xff, 0xd9]
    ⟨"a.jpg", [.soi ⟨255, SOI, 0⟩, .appn ⟨255, APP1, 3, some [7], 2⟩, .eoi ⟨255, EOI, 7⟩],
      true⟩
    (by decide) (.appn ⟨255, APP1, 3, some [7], 2⟩)
    (List.mem_cons_of_mem _ (List.mem_cons_self _ _))

/-! ### The entries tile the part of the stream that was read -/

theorem two_le_bytes (e : Entry) : 2 ≤ e.bytes.length := by
  rw [Entry.bytes_eq]
  cases e <;> simp only [List.length_append, List.length_cons, List.length_nil] <;> omega

/-- Claim C28: in a container that `Load` filled successfully the first entry
has offset 0; of two entries that follow each other the second has the offset
of the first plus the number of bytes the first writes, which is larger; and
the bytes the entries write, in order, are the part of the stream that was
read: a prefix of the stream, the whole of it exactly when `NoDataLeft`. -/
theorem C28_offsets_tile_the_stream (fuel : Nat) (path : String) (B : List Byte) (x : Exif)
    (h : Exif.Load fuel Exif.zero path B = .done x) :
    x.Entries.head?.map Entry.Pos = some 0 ∧
    (∀ pre a b post, x.Entries = pre ++ a :: b :: post →
      b.Pos = a.Pos + a.bytes.length ∧ a.Pos < b.Pos ∧ a.Pos = (bytesOf pre).length) ∧
    Tiled 0 x.Entries ∧
    bytesOf x.Entries = B.take (bytesOf x.Entries).length ∧
    (bytesOf x.Entries).length ≤ B.length ∧
    x.NoDataLeft = decide ((bytesOf x.Entries).length = B.length) := by
  obtain ⟨ht, _, _⟩ := Load_tiled h
  obtain ⟨es, q, hw, hl, hx, _⟩ := Load_done h
  obtain ⟨hq, hB⟩ := Walk.tiles hw hl rfl (fun _ _ => Or.inl rfl)
  obtain ⟨_, _, hd⟩ := last_step hl rfl
  have hle := ReadEntry_ok_le hl
  have hbytes : bytesOf x.Entries = bytesOf es ++ [255, EOI] := by
    rw [hx, bytesOf_append, bytesOf_singleton, Entry.bytes_eq]
  have hlen : (bytesOf x.Entries).length = q + 2 := by
    rw [hbytes, List.length_append, hq]
    simp
  have hB2 : B = bytesOf x.Entries ++ B.drop (q + 2) := by
    rw [List.drop_zero, hd] at hB
    rw [hbytes, List.append_assoc]
    exact hB
  refine ⟨?_, ?_, ht, ?_, by omega, ?_⟩
  · cases hes : x.Entries with
    | nil => rw [hx] at hes; simp at hes
    | cons e rest =>
      rw [hes] at ht
      simp only [List.head?_cons, Option.map_some']
      rw [ht.1]
  · intro pre a b post hsplit
    rw [hsplit] at ht
    obtain ⟨_, h2⟩ := Tiled_append.1 ht
    obtain ⟨h3, h4, _⟩ := h2
    have := two_le_bytes a
    rw [Nat.zero_add] at h3
    refine ⟨?_, ?_, h3⟩
    · rw [h4, h3, Nat.zero_add]
    · rw [h4, h3, Nat.zero_add]
      omega
  · have h5 := congrArg (List.take (bytesOf x.Entries).length) hB2
    rw [List.take_left] at h5
    exact h5.symm
  · rw [hlen, hx]

theorem C28_offsets_tile_the_stream_witness :
    (⟨"a.jpg", [.soi ⟨255, SOI, 0⟩, .appn ⟨255, APP1, 3, some [7], 2⟩,
        .eoi ⟨255, EOI, 7⟩], false⟩ : Exif).Entries.head?.map Entry.Pos = some 0 ∧
    Tiled 0 (⟨"a.jpg", [.soi ⟨255, SOI, 0⟩, .appn ⟨255, APP1, 3, some [7], 2⟩,
        .eoi ⟨255, EOI, 7⟩], false⟩ : Exif).Entries ∧
    bytesOf (⟨"a.jpg", [.soi ⟨255, SOI, 0⟩, .appn ⟨255, APP1, 3, some [7], 2⟩,
        .eoi ⟨255, EOI, 7⟩], false⟩ : Exif).Entries
      = ([0xff, 0xd8, 0xff, 0xe1, 0, 3, 7, 0xff, 0xd9, 1, 2] : List Byte).take
          (bytesOf (⟨"a.jpg", [.soi ⟨255, SOI, 0⟩, .appn ⟨255, APP1, 3, some [7], 2⟩,
            .eoi ⟨255, EOI, 7⟩], false⟩ : Exif).Entries).length :=
  ⟨(C28_offsets_tile_the_stream 3 "a.jpg" [0xff, 0xd8, 0xff, 0xe1, 0, 3, 7, 0xff, 0xd9, 1, 2] _
      (by decide)).1,
   (C28_offsets_tile_the_stream 3 "a.jpg" [0xff, 0xd8, 0xff, 0xe1, 0, 3, 7, 0xff, 0xd9, 1, 2] _
      (by decide)).2.2.1,
   (C28_offsets_tile_the_stream 3 "a.jpg" [0xff, 0xd8, 0xff, 0xe1, 0, 3, 7, 0xff, 0xd9, 1, 2] _
      (by decide)).2.2.2.1⟩

/-! ### The frame header -/

set_option maxRecDepth 100000 in
theorem sof_valid_facts : ∀ id : Byte,
    SofEntry.IsValid ⟨255, id, 0, 0, 0, 0, 0, none, 0⟩ = true →
    anEntry.IsValid ⟨255, id⟩ = true := by
  decide

set_option maxRecDepth 100000 in
theorem sof_case_facts : ∀ id : Byte, isSofCase id = true →
    SofEntry.IsValid ⟨255, id, 0, 0, 0, 0, 0, none, 0⟩ = true ∧ id ≠ SOI ∧ id ≠ APP0 ∧
      isAppnCase id = false ∧ id ≠ DQT := by
  decide

theorem SofEntry_isValid_eq (a b : Byte) (L : Word) (p : Byte) (h w : Word) (c : Byte)
    (d : Option (List Byte)) (pos : Nat) :
    SofEntry.IsValid ⟨a, b, L, p, h, w, c, d, pos⟩
      = SofEntry.IsValid ⟨a, b, 0, 0, 0, 0, 0, none, 0⟩ := rfl

theorem SofEntry_Read_eval {B : List Byte} {pos : Nat} {id l1 l2 p0 h0 h1 w0 w1 c : Byte}
    {d3 rest : List Byte}
    (hd : B.drop pos
      = 255 :: id :: l1 :: l2 :: ((p0 :: h0 :: h1 :: w0 :: w1 :: c :: d3) ++ rest))
    (hid : SofEntry.IsValid ⟨255, id, 0, 0, 0, 0, 0, none, 0⟩ = true)
    (hne : beWord l1 l2 ≠ 0)
    (hlen : (p0 :: h0 :: h1 :: w0 :: w1 :: c :: d3).length
      = (beWord l1 l2 + 65536 - 2) % 65536) :
    SofEntry.Read B pos
      = .ok (⟨255, id, beWord l1 l2, p0, h0.val + 256 * h1.val, w0.val + 256 * w1.val, c,
              some d3, pos⟩, pos + 4 + (p0 :: h0 :: h1 :: w0 :: w1 :: c :: d3).length) := by
  have hv := sof_valid_facts id hid
  obtain ⟨hle, hrest⟩ := header_rest hd
  have hrd : (⟨255, id, beWord l1 l2⟩ : lookupHeader).ReadData B pos
      = .ok (some (p0 :: h0 :: h1 :: w0 :: w1 :: c :: d3),
          pos + 4 + (p0 :: h0 :: h1 :: w0 :: w1 :: c :: d3).length) :=
    lookupHeader_ReadData_eval hne hle hrest hlen
  unfold SofEntry.Read
  rw [lookupHeader_Read_eval hd hv]
  simp only [SofEntry_isValid_eq 255 id (beWord l1 l2) 0 0 0 0 none pos, hid, hrd]
  rfl

theorem ReadEntry_at_sof {B : List Byte} {pos : Nat} {id : Byte} {t : List Byte}
    (hd : B.drop pos = 255 :: id :: t) (hid : isSofCase id = true) :
    anEntry.ReadEntry B pos = (SofEntry.Read B pos).entry Entry.sof := by
  obtain ⟨hv, h1, h2, h3, h4⟩ := sof_case_facts id hid
  have hv2 := sof_valid_facts id hv
  rw [ReadEntry_of_drop hd]
  simp only [hv2, h1, h2, h3, h4, hid, Bool.not_true, Bool.false_eq_true, if_false, if_true]

/-- Claim C27: at a start-of-frame marker (any of the thirteen that
`SofEntry.IsValid` accepts) with declared length `L ≥ 8` followed by the
`L - 2` payload bytes `p`, `SofEntry.Read` returns the entry with
`Precision = p[0]`, `Height = p[1] + 256 * p[2]`, `Width = p[3] + 256 * p[4]`,
`Components = p[5]` and `Data = p[6..]` and moves the position by `L + 2`;
`Write` emits the length high byte first and height and width low byte first,
and these `L + 2` bytes are the source bytes of the segment. For a marker that
the switch of `ReadEntry` lists, `ReadEntry` returns this entry. -/
theorem C27_frame_header (B : List Byte) (pos : Nat) (id l1 l2 : Byte) (p rest : List Byte)
    (hid : SofEntry.IsValid ⟨255, id, 0, 0, 0, 0, 0, none, 0⟩ = true)
    (hB : B.drop pos = 255 :: id :: l1 :: l2 :: (p ++ rest))
    (hL : 8 ≤ beWord l1 l2) (hp : p.length = beWord l1 l2 - 2) :
    SofEntry.Read B pos
      = .ok (⟨255, id, beWord l1 l2, p.getD 0 0, (p.getD 1 0).val + 256 * (p.getD 2 0).val,
              (p.getD 3 0).val + 256 * (p.getD 4 0).val, p.getD 5 0, some (p.drop 6), pos⟩,
            pos + (beWord l1 l2 + 2)) ∧
    (Entry.sof ⟨255, id, beWord l1 l2, p.getD 0 0, (p.getD 1 0).val + 256 * (p.getD 2 0).val,
        (p.getD 3 0).val + 256 * (p.getD 4 0).val, p.getD 5 0, some (p.drop 6), pos⟩).bytes
      = [255, id, toByte (beWord l1 l2 / 256), toByte (beWord l1 l2), p.getD 0 0,
          toByte ((p.getD 1 0).val + 256 * (p.getD 2 0).val),
          toByte (((p.getD 1 0).val + 256 * (p.getD 2 0).val) / 256),
          toByte ((p.getD 3 0).val + 256 * (p.getD 4 0).val),
          toByte (((p.getD 3 0).val + 256 * (p.getD 4 0).val) / 256),
          p.getD 5 0] ++ p.drop 6 ∧
    (Entry.sof ⟨255, id, beWord l1 l2, p.getD 0 0, (p.getD 1 0).val + 256 * (p.getD 2 0).val,
        (p.getD 3 0).val + 256 * (p.getD 4 0).val, p.getD 5 0, some (p.drop 6), pos⟩).bytes
      = 255 :: id :: l1 :: l2 :: p ∧
    (255 :: id :: l1 :: l2 :: p).length = beWord l1 l2 + 2 ∧
    (isSofCase id = true →
      anEntry.ReadEntry B pos
        = .ok (.sof ⟨255, id, beWord l1 l2, p.getD 0 0,
              (p.getD 1 0).val + 256 * (p.getD 2 0).val,
              (p.getD 3 0).val + 256 * (p.getD 4 0).val, p.getD 5 0, some (p.drop 6), pos⟩,
            pos + (beWord l1 l2 + 2))) := by
  have hlt := beWord_lt l1 l2
  have hLn : @LE.le Nat _ 8 (beWord l1 l2) := hL
  have hpn : @Eq Nat p.length (beWord l1 l2 - 2) := hp
  have hlen6 : 6 ≤ p.length := by omega
  match p, hp, hpn, hlen6, hB with
  | p0 :: h0 :: h1 :: w0 :: w1 :: c :: d3, hp, hpn, _, hB =>
    have hmod : (p0 :: h0 :: h1 :: w0 :: w1 :: c :: d3).length
        = (beWord l1 l2 + 65536 - 2) % 65536 := by
      rw [length_mod_of_ge (by omega) hlt]
      exact hp
    have hne : beWord l1 l2 ≠ 0 := by
      intro h0
      rw [h0] at hLn
      omega
    have hr := SofEntry_Read_eval hB hid hne hmod
    have hpos : pos + 4 + (p0 :: h0 :: h1 :: w0 :: w1 :: c :: d3).length
        = pos + (beWord l1 l2 + 2) := by
      show @Eq Nat _ _
      omega
    rw [hpos] at hr
    simp only [List.getD_cons_zero, List.getD_cons_succ, List.drop_succ_cons, List.drop_zero]
    refine ⟨hr, ?_, ?_, ?_, ?_⟩
    · rw [Entry.bytes_eq]
      rfl
    · rw [Entry.bytes_eq]
      simp only [toByte_beWord_hi, toByte_beWord_lo, toByte_le_lo, toByte_le_hi,
        Option.getD_some, List.cons_append, List.nil_append]
    · simp only [List.length_cons] at hpn ⊢
      show @Eq Nat _ _
      omega
    · intro hcase
      rw [ReadEntry_at_sof hB hcase, hr]
      rfl

theorem C27_frame_header_witness :
    SofEntry.Read [0xff, 0xd8, 0xff, 0xc9, 0, 9, 8, 2, 1, 4, 3, 1, 0x11, 0xff, 0xd9] 2
      = .ok (⟨255, SOF9, 9, 8, 258, 772, 1, some [0x11], 2⟩, 13) ∧
    (Entry.sof ⟨255, SOF9, 9, 8, 258, 772, 1, some [0x11], 2⟩).bytes
      = [0xff, 0xc9, 0, 9, 8, 2, 1, 4, 3, 1, 0x11] :=
  ⟨(C27_frame_header [0xff, 0xd8, 0xff, 0xc9, 0, 9, 8, 2, 1, 4, 3, 1, 0x11, 0xff, 0xd9] 2
      SOF9 0 9 [8, 2, 1, 4, 3, 1, 0x11] [0xff, 0xd9] (by decide) rfl (by decide)
      (by decide)).1,
   (C27_frame_header [0xff, 0xd8, 0xff, 0xc9, 0, 9, 8, 2, 1, 4, 3, 1, 0x11, 0xff, 0xd9] 2
      SOF9 0 9 [8, 2, 1, 4, 3, 1, 0x11] [0xff, 0xd9] (by decide) rfl (by decide)
      (by decide)).2.2.1⟩

/-! ### Truncated streams -/

theorem readFull_ne_panic (B : List Byte) (pos n : Nat) : readFull B pos n ≠ .panic := by
  unfold readFull
  split
  · intro h; cases h
  · split <;> (intro h; cases h)

theorem fileRead_ne_panic (B : List Byte) (pos n : Nat) : fileRead B pos n ≠ .panic := by
  unfold fileRead
  split
  · intro h; cases h
  · split <;> (intro h; cases h)

theorem ReadStructHere_ne_panic (B : List Byte) (pos n : Nat) :
    ReadStructHere B pos n ≠ .panic := by
  unfold ReadStructHere
  cases hr : readFull B pos n with
  | ok r => intro h; cases h
  | error e => intro h; cases h
  | panic => exact absurd hr (readFull_ne_panic B pos n)

theorem lookupHeader_Read_ne_panic (B : List Byte) (pos : Nat) :
    lookupHeader.Read B pos ≠ .panic := by
  unfold lookupHeader.Read
  cases hr : ReadStructHere B pos 4 with
  | ok bs =>
    simp only
    split <;> (intro h; cases h)
  | error e => intro h; cases h
  | panic => exact absurd hr (ReadStructHere_ne_panic B pos 4)

theorem lookupHeader_ReadData_ne_panic (lkp : lookupHeader) (B : List Byte) (pos : Nat) :
    lkp.ReadData B pos ≠ .panic := by
  unfold lookupHeader.ReadData
  split
  · intro h; cases h
  · cases hr : fileRead B (pos + 4) ((lkp.Len + 65536 - 2) % 65536) with
    | ok r => intro h; cases h
    | error e => intro h; cases h
    | panic => exact absurd hr (fileRead_ne_panic _ _ _)

theorem SoiEntry_Read_ne_panic (B : List Byte) : SoiEntry.Read B ≠ .panic := by
  unfold SoiEntry.Read
  cases hr : fileRead B 0 2 with
  | ok r =>
    simp only
    split <;> (intro h; cases h)
  | error e => intro h; cases h
  | panic => exact absurd hr (fileRead_ne_panic _ _ _)

theorem EoiEntry_Read_ne_panic (B : List Byte) (pos : Nat) : EoiEntry.Read B pos ≠ .panic := by
  unfold EoiEntry.Read
  cases hr : fileRead B pos 2 with
  | ok r =>
    simp only
    split <;> (intro h; cases h)
  | error e => intro h; cases h
  | panic => exact absurd hr (fileRead_ne_panic _ _ _)

theorem App0Entry_Read_ne_panic (B : List Byte) (pos : Nat) : App0Entry.Read B pos ≠ .panic := by
  unfold App0Entry.Read
  cases hr : readFull B pos 18 with
  | ok r =>
    obtain ⟨bs, here⟩ := r
    simp only
    split
    · intro h; cases h
    · split
      · cases hf : fileRead B here
            (3 * (App0Entry.ofFixed bs pos).Xthumbnail.val
              * (App0Entry.ofFixed bs pos).Ythumbnail.val) with
        | ok r2 => intro h; cases h
        | error e => intro h; cases h
        | panic => exact absurd hf (fileRead_ne_panic _ _ _)
      · intro h; cases h
  | error e => intro h; cases h
  | panic => exact absurd hr (readFull_ne_panic _ _ _)

theorem AppnEntry_Read_ne_panic (B : List Byte) (pos : Nat) : AppnEntry.Read B pos ≠ .panic := by
  unfold AppnEntry.Read
  cases hl : lookupHeader.Read B pos with
  | ok tmp =>
    simp only
    split
    · intro h; cases h
    · cases hrd : tmp.ReadData B pos with
      | ok r => intro h; cases h
      | error e => intro h; cases h
      | panic => exact absurd hrd (lookupHeader_ReadData_ne_panic _ _ _)
  | error e => intro h; cases h
  | panic => exact absurd hl (lookupHeader_Read_ne_panic _ _)

theorem DqtEntry_Read_ne_panic (B : List Byte) (pos : Nat) : DqtEntry.Read B pos ≠ .panic := by
  unfold DqtEntry.Read
  cases hl : lookupHeader.Read B pos with
  | ok tmp =>
    simp only
    split
    · intro h; cases h
    · cases hrd : tmp.ReadData B pos with
      | ok r => intro h; cases h
      | error e => intro h; cases h
      | panic => exact absurd hrd (lookupHeader_ReadData_ne_panic _ _ _)
  | error e => intro h; cases h
  | panic => exact absurd hl (lookupHeader_Read_ne_panic _ _)

/-- A reader that ends in a panic had read the header and the payload. -/
theorem SofEntry_Read_panic {B : List Byte} {pos : Nat} (h : SofEntry.Read B pos = .panic) :
    ∃ tmp d here, lookupHeader.Read B pos = .ok tmp ∧ tmp.ReadData B pos = .ok (d, here) ∧
      (d.getD []).length < 6 := by
  unfold SofEntry.Read at h
  cases hl : lookupHeader.Read B pos with
  | error err => rw [hl] at h; cases h
  | panic => exact absurd hl (lookupHeader_Read_ne_panic _ _)
  | ok tmp =>
    rw [hl] at h
    simp only at h
    split at h
    · cases h
    · cases hrd : tmp.ReadData B pos with
      | error err => rw [hrd] at h; cases h
      | panic => exact absurd hrd (lookupHeader_ReadData_ne_panic _ _ _)
      | ok r =>
        obtain ⟨d, here2⟩ := r
        refine ⟨tmp, d, here2, rfl, hrd, ?_⟩
        rw [hrd] at h
        simp only at h
        match hd : d.getD [] with
        | [] => simp
        | [_] => simp
        | [_, _] => simp
        | [_, _, _] => simp
        | [_, _, _, _] => simp
        | [_, _, _, _, _] => simp
        | precision :: h0 :: h1 :: w0 :: w1 :: components :: data3 =>
          rw [hd] at h
          simp [GetWordLE] at h

theorem DhtEntry_Read_panic {B : List Byte} {pos : Nat} (h : DhtEntry.Read B pos = .panic) :
    ∃ tmp d here, lookupHeader.Read B pos = .ok tmp ∧ tmp.ReadData B pos = .ok (d, here) ∧
      (d.getD []).length < 17 := by
  unfold DhtEntry.Read at h
  cases hl : lookupHeader.Read B pos with
  | error err => rw [hl] at h; cases h
  | panic => exact absurd hl (lookupHeader_Read_ne_panic _ _)
  | ok tmp =>
    rw [hl] at h
    simp only at h
    split at h
    · cases h
    · cases hrd : tmp.ReadData B pos with
      | error err => rw [hrd] at h; cases h
      | panic => exact absurd hrd (lookupHeader_ReadData_ne_panic _ _ _)
      | ok r =>
        obtain ⟨d, here2⟩ := r
        refine ⟨tmp, d, here2, rfl, hrd, ?_⟩
        rw [hrd] at h
        simp only at h
        match hd : d.getD [] with
        | [] => simp
        | htInfo :: data1 =>
          rw [hd] at h
          simp only at h
          split at h
          · rename_i h16
            simp only [List.length_cons]
            omega
          · split at h
            · cases h
            · split at h
              · cases h
              · split at h <;> cases h

theorem readComponents_ne_error (n : Nat) :
    ∀ (d : List Byte) (err : Err), readComponents n d ≠ .error err := by
  induction n with
  | zero => intro d err h; cases h
  | succ n ih =>
    intro d err h
    match d with
    | [] => cases h
    | [_] => cases h
    | id :: ht :: d2 =>
      simp only [readComponents] at h
      cases hc : readComponents n d2 with
      | ok r => rw [hc] at h; cases h
      | error e => exact ih d2 e hc
      | panic => rw [hc] at h; cases h

theorem readComponents_panic (n : Nat) :
    ∀ d : List Byte, readComponents n d = .panic → d.length < 2 * n := by
  induction n with
  | zero => intro d h; cases h
  | succ n ih =>
    intro d h
    match d with
    | [] => simp
    | [_] => simp only [List.length_cons, List.length_nil]; omega
    | id :: ht :: d2 =>
      simp only [readComponents] at h
      cases hc : readComponents n d2 with
      | ok r => rw [hc] at h; cases h
      | error e => rw [hc] at h; cases h
      | panic =>
        have := ih d2 hc
        simp only [List.length_cons]
        omega

theorem scanLoop_ne_panic (s : List Byte) :
    ∀ (pos sz : Nat) (ox : Byte) (img : List Byte), scanLoop s pos sz ox img ≠ .panic := by
  induction s with
  | nil => intro pos sz ox img h; cases h
  | cons b rest ih =>
    intro pos sz ox img h
    simp only [scanLoop] at h
    split at h
    · exact ih _ _ _ _ h
    · split at h
      · cases h
      · exact ih _ _ _ _ h

theorem SosEntry_Read_panic {B : List Byte} {pos : Nat} (h : SosEntry.Read B pos = .panic) :
    ∃ tmp d here, lookupHeader.Read B pos = .ok tmp ∧ tmp.ReadData B pos = .ok (d, here) ∧
      (d.getD [] = [] ∨
        ∃ cc data1, d.getD [] = cc :: data1 ∧ data1.length < 2 * cc.val) := by
  unfold SosEntry.Read at h
  cases hl : lookupHeader.Read B pos with
  | error err => rw [hl] at h; cases h
  | panic => exact absurd hl (lookupHeader_Read_ne_panic _ _)
  | ok tmp =>
    rw [hl] at h
    simp only at h
    split at h
    · cases h
    · cases hrd : tmp.ReadData B pos with
      | error err => rw [hrd] at h; cases h
      | panic => exact absurd hrd (lookupHeader_ReadData_ne_panic _ _ _)
      | ok r =>
        obtain ⟨d, here2⟩ := r
        refine ⟨tmp, d, here2, rfl, hrd, ?_⟩
        rw [hrd] at h
        simp only at h
        match hd : d.getD [] with
        | [] => exact Or.inl rfl
        | cc :: data1 =>
          right
          refine ⟨cc, data1, rfl, ?_⟩
          rw [hd] at h
          simp only at h
          cases hc : readComponents cc.val data1 with
          | error err => exact absurd hc (readComponents_ne_error _ _ _)
          | panic => exact readComponents_panic _ _ hc
          | ok r2 =>
            obtain ⟨cs, data2⟩ := r2
            rw [hc] at h
            simp only at h
            cases hs : scanLoop (B.drop here2) here2 0 0 [] with
            | error err => rw [hs] at h; cases h
            | panic => exact absurd hs (scanLoop_ne_panic _ _ _ _ _)
            | ok r3 => rw [hs] at h; cases h

/-- The first byte of a buffer that a read filled, at least in part, is the
byte under the position. -/
theorem fileRead_head {B : List Byte} {pos n : Nat} {x : Byte} {data : List Byte} {here : Nat}
    (h : fileRead B pos n = .ok (x :: data, here)) :
    ∃ rest, B.drop pos = x :: rest := by
  unfold fileRead at h
  split at h
  · cases h
  · split at h
    · cases h
    · rename_i hn hlt
      simp only [Res.ok.injEq, Prod.mk.injEq] at h
      obtain ⟨h1, _⟩ := h
      match hd : B.drop pos with
      | [] =>
        have := congrArg List.length hd
        simp only [List.length_drop, List.length_nil] at this
        omega
      | y :: rest =>
        rw [hd] at h1
        match n, hn with
        | k + 1, _ =>
          simp only [List.take_succ_cons, List.cons_append, List.cons.injEq] at h1
          rw [h1.1]
          exact ⟨rest, rfl⟩

theorem Res.entry_panic {α : Type} {f : α → Entry} {r : Res (α × Nat)}
    (h : r.entry f = .panic) : r = .panic := by
  cases r with
  | ok a => cases h
  | error e => cases h
  | panic => rfl

/-- The payload buffers that `ReadData` returns on a stream and on a
truncation of it have the same size and, when not empty, the same first
byte. -/
theorem payload_prefix {P T : List Byte} {pos here here2 : Nat} {tmp tmp2 : lookupHeader}
    {d d2 : Option (List Byte)} (hl : lookupHeader.Read P pos = .ok tmp)
    (hrd : tmp.ReadData P pos = .ok (d, here))
    (hl2 : lookupHeader.Read (P ++ T) pos = .ok tmp2)
    (hrd2 : tmp2.ReadData (P ++ T) pos = .ok (d2, here2)) :
    (d2.getD []).length = (d.getD []).length ∧
    ∀ x data, d2.getD [] = x :: data → ∃ data1, d.getD [] = x :: data1 := by
  have ht := lookupHeader_Read_append hl T
  rw [hl2] at ht
  simp only [Res.ok.injEq] at ht
  subst ht
  obtain ⟨h1, _⟩ := payload_size hl hrd
  obtain ⟨h2, _⟩ := payload_size hl2 hrd2
  refine ⟨by rw [h1, h2], ?_⟩
  intro x data hx
  obtain ⟨_, _, _, _, hle⟩ := lookupHeader_Read_ok hl
  obtain ⟨_, _, _, _, hle2⟩ := lookupHeader_Read_ok hl2
  have hlen : (d.getD []).length = data.length + 1 := by
    rw [h1, ← h2, hx]
    rfl
  match hdd : d.getD [], hlen with
  | y :: data1, _ =>
    refine ⟨data1, ?_⟩
    rcases lookupHeader_ReadData_ok hrd hle with ⟨_, hn, _⟩ | ⟨_, dat, hsome, hf, _⟩
    · rw [hn] at hdd
      cases hdd
    · rcases lookupHeader_ReadData_ok hrd2 hle2 with ⟨_, hn2, _⟩ | ⟨_, dat2, hsome2, hf2, _⟩
      · rw [hn2] at hx
        cases hx
      · rw [hsome] at hdd
        rw [hsome2] at hx
        simp only [Option.getD_some] at hdd hx
        subst hdd hx
        obtain ⟨rest, hr⟩ := fileRead_head hf
        obtain ⟨rest2, hr2⟩ := fileRead_head hf2
        have := drop_append_cons hr hle T
        rw [hr2] at this
        simp only [List.cons_append, List.cons.injEq] at this
        rw [this.1]

/-- A step that succeeds on a stream does not end in a panic on a truncation
of the stream: the parsers index a payload whose size is the declared one,
whether the file holds all of it or not. -/
theorem ReadEntry_prefix_ne_panic {P T : List Byte} {pos here : Nat} {e : Entry}
    (h : anEntry.ReadEntry (P ++ T) pos = .ok (e, here)) :
    anEntry.ReadEntry P pos ≠ .panic := by
  intro hpanic
  cases hp : ReadStructHere P pos 2 with
  | error err => simp [anEntry.ReadEntry, hp] at hpanic
  | panic => exact absurd hp (ReadStructHere_ne_panic _ _ _)
  | ok bs =>
    obtain ⟨a, b, _, hd⟩ := ReadStructHere_two hp
    have hpos : pos ≤ P.length := Nat.le_of_lt (drop_length_le hd)
    have hd2 : (P ++ T).drop pos = a :: b :: (P.drop (pos + 2) ++ T) :=
      drop_append_cons hd hpos T
    rw [ReadEntry_of_drop hd2] at h
    rw [ReadEntry_of_drop hd] at hpanic
    split at h
    · cases h
    rename_i hval
    rw [if_neg hval] at hpanic
    split at h
    · rename_i hb
      rw [if_pos hb] at hpanic
      exact absurd (Res.entry_panic hpanic) (SoiEntry_Read_ne_panic _)
    rename_i hb1
    rw [if_neg hb1] at hpanic
    split at h
    · rename_i hb
      rw [if_pos hb] at hpanic
      exact absurd (Res.entry_panic hpanic) (App0Entry_Read_ne_panic _ _)
    rename_i hb2
    rw [if_neg hb2] at hpanic
    split at h
    · rename_i hb
      rw [if_pos hb] at hpanic
      exact absurd (Res.entry_panic hpanic) (AppnEntry_Read_ne_panic _ _)
    rename_i hb3
    rw [if_neg hb3] at hpanic
    split at h
    · rename_i hb
      rw [if_pos hb] at hpanic
      exact absurd (Res.entry_panic hpanic) (DqtEntry_Read_ne_panic _ _)
    rename_i hb4
    rw [if_neg hb4] at hpanic
    split at h
    · rename_i hb
      rw [if_pos hb] at hpanic
      obtain ⟨a2, hr, _⟩ := Res.entry_ok h
      obtain ⟨tmp, d, here1, hl, hrd, hlen⟩ := SofEntry_Read_panic (Res.entry_panic hpanic)
      obtain ⟨tmp2, d2, hl2, hrd2, _, _, _, _, _, _, _, hd6, _⟩ := SofEntry_Read_ok hr
      obtain ⟨heq, _⟩ := payload_prefix hl hrd hl2 hrd2
      rw [hd6] at heq
      simp only [List.length_cons] at heq
      omega
    rename_i hb5
    rw [if_neg hb5] at hpanic
    split at h
    · rename_i hb
      rw [if_pos hb] at hpanic
      obtain ⟨a2, hr, _⟩ := Res.entry_ok h
      obtain ⟨tmp, d, here1, hl, hrd, hlen⟩ := DhtEntry_Read_panic (Res.entry_panic hpanic)
      obtain ⟨tmp2, d2, hl2, hrd2, _, _, hd1, h16, _⟩ := DhtEntry_Read_ok hr
      obtain ⟨heq, _⟩ := payload_prefix hl hrd hl2 hrd2
      rw [hd1] at heq
      simp only [List.length_cons] at heq
      omega
    rename_i hb6
    rw [if_neg hb6] at hpanic
    split at h
    · rename_i hb
      rw [if_pos hb] at hpanic
      obtain ⟨a2, hr, _⟩ := Res.entry_ok h
      obtain ⟨tmp, d, here1, hl, hrd, hc⟩ := SosEntry_Read_panic (Res.entry_panic hpanic)
      obtain ⟨tmp2, d2, here2, hl2, hrd2, cc2, data2, cs, _, _, hd1, hrc, _⟩ :=
        SosEntry_Read_ok hr
      obtain ⟨heq, hhead⟩ := payload_prefix hl hrd hl2 hrd2
      obtain ⟨hcb, hcl⟩ := readComponents_ok hrc
      have hlen2 := congrArg List.length hcb
      rw [List.length_append, componentBytes_length, hcl] at hlen2
      obtain ⟨data1, hd0⟩ := hhead cc2 data2 hd1
      rw [hd1, hd0] at heq
      simp only [List.length_cons] at heq
      rcases hc with hnil | ⟨cc, dat, hcons, hshort⟩
      · rw [hnil] at hd0
        cases hd0
      · rw [hcons] at hd0
        simp only [List.cons.injEq] at hd0
        obtain ⟨hcc, hdat⟩ := hd0
        subst hcc hdat
        omega
    rename_i hb7
    rw [if_neg hb7] at hpanic
    split at h
    · rename_i hb
      rw [if_pos hb] at hpanic
      exact absurd (Res.entry_panic hpanic) (EoiEntry_Read_ne_panic _ _)
    · cases h

/-- At or behind the end of the file `ReadEntry` returns the error `EOF`. -/
theorem ReadEntry_at_end {P : List Byte} {pos : Nat} (h : P.length ≤ pos) :
    anEntry.ReadEntry P pos = .error .EOF := by
  unfold anEntry.ReadEntry ReadStructHere readFull
  rw [if_neg (by omega), if_pos h]

/-- The loop on a stream cut before the end of its end-of-image entry: it
follows the run of the whole stream for as long as the steps are the same and
then fails with an error, at the latest one round after the step that the cut
changed. -/
theorem loadLoop_truncated {P T : List Byte} {p q pF : Nat} {es : List Entry} {last : Entry}
    (hw : Walk (P ++ T) p es q) (hl : anEntry.ReadEntry (P ++ T) q = .ok (last, pF))
    (hcut : P.length < q + 2) :
    ∀ (fuel : Nat) (acc : List Entry), es.length < fuel →
      ∃ s err, Exif.loadLoop P fuel p acc = .failed s (.loadEntry err) := by
  induction hw with
  | nil p =>
    intro fuel acc hfuel
    obtain ⟨k, hk⟩ : ∃ k, fuel = k + 1 := ⟨fuel - 1, by simp only [List.length_nil] at hfuel; omega⟩
    subst hk
    cases hr : anEntry.ReadEntry P p with
    | error err => exact ⟨_, err, loadLoop_error hr k acc⟩
    | panic => exact absurd hr (ReadEntry_prefix_ne_panic hl)
    | ok r =>
      obtain ⟨e2, here2⟩ := r
      have := ReadEntry_ok_le hr
      omega
  | @cons p q r e es h hne hw ih =>
    intro fuel acc hfuel
    simp only [List.length_cons] at hfuel
    obtain ⟨k, hk⟩ : ∃ k, fuel = k + 1 := ⟨fuel - 1, by omega⟩
    subst hk
    cases hr : anEntry.ReadEntry P p with
    | error err => exact ⟨_, err, loadLoop_error hr k acc⟩
    | panic => exact absurd hr (ReadEntry_prefix_ne_panic h)
    | ok r2 =>
      obtain ⟨e2, here2⟩ := r2
      by_cases hc : here2 < P.length ∨ e2.GetId = EOI
      · have hsame := ReadEntry_append hr hc T
        rw [h] at hsame
        simp only [Res.ok.injEq, Prod.mk.injEq] at hsame
        obtain ⟨he, hq⟩ := hsame
        subst he hq
        rw [loadLoop_next hr hne]
        exact ih hl hcut k _ (by omega)
      · simp only [not_or, Nat.not_lt] at hc
        obtain ⟨hend, hne2⟩ := hc
        obtain ⟨j, hj⟩ : ∃ j, k = j + 1 := ⟨k - 1, by omega⟩
        subst hj
        rw [loadLoop_next hr hne2]
        exact ⟨_, _, loadLoop_error (ReadEntry_at_end hend) j _⟩

/-- Claim C21: if `Load` succeeds on the stream `B` and consumes all of it,
then on every proper prefix `P` of `B`, the empty stream included, `Load`
fails with the error of an entry reader, given the fuel that sufficed for `B`
or more: it neither returns a container nor ends in a panic nor runs on. -/
theorem C21_truncated_stream_fails (fuel : Nat) (path : String) (B : List Byte) (x : Exif)
    (h : Exif.Load fuel Exif.zero path B = .done x) (hleft : x.NoDataLeft = true)
    (P : List Byte) (hP : P <+: B) (hne : P ≠ B) (fuel2 : Nat) (hfuel : fuel ≤ fuel2)
    (path2 : String) :
    (∃ y err, Exif.Load fuel2 Exif.zero path2 P = .failed y (.loadEntry err)) ∧
    (∀ y, Exif.Load fuel2 Exif.zero path2 P ≠ .done y) ∧
    Exif.Load fuel2 Exif.zero path2 P ≠ .panicked ∧
    Exif.Load fuel2 Exif.zero path2 P ≠ .outOfFuel := by
  obtain ⟨es, q, hw, hl, hx, hlen⟩ := Load_done h
  subst hx
  simp only [decide_eq_true_eq] at hleft
  obtain ⟨T, hT⟩ := hP
  subst hT
  have hTne : T ≠ [] := by
    intro hnil
    subst hnil
    exact hne (List.append_nil P).symm
  have hTlen : 0 < T.length := List.length_pos.mpr hTne
  have hcut : P.length < q + 2 := by
    rw [hleft, List.length_append]
    omega
  obtain ⟨s, err, hloop⟩ := loadLoop_truncated hw hl hcut fuel2 Exif.zero.Entries (by omega)
  have hload : Exif.Load fuel2 Exif.zero path2 P
      = .failed { Exif.zero with Path := path2, Entries := s.1 } (.loadEntry err) := by
    unfold Exif.Load
    rw [hloop]
  rw [hload]
  refine ⟨⟨_, err, rfl⟩, ?_, ?_, ?_⟩
  · intro y hy
    cases hy
  · intro hy
    cases hy
  · intro hy
    cases hy

theorem C21_truncated_stream_fails_witness :
    (∃ y err, Exif.Load 3 Exif.zero "b.jpg" [0xff, 0xd8, 0xff, 0xe1, 0, 3, 7, 0xff]
      = .failed y (.loadEntry err)) ∧
    (∃ y err, Exif.Load 3 Exif.zero "b.jpg" [] = .failed y (.loadEntry err)) :=
  ⟨(C21_truncated_stream_fails 3 "a.jpg" [0xff, 0xd8, 0xff, 0xe1, 0, 3, 7, 0xff, 0xd9]
      ⟨"a.jpg", [.soi ⟨255, SOI, 0⟩, .appn ⟨255, APP1, 3, some [7], 2⟩, .eoi ⟨255, EOI, 7⟩],
        true⟩
      (by decide) rfl [0xff, 0xd8, 0xff, 0xe1, 0, 3, 7, 0xff] (by decide) (by decide) 3
      (Nat.le_refl 3) "b.jpg").1,
   (C21_truncated_stream_fails 3 "a.jpg" [0xff, 0xd8, 0xff, 0xe1, 0, 3, 7, 0xff, 0xd9]
      ⟨"a.jpg", [.soi ⟨255, SOI, 0⟩, .appn ⟨255, APP1, 3, some [7], 2⟩, .eoi ⟨255, EOI, 7⟩],
        true⟩
      (by decide) rfl [] (by decide) (by decide) 3 (Nat.le_refl 3) "b.jpg").1⟩

end exif
